import Mathlib

/-!
Verification of the core numeric engine of the interpret gradient-boosting library:
the sparse piecewise-constant score tensor (src/shared/libebm/Tensor.cpp) and the
interaction-strength evaluator (src/shared/ebm_native/CalculateInteractionScore.cpp).

Modelling conventions.
* `size_t` arithmetic is modelled over `Nat` with an explicit modulus `cSizeMax = 2^64`;
  the overflow guards `IsAddError` / `IsMultiplyError` test against that modulus exactly
  as the C++ helpers do.
* IEEE-754 doubles are modelled by `EFloat`: NaN, the two infinities, and finite values
  carried as exact rationals.  Finite results whose magnitude exceeds the largest
  representable double (`floatMax`) overflow to the corresponding infinity, mirroring
  IEEE overflow; comparisons involving NaN are false, as in IEEE.
* Heap allocation and `realloc` are modelled by boolean success oracles passed to each
  operation; on failure the old buffer survives, which the model renders by returning
  the tensor unchanged (buffers are total functions, reallocation never moves content).
* Buffers are total functions (`Nat → α`) plus an explicit capacity field measured in
  bytes, matching the byte-counted capacities of the source.
-/

/-- Modulus of the C++ `size_t` type on the 64-bit targets the library builds for. -/
def cSizeMax : Nat := 2 ^ 64

/-- `IsAddError` from ebm_internal: does `a + b` overflow `size_t`? -/
def IsAddError (a b : Nat) : Bool := decide (cSizeMax ≤ a + b)

/-- `IsMultiplyError` from ebm_internal: does `a * b` overflow `size_t`? -/
def IsMultiplyError (a b : Nat) : Bool := decide (cSizeMax ≤ a * b)

/-- `sizeof(UIntSplit)` — the split coordinates are stored as 64-bit integers. -/
def cBytesPerSplit : Nat := 8

/-- `sizeof(FloatScore)` — scores are doubles. -/
def cBytesPerFloat : Nat := 8

/-- `k_cDimensionsMax`: the dimension bound of the library (≈ 64). -/
def k_cDimensionsMax : Nat := 64

/-- Largest finite double, `std::numeric_limits<double>::max()` = (2 − 2⁻⁵²)·2¹⁰²³. -/
def floatMax : ℚ := 2 ^ 1024 - 2 ^ 971

/-- `std::numeric_limits<double>::lowest()` = −max. -/
def floatLowest : ℚ := -floatMax

/-- Idealized IEEE-754 double: NaN, infinities, or an exact finite rational. -/
inductive EFloat where
  | NaN : EFloat
  | PInf : EFloat
  | NInf : EFloat
  | val : ℚ → EFloat
deriving DecidableEq

namespace EFloat

/-- Route an exact rational result through IEEE overflow: beyond the largest finite
double in magnitude the result becomes the corresponding infinity. -/
def clamp (q : ℚ) : EFloat :=
  if floatMax < q then PInf else if q < floatLowest then NInf else val q

/-- IEEE addition on the idealized doubles. -/
def add : EFloat → EFloat → EFloat
  | NaN, _ => NaN
  | _, NaN => NaN
  | PInf, NInf => NaN
  | NInf, PInf => NaN
  | PInf, _ => PInf
  | _, PInf => PInf
  | NInf, _ => NInf
  | _, NInf => NInf
  | val a, val b => clamp (a + b)

/-- IEEE multiplication on the idealized doubles. -/
def mul : EFloat → EFloat → EFloat
  | NaN, _ => NaN
  | _, NaN => NaN
  | PInf, PInf => PInf
  | PInf, NInf => NInf
  | NInf, PInf => NInf
  | NInf, NInf => PInf
  | PInf, val b => if b = 0 then NaN else if 0 < b then PInf else NInf
  | val a, PInf => if a = 0 then NaN else if 0 < a then PInf else NInf
  | NInf, val b => if b = 0 then NaN else if 0 < b then NInf else PInf
  | val a, NInf => if a = 0 then NaN else if 0 < a then NInf else PInf
  | val a, val b => clamp (a * b)

/-- IEEE division on the idealized doubles. -/
def div : EFloat → EFloat → EFloat
  | NaN, _ => NaN
  | _, NaN => NaN
  | PInf, PInf => NaN
  | PInf, NInf => NaN
  | NInf, PInf => NaN
  | NInf, NInf => NaN
  | PInf, val b => if b < 0 then NInf else PInf
  | NInf, val b => if b < 0 then PInf else NInf
  | val _, PInf => val 0
  | val _, NInf => val 0
  | val a, val b =>
      if b = 0 then (if a = 0 then NaN else if 0 < a then PInf else NInf)
      else clamp (a / b)

/-- IEEE `<=`: false whenever either side is NaN. -/
def fle : EFloat → EFloat → Bool
  | NaN, _ => false
  | _, NaN => false
  | NInf, _ => true
  | _, PInf => true
  | PInf, _ => false
  | _, NInf => false
  | val a, val b => decide (a ≤ b)

/-- IEEE `<`: false whenever either side is NaN. -/
def flt : EFloat → EFloat → Bool
  | NaN, _ => false
  | _, NaN => false
  | PInf, _ => false
  | _, NInf => false
  | NInf, _ => true
  | _, PInf => true
  | val a, val b => decide (a < b)

/-- `std::isnan`. -/
def isNaN : EFloat → Bool
  | NaN => true
  | _ => false

/-- `std::isinf`. -/
def isInf : EFloat → Bool
  | PInf => true
  | NInf => true
  | _ => false

/-- The value is an ordinary finite double. -/
def isFinite : EFloat → Bool
  | val _ => true
  | _ => false

end EFloat

/-- `ErrorEbm` return codes used by the two translation units. -/
inductive ErrorEbm where
  | Error_None
  | Error_OutOfMemory
  | Error_IllegalParamValue
deriving DecidableEq

/-! ### The sparse score tensor (src/shared/libebm/Tensor.cpp) -/

/-- Per-dimension bookkeeping of `Tensor`: the live slice count, the slice capacity
(the split buffer holds `cSliceCapacity - 1` coordinates), and the split buffer
itself, modelled as a total function (entries at or beyond the capacity are the
unowned memory past the buffer and are never read by well-formed calls). -/
structure DimensionInfo where
  cSlices : Nat
  cSliceCapacity : Nat
  aSplits : Nat → Nat

instance : Inhabited DimensionInfo := ⟨⟨0, 0, fun _ => 0⟩⟩

/-- The `Tensor` class of Tensor.cpp.  `m_cDimensionsMax` is taken equal to
`m_cDimensions` (the extra headroom dimensions are never observable).  The score
buffer capacity is counted in bytes as in the source. -/
structure Tensor where
  cScores : Nat
  dims : List DimensionInfo
  cTensorScoreCapacity : Nat
  aTensorScores : Nat → EFloat
  bExpanded : Bool

namespace Tensor

/-- `m_cDimensions`. -/
def cDimensions (t : Tensor) : Nat := t.dims.length

/-- Number of live scores, `m_cScores * ∏_d m_cSlices[d]` — the quantity the source
recomputes by looping over the dimensions in `MultiplyAndCheckForIssues`,
`AddExpandedWithBadValueProtection` and the entry loops of `Expand` and `Add`. -/
def liveScoreCount (t : Tensor) : Nat :=
  t.cScores * (t.dims.map DimensionInfo.cSlices).prod

/-- `Tensor::Reset`: every slice count back to 1, the first `m_cScores` scores zeroed,
the expanded flag cleared.  Capacities are untouched. -/
def Reset (t : Tensor) : Tensor :=
  { t with
    dims := t.dims.map fun d => { d with cSlices := 1 }
    aTensorScores := fun i => if i < t.cScores then EFloat.val 0 else t.aTensorScores i
    bExpanded := false }

/-- `Tensor::SetCountSlices`.  When the requested slice count exceeds the capacity the
split buffer is reallocated with 50% geometric headroom; overflow of the sizing
arithmetic or a failed `realloc` (the `allocOk` oracle) returns `Error_OutOfMemory`
leaving the tensor untouched (the realloc contract keeps the old buffer alive). -/
def SetCountSlices (t : Tensor) (iDimension : Nat) (cSlices : Nat) (allocOk : Bool) :
    ErrorEbm × Tensor :=
  let pDimension := t.dims.getD iDimension default
  if pDimension.cSliceCapacity < cSlices then
    let cSplits := cSlices - 1
    if IsAddError cSplits (cSplits / 2) then (.Error_OutOfMemory, t)
    else
      let cNewSplitCapacity := cSplits + cSplits / 2
      if IsMultiplyError cBytesPerSplit cNewSplitCapacity then (.Error_OutOfMemory, t)
      else if allocOk then
        let pDimension2 :=
          { pDimension with cSlices := cSlices, cSliceCapacity := cNewSplitCapacity + 1 }
        (.Error_None, { t with dims := t.dims.set iDimension pDimension2 })
      else (.Error_OutOfMemory, t)
  else
    let pDimension2 := { pDimension with cSlices := cSlices }
    (.Error_None, { t with dims := t.dims.set iDimension pDimension2 })

/-- `Tensor::EnsureTensorScoreCapacity`.  The body of `AlignedGrow` is not part of the
two source files; the grow step is modelled from the spec: grow the score buffer to
hold at least the requested bytes, preserving the contents; on allocation failure
(`allocOk = false`) the old buffer is preserved and `Error_OutOfMemory` returned. -/
def EnsureTensorScoreCapacity (t : Tensor) (cTensorScores : Nat) (allocOk : Bool) :
    ErrorEbm × Tensor :=
  if IsMultiplyError cBytesPerFloat cTensorScores then (.Error_OutOfMemory, t)
  else
    let cBytes := cBytesPerFloat * cTensorScores
    if cBytes ≤ t.cTensorScoreCapacity then (.Error_None, t)
    else if allocOk then (.Error_None, { t with cTensorScoreCapacity := cBytes })
    else (.Error_OutOfMemory, t)

/-- The per-dimension body of `Tensor::Copy`: accumulate the rhs score count, resize
this dimension, `memcpy` the rhs splits over the first `cSlices − 1` entries. -/
def copyDims (rhs : Tensor) (alloc : Nat → Bool) :
    Nat → Nat → Nat → Tensor → ErrorEbm × Tensor × Nat
  | 0, _, cTensorScores, t => (.Error_None, t, cTensorScores)
  | remaining + 1, iDimension, cTensorScores, t =>
    let pDimension := rhs.dims.getD iDimension default
    let cSlices := pDimension.cSlices
    let cTensorScores2 := cTensorScores * cSlices
    match t.SetCountSlices iDimension cSlices (alloc iDimension) with
    | (.Error_None, t2) =>
        let dThis := t2.dims.getD iDimension default
        let dThis2 := { dThis with aSplits := fun k =>
            if k < cSlices - 1 then pDimension.aSplits k else dThis.aSplits k }
        let t3 := { t2 with dims := t2.dims.set iDimension dThis2 }
        copyDims rhs alloc remaining (iDimension + 1) cTensorScores2 t3
    | (e, t2) => (e, t2, cTensorScores2)

/-- `Tensor::Copy` (precondition: same dimension count). -/
def Copy (t : Tensor) (rhs : Tensor) (alloc : Nat → Bool) : ErrorEbm × Tensor :=
  match copyDims rhs alloc t.cDimensions 0 t.cScores t with
  | (.Error_None, t2, cTensorScores) =>
      match t2.EnsureTensorScoreCapacity cTensorScores (alloc t.cDimensions) with
      | (.Error_None, t3) =>
          (.Error_None, { t3 with
            aTensorScores := fun i =>
              if i < cTensorScores then rhs.aTensorScores i else t3.aTensorScores i
            bExpanded := rhs.bExpanded })
      | (e, t3) => (e, t3)
  | (e, t2, _) => (e, t2)

/-- `Tensor::MultiplyAndCheckForIssues`: multiply every live score by `v`, reporting
whether any product is NaN or infinite (the bad products are still written back). -/
def MultiplyAndCheckForIssues (t : Tensor) (v : EFloat) : Bool × Tensor :=
  let cTensorScores := t.liveScoreCount
  ((List.range cTensorScores).any fun i =>
      (EFloat.mul (t.aTensorScores i) v).isNaN || (EFloat.mul (t.aTensorScores i) v).isInf,
   { t with aTensorScores := fun i =>
      if i < cTensorScores then EFloat.mul (t.aTensorScores i) v else t.aTensorScores i })

/-- One element of `Tensor::AddExpandedWithBadValueProtection`: a NaN addend acts as
zero, then the sum is saturated at `lowest` and `max` using the `<=`-style compares
of the source (false on NaN). -/
def clampedAddScore (toScore fromScore : EFloat) : EFloat :=
  let score0 := if fromScore.isNaN then EFloat.val 0 else fromScore
  let score1 := EFloat.add toScore score0
  let score2 := if EFloat.fle score1 (EFloat.val floatLowest) then EFloat.val floatLowest else score1
  if EFloat.fle (EFloat.val floatMax) score2 then EFloat.val floatMax else score2

/-- `Tensor::AddExpandedWithBadValueProtection` (precondition `m_bExpanded`):
pointwise clamped addition over the live scores. -/
def AddExpandedWithBadValueProtection (t : Tensor) (aFromScores : Nat → EFloat) : Tensor :=
  let cItems := t.liveScoreCount
  { t with aTensorScores := fun i =>
      if i < cItems then clampedAddScore (t.aTensorScores i) (aFromScores i)
      else t.aTensorScores i }

end Tensor

/-! ### Sampling a tensor (the step-function semantics of §3 of the design) -/

/-- Number of entries among the first `m` values of `s` that are `≤ b`.  For a sorted
split array this is the index of the slice containing bin `b`. -/
def countLE (s : Nat → Nat) (m : Nat) (b : Nat) : Nat :=
  ((List.range m).filter fun k => s k ≤ b).length

/-- The slice of dimension `d` containing bin coordinate `b`: the unique `k` with
`splits[k−1] ≤ b < splits[k]` (sentinels `0` and `bin_count` implicit). -/
def DimensionInfo.sliceOf (d : DimensionInfo) (b : Nat) : Nat :=
  countLE d.aSplits (d.cSlices - 1) b

/-- Row-major flat cell index of a bin coordinate: dimension 0 varies fastest, each
dimension `d` contributes its slice index times `∏_{e<d} cSlices[e]`. -/
def flatIndex : List DimensionInfo → List Nat → Nat
  | [], _ => 0
  | _, [] => 0
  | d :: ds, b :: bs => d.sliceOf b + d.cSlices * flatIndex ds bs

/-- The `j`-th score sampled at bin coordinate `coord`. -/
def Tensor.sample (t : Tensor) (coord : List Nat) (j : Nat) : EFloat :=
  t.aTensorScores (t.cScores * flatIndex t.dims coord + j)

/-- The live prefix of a dimension's split buffer, as a list. -/
def DimensionInfo.liveSplits (d : DimensionInfo) : List Nat :=
  (List.range (d.cSlices - 1)).map d.aSplits

/-! ### `Tensor::Expand` (Tensor.cpp lines 235–421) -/

/-- `DimensionInfoStackExpand`: per-dimension iterator state of the reverse score
traversal of `Expand`.  `pSplit1` is the right-hand split pointer kept as an offset
into the dimension's split buffer; `iEdge2` the remaining bin index (1-based) in the
expanded dimension; `cNewSlices` the target slice count (the bin count). -/
structure DimensionInfoStackExpand where
  pSplit1 : Nat
  iEdge2 : Nat
  cNewSlices : Nat
deriving DecidableEq

/-- One run of the inner dimension-stepping loop of `Expand` (lines 327–380): walk the
dimension stack from dimension 0, either retreating within the current dimension
(adjusting the source pointer `pTensorScore1` when the remaining bin index crosses the
current split) or resetting the dimension and carrying into the next one.
`mult` is `multiplication1`, the source stride of the current dimension; `p1` the
source pointer `pTensorScore1` as an offset into the score buffer.  An empty stack is
unreachable while cells remain (the outer loop stops at the final cell first). -/
def expandStep : Nat → Nat → List (DimensionInfoStackExpand × DimensionInfo) →
    Nat × List (DimensionInfoStackExpand × DimensionInfo)
  | p1, _mult, [] => (p1, [])
  | p1, mult, (e, d) :: rest =>
    if 0 < e.pSplit1 then
      let d1 := d.aSplits (e.pSplit1 - 1)
      let iEdge2 := e.iEdge2 - 1
      if iEdge2 ≤ d1 then
        (p1 - mult, ({ e with pSplit1 := e.pSplit1 - 1, iEdge2 := iEdge2 }, d) :: rest)
      else
        (p1, ({ e with iEdge2 := iEdge2 }, d) :: rest)
    else
      if 1 < e.iEdge2 then
        (p1, ({ e with iEdge2 := e.iEdge2 - 1 }, d) :: rest)
      else
        let mult2 := mult * d.cSlices
        let p1b := p1 + mult2 - mult
        let e2 := { e with pSplit1 := d.cSlices - 1, iEdge2 := e.cNewSlices }
        let stepped := expandStep p1b mult2 rest
        (stepped.1, (e2, d) :: stepped.2)

/-- The block copy of one output cell in `Expand`'s reverse traversal (lines 307–315):
positions `top − cScores … top − 1` receive the scores of the source cell ending at
`p1`.  Reads are from the pre-iteration buffer, which coincides with the elementwise
loop of the source because the writes stay at or above every later read. -/
def writeBlockCopy (buf : Nat → EFloat) (top p1 cScores : Nat) : Nat → EFloat :=
  fun x => if top - cScores ≤ x ∧ x < top then buf (p1 - (top - x)) else buf x

/-- The outer reverse score loop of `Expand` (lines 306–381), fuelled: copy one cell,
stop when the bottom cell has been written, otherwise advance the dimension stack.
The fuel is only a termination device; `cNewTensorScores` iterations always suffice. -/
def expandLoop (cScores : Nat) : Nat → (Nat → EFloat) → Nat → Nat →
    List (DimensionInfoStackExpand × DimensionInfo) → Nat → EFloat
  | 0, buf, _, _, _ => buf
  | fuel + 1, buf, top, p1, st =>
    let buf2 := writeBlockCopy buf top p1 cScores
    let top2 := top - cScores
    if top2 = 0 then buf2
    else
      let stepped := expandStep p1 cScores st
      expandLoop cScores fuel buf2 top2 stepped.1 stepped.2

/-- The split rewrite loop at the end of `Expand` (lines 386–415): for every dimension
whose slice count differs from its bin count, resize it and write the dense splits
`1, 2, …, cBins − 1`.  `m_bExpanded` is set after the loop. -/
def expandSplits (alloc : Nat → Bool) : List Nat → Nat → Tensor → ErrorEbm × Tensor
  | [], _, t => (.Error_None, { t with bExpanded := true })
  | cBins :: rest, iDimension, t =>
    let cSlices := cBins
    let pDimension := t.dims.getD iDimension default
    if cSlices ≠ pDimension.cSlices then
      match t.SetCountSlices iDimension cSlices (alloc (iDimension + 1)) with
      | (.Error_None, t2) =>
          let pDimension2 := t2.dims.getD iDimension default
          let pDimension3 := { pDimension2 with aSplits := fun k =>
              if k + 1 < cSlices then k + 1 else pDimension2.aSplits k }
          let t3 := { t2 with dims := t2.dims.set iDimension pDimension3 }
          expandSplits alloc rest (iDimension + 1) t3
      | (e, t2) => (e, t2)
    else expandSplits alloc rest (iDimension + 1) t

/-- `Tensor::Expand`.  The `Term` argument is modelled by the list of its features'
bin counts (`pTerm->GetCountTensorBins()` is their product).  `alloc` supplies the
success of the score-buffer grow (index 0) and of each dimension's split grow
(index `d + 1`). -/
def Tensor.Expand (t : Tensor) (bins : List Nat) (alloc : Nat → Bool) : ErrorEbm × Tensor :=
  if t.bExpanded then (.Error_None, t)
  else
    if bins.length = 0 then (.Error_None, { t with bExpanded := true })
    else
      let st := List.zipWith (fun (cBins : Nat) (d : DimensionInfo) =>
        (DimensionInfoStackExpand.mk (d.cSlices - 1) cBins cBins, d)) bins t.dims
      let cTensorScores1 := t.liveScoreCount
      let cNewTensorScores := t.cScores * bins.prod
      match t.EnsureTensorScoreCapacity cNewTensorScores (alloc 0) with
      | (.Error_None, t2) =>
          let buf2 := expandLoop t.cScores cNewTensorScores t2.aTensorScores
            cNewTensorScores cTensorScores1 st
          expandSplits alloc bins 0 { t2 with aTensorScores := buf2 }
      | (e, t2) => (e, t2)

/-! ### `Tensor::Add` (Tensor.cpp lines 461–745) -/

/-- The forward two-pointer merge count of `Add`'s entry loop (lines 519–542): starting
from one slice, add one per merge step, and the untraversed remainder of whichever
array survives.  `p1End`/`p2End` are the split counts of the two dimensions; the fuel
(`p1End + p2End` always suffices) only forces termination. -/
def mergeCount (s1 s2 : Nat → Nat) (p1End p2End : Nat) :
    Nat → Nat → Nat → Nat → Nat
  | 0, _, _, acc => acc
  | fuel + 1, p1, p2, acc =>
    if p2End = p2 then acc + (p1End - p1)
    else if p1End = p1 then acc + (p2End - p2)
    else
      let d1 := s1 p1
      let d2 := s2 p2
      mergeCount s1 s2 p1End p2End fuel
        (if d1 ≤ d2 then p1 + 1 else p1) (if d2 ≤ d1 then p2 + 1 else p2) (acc + 1)

/-- The merged slice count of one dimension in `Add`. -/
def cMergedSlices (d1 d2 : DimensionInfo) : Nat :=
  mergeCount d1.aSplits d2.aSplits (d1.cSlices - 1) (d2.cSlices - 1)
    ((d1.cSlices - 1) + (d2.cSlices - 1)) 0 0 1

/-- `DimensionInfoStack`: per-dimension state of `Add`'s reverse score traversal; the
two right-hand split pointers (offsets into the two split buffers) and the merged
slice count of the dimension. -/
structure DimensionInfoStack where
  pSplit1 : Nat
  pSplit2 : Nat
  cNewSlices : Nat
deriving DecidableEq

/-- One run of the inner dimension-stepping loop of `Add` (lines 599–668): compare the
two rightmost unconsumed splits, retreat the pointer(s) carrying the larger split
(both on ties) and move the corresponding source pointer(s) down one stride; when a
dimension is exhausted on both sides, reset it and carry into the next dimension. -/
def addStep : Nat → Nat → Nat → Nat →
    List (DimensionInfoStack × DimensionInfo × DimensionInfo) →
    (Nat × Nat) × List (DimensionInfoStack × DimensionInfo × DimensionInfo)
  | p1, p2, _mult1, _mult2, [] => ((p1, p2), [])
  | p1, p2, mult1, mult2, (e, d1i, d2i) :: rest =>
    if 0 < e.pSplit1 then
      if 0 < e.pSplit2 then
        let d1 := d1i.aSplits (e.pSplit1 - 1)
        let d2 := d2i.aSplits (e.pSplit2 - 1)
        let bMove1 := d2 ≤ d1
        let bMove2 := d1 ≤ d2
        let e2 := { e with pSplit1 := if bMove1 then e.pSplit1 - 1 else e.pSplit1,
                           pSplit2 := if bMove2 then e.pSplit2 - 1 else e.pSplit2 }
        ((if bMove1 then p1 - mult1 else p1, if bMove2 then p2 - mult2 else p2),
          (e2, d1i, d2i) :: rest)
      else
        ((p1 - mult1, p2), ({ e with pSplit1 := e.pSplit1 - 1 }, d1i, d2i) :: rest)
    else
      if 0 < e.pSplit2 then
        ((p1, p2 - mult2), ({ e with pSplit2 := e.pSplit2 - 1 }, d1i, d2i) :: rest)
      else
        let mult1b := mult1 * d1i.cSlices
        let mult2b := mult2 * d2i.cSlices
        let p1b := p1 + mult1b - mult1
        let p2b := p2 + mult2b - mult2
        let e2 := { e with pSplit1 := d1i.cSlices - 1, pSplit2 := d2i.cSlices - 1 }
        let stepped := addStep p1b p2b mult1b mult2b rest
        (stepped.1, (e2, d1i, d2i) :: stepped.2)

/-- The block write of one output cell in `Add`'s reverse traversal (lines 579–587):
positions `top − cScores … top − 1` receive the sums of the two source cells ending at
`p1` (in this tensor's buffer) and `p2` (in the rhs buffer). -/
def writeBlockSum (buf rbuf : Nat → EFloat) (top p1 p2 cScores : Nat) : Nat → EFloat :=
  fun x =>
    if top - cScores ≤ x ∧ x < top then
      EFloat.add (buf (p1 - (top - x))) (rbuf (p2 - (top - x)))
    else buf x

/-- The outer reverse score loop of `Add` (lines 578–669), fuelled like `expandLoop`. -/
def addLoop (cScores : Nat) (rbuf : Nat → EFloat) : Nat → (Nat → EFloat) → Nat → Nat → Nat →
    List (DimensionInfoStack × DimensionInfo × DimensionInfo) → Nat → EFloat
  | 0, buf, _, _, _, _ => buf
  | fuel + 1, buf, top, p1, p2, st =>
    let buf2 := writeBlockSum buf rbuf top p1 p2 cScores
    let top2 := top - cScores
    if top2 = 0 then buf2
    else
      let stepped := addStep p1 p2 cScores cScores st
      addLoop cScores rbuf fuel buf2 top2 stepped.1.1 stepped.1.2 stepped.2

/-- The reverse two-pointer split merge of one dimension (lines 700–738), in place in
this tensor's split buffer: write the larger of the two rightmost unconsumed splits at
the top, retreating the pointer(s) that supplied it; stop when this tensor's splits
are exhausted at the write position (the prefix already in the buffer is correct), or
block-copy the rhs remainder when the rhs pointer meets the write position. -/
def mergeSplitsLoop (s2 : Nat → Nat) : Nat → (Nat → Nat) → Nat → Nat → Nat → Nat → Nat
  | 0, buf, _, _, _ => buf
  | fuel + 1, buf, p1, p2, pTop =>
    if pTop = p1 then buf
    else if pTop = p2 then fun k => if k < pTop then s2 k else buf k
    else
      let d1 := buf (p1 - 1)
      let d2 := s2 (p2 - 1)
      let p1b := if d2 ≤ d1 then p1 - 1 else p1
      let p2b := if d1 ≤ d2 then p2 - 1 else p2
      let d := if d1 ≤ d2 then d2 else d1
      let pTopb := pTop - 1
      mergeSplitsLoop s2 fuel (fun k => if k = pTopb then d else buf k) p1b p2b pTopb

/-- The final split loop of `Add` (lines 677–743): for each dimension, grow the slice
count to the merged count (capturing the original count first) and merge the two split
arrays in reverse into this tensor's buffer. -/
def addSplits (rhs : Tensor) (alloc : Nat → Bool) :
    List DimensionInfoStack → Nat → Tensor → ErrorEbm × Tensor
  | [], _, t => (.Error_None, t)
  | e :: rest, iDimension, t =>
    let cNewSlices := e.cNewSlices
    let cOriginalSlicesBeforeSetting := (t.dims.getD iDimension default).cSlices
    match t.SetCountSlices iDimension cNewSlices (alloc (iDimension + 1)) with
    | (.Error_None, t2) =>
        let pDimension1 := t2.dims.getD iDimension default
        let pDimension2 := rhs.dims.getD iDimension default
        let merged := mergeSplitsLoop pDimension2.aSplits (cNewSlices - 1)
          pDimension1.aSplits (cOriginalSlicesBeforeSetting - 1) (pDimension2.cSlices - 1)
          (cNewSlices - 1)
        let pDimension1b := { pDimension1 with aSplits := merged }
        let t3 := { t2 with dims := t2.dims.set iDimension pDimension1b }
        addSplits rhs alloc rest (iDimension + 1) t3
    | (err, t2) => (err, t2)

/-- `Tensor::Add` (precondition: same dimension count and score count).  `alloc`
supplies the success of the score-buffer grow (index 0) and of each dimension's split
grow (index `d + 1`). -/
def Tensor.Add (t : Tensor) (rhs : Tensor) (alloc : Nat → Bool) : ErrorEbm × Tensor :=
  if t.dims.length = 0 then
    let buf0 : Nat → EFloat := fun i =>
      if i < t.cScores then EFloat.add (t.aTensorScores i) (rhs.aTensorScores i)
      else t.aTensorScores i
    (.Error_None, { t with aTensorScores := buf0 })
  else
    let stack := List.zipWith (fun (d1 : DimensionInfo) (d2 : DimensionInfo) =>
      (DimensionInfoStack.mk (d1.cSlices - 1) (d2.cSlices - 1) (cMergedSlices d1 d2), d1, d2))
      t.dims rhs.dims
    let cTensorScores1 := t.liveScoreCount
    let cTensorScores2 := rhs.liveScoreCount
    let cNewTensorScores := t.cScores * (stack.map fun s => s.1.cNewSlices).prod
    match t.EnsureTensorScoreCapacity cNewTensorScores (alloc 0) with
    | (.Error_None, t2) =>
        let buf2 := addLoop t.cScores rhs.aTensorScores cNewTensorScores t2.aTensorScores
          cNewTensorScores cTensorScores1 cTensorScores2 stack
        let t3 := { t2 with aTensorScores := buf2 }
        addSplits rhs alloc (stack.map fun s => s.1) 0 t3
    | (e, t2) => (e, t2)

/-! ### Interaction strength (src/shared/ebm_native/CalculateInteractionScore.cpp) -/

/-- Modelled from the spec: `k_illegalGainDouble` is declared in ebm_internal.hpp, which
is not among the source files.  The spec (§6, glossary) fixes it as "a large-negative
finite float" that signals an unscorable candidate and is distinct from every legal
output (`0` or a non-negative gain, compare the assertion at
CalculateInteractionScore.cpp line 420), i.e. `std::numeric_limits<double>::lowest()`. -/
def k_illegalGainDouble : EFloat := EFloat.val floatLowest

/-- Modelled from the spec: `IsClassification` (ebm_internal.hpp, not in the source
files).  The runtime target descriptor stores a class count for classification and a
negative tag for regression. -/
def IsClassification (classes : Int) : Bool := decide (0 ≤ classes)

/-- Modelled from the spec: `GetVectorLength` (ebm_internal.hpp, not in the source
files).  §3: one score per cell for regression and binary classification, `K` scores
for multiclass with `K ≥ 3` classes. -/
def GetVectorLength (classes : Int) : Nat := if 3 ≤ classes then classes.toNat else 1

/-- Modelled from the spec: per-class payload bytes of a histogram bucket — gradient
plus hessian for classification, gradient only for regression (§3 HistogramBucket). -/
def cBytesPerTargetEntry (bClassification : Bool) : Nat := if bClassification then 16 else 8

/-- Modelled from the spec: `GetHistogramBucketSizeOverflow` — the bucket byte size
(16-byte header of count and weight, plus the per-class payload) overflows `size_t`. -/
def GetHistogramBucketSizeOverflow (bClassification : Bool) (cVectorLength : Nat) : Bool :=
  IsMultiplyError (cBytesPerTargetEntry bClassification) cVectorLength ||
    IsAddError 16 (cBytesPerTargetEntry bClassification * cVectorLength)

/-- Modelled from the spec: `GetHistogramBucketSize`. -/
def GetHistogramBucketSize (bClassification : Bool) (cVectorLength : Nat) : Nat :=
  16 + cBytesPerTargetEntry bClassification * cVectorLength

/-- The bucket-counting loop of `CalcInteractionStrengthInternal` (lines 76–105): fold
the bin counts into the main-space product, checking every multiplication, while
accumulating the prefix products into the auxiliary count with the unchecked (hence
wrapping) `size_t` addition of line 92. -/
def sizingLoop : List Nat → Nat → Nat → Option (Nat × Nat)
  | [], cTotalBucketsMainSpace, cAuxillaryBucketsForBuildFastTotals =>
      some (cTotalBucketsMainSpace, cAuxillaryBucketsForBuildFastTotals)
  | cBins :: rest, cTotalBucketsMainSpace, cAuxillaryBucketsForBuildFastTotals =>
      let cAux2 := (cAuxillaryBucketsForBuildFastTotals + cTotalBucketsMainSpace) % cSizeMax
      if IsMultiplyError cTotalBucketsMainSpace cBins then none
      else sizingLoop rest (cTotalBucketsMainSpace * cBins) cAux2

/-- The arena shape computed by `CalcInteractionStrengthInternal` before allocation. -/
structure ArenaPlan where
  cTotalBucketsMainSpace : Nat
  cAuxillaryBuckets : Nat
  cTotalBuckets : Nat
  cBytesPerHistogramBucket : Nat
  cBytesBuffer : Nat
deriving DecidableEq

/-- The arena sizing of `CalcInteractionStrengthInternal` (lines 76–130): main-space
product, auxiliary count `max(prefix-product sum, 4)`, and the two final overflow
checks on the bucket total and the byte total. -/
def planArena (bins : List Nat) (classes : Int) : Except ErrorEbm ArenaPlan :=
  match sizingLoop bins 1 0 with
  | none => .error .Error_OutOfMemory
  | some (cTotalBucketsMainSpace, cAuxillaryBucketsForBuildFastTotals) =>
    let cAuxillaryBucketsForSplitting := 4
    let cAuxillaryBuckets :=
      if cAuxillaryBucketsForBuildFastTotals < cAuxillaryBucketsForSplitting then
        cAuxillaryBucketsForSplitting
      else cAuxillaryBucketsForBuildFastTotals
    if IsAddError cTotalBucketsMainSpace cAuxillaryBuckets then .error .Error_OutOfMemory
    else
      let cTotalBuckets := cTotalBucketsMainSpace + cAuxillaryBuckets
      let cVectorLength := GetVectorLength classes
      let bClassification := IsClassification classes
      if GetHistogramBucketSizeOverflow bClassification cVectorLength then
        .error .Error_OutOfMemory
      else
        let cBytesPerHistogramBucket := GetHistogramBucketSize bClassification cVectorLength
        if IsMultiplyError cBytesPerHistogramBucket cTotalBuckets then .error .Error_OutOfMemory
        else
          .ok ⟨cTotalBucketsMainSpace, cAuxillaryBuckets, cTotalBuckets,
            cBytesPerHistogramBucket, cBytesPerHistogramBucket * cTotalBuckets⟩

/-- The collaborators behind `InteractionCore` that the scorer consumes: the feature
list (by bin count), the dataset sample count and total weight, and the runtime target
descriptor. -/
structure InteractionCoreModel where
  featureBinCounts : List Nat
  cSamples : Nat
  runtimeLearningTypeOrCountTargetClasses : Int
  weightTotal : EFloat

/-- The nondeterministic externals of one query: the raw gain returned by the external
`PartitionTwoDimensionalInteraction` (which may be NaN, ±∞ or any double), and the
success of the shell's histogram-arena allocation. -/
structure InteractionOracles where
  partitionGain : EFloat
  histogramAllocOk : Bool

/-- `CalcInteractionStrengthInternal` (lines 54–260).  `BinInteraction` and
`TensorTotalsBuild` write only the scratch arena, which has no further observable, so
the modelled observables are the error code and the output slot.  When the group has
exactly two significant dimensions and the output is non-null, the raw gain is
normalized by the total weight and classified; otherwise the illegal-gain sentinel is
emitted. -/
def CalcInteractionStrengthInternal (core : InteractionCoreModel)
    (orc : InteractionOracles) (groupBins : List Nat) (out : Option EFloat) :
    ErrorEbm × Option EFloat :=
  match planArena groupBins core.runtimeLearningTypeOrCountTargetClasses with
  | .error e => (e, out)
  | .ok _plan =>
    if orc.histogramAllocOk = false then (.Error_OutOfMemory, out)
    else
      if groupBins.length = 2 then
        match out with
        | none => (.Error_None, none)
        | some _ =>
          let bestGain := EFloat.div orc.partitionGain core.weightTotal
          let bestGainOut :=
            if !(EFloat.fle bestGain (EFloat.val floatMax)) then k_illegalGainDouble
            else if EFloat.flt bestGain (EFloat.val 0) then
              (if EFloat.fle (EFloat.val floatLowest) bestGain then EFloat.val 0
               else k_illegalGainDouble)
            else bestGain
          (.Error_None, some bestGainOut)
      else
        match out with
        | none => (.Error_None, none)
        | some _ => (.Error_None, some k_illegalGainDouble)

/-- Outcome of the feature-index gathering loop of `CalcInteractionStrength`
(lines 360–384): the first offending entry decides. -/
inductive GatherResult where
  | illegal
  | singleBin
  | ok (groupBins : List Nat)
deriving DecidableEq

/-- The feature-index gathering loop (lines 360–384): left to right, reject a negative
or out-of-range index, short-circuit on a referenced feature with at most one bin,
otherwise collect the group's bin counts. -/
def gatherBins (features : List Nat) : List Int → GatherResult
  | [] => .ok []
  | indexFeatureInterop :: rest =>
    if indexFeatureInterop < 0 then .illegal
    else if (features.length : Int) ≤ indexFeatureInterop then .illegal
    else
      let cBins := features.getD indexFeatureInterop.toNat 0
      if cBins ≤ 1 then .singleBin
      else
        match gatherBins features rest with
        | .ok groupBins => .ok (cBins :: groupBins)
        | r => r

/-- `CalcInteractionStrength` (lines 266–439).  `handleValid` models whether the
shell handle resolves (line 300); `outNonNull` whether the output pointer is non-null.
The option word and the child-split minimum are validated exactly as in the source but
flow only to logging and to the external partitioner, so they do not touch the
modelled observables. -/
def CalcInteractionStrength (handleValid : Bool) (core : InteractionCoreModel)
    (orc : InteractionOracles) (countDimensions : Int) (featureIndexes : Option (List Int))
    (outNonNull : Bool) : ErrorEbm × Option EFloat :=
  let out0 : Option EFloat := if outNonNull then some k_illegalGainDouble else none
  if handleValid = false then (.Error_IllegalParamValue, out0)
  else
    if countDimensions ≤ 0 then
      if countDimensions = 0 then
        (.Error_None, if outNonNull then some (EFloat.val 0) else none)
      else (.Error_IllegalParamValue, out0)
    else
      match featureIndexes with
      | none => (.Error_IllegalParamValue, out0)
      | some idxs =>
        if (k_cDimensionsMax : Int) < countDimensions then (.Error_OutOfMemory, out0)
        else
          match gatherBins core.featureBinCounts (idxs.take countDimensions.toNat) with
          | .illegal => (.Error_IllegalParamValue, out0)
          | .singleBin => (.Error_None, if outNonNull then some (EFloat.val 0) else none)
          | .ok groupBins =>
            if core.cSamples = 0 then
              (.Error_None, if outNonNull then some (EFloat.val 0) else none)
            else if core.runtimeLearningTypeOrCountTargetClasses = 1 then
              (.Error_None, if outNonNull then some (EFloat.val 0) else none)
            else
              CalcInteractionStrengthInternal core orc groupBins out0

/-! ### Basic numeric facts -/

theorem floatMax_pos : 0 < floatMax := by norm_num [floatMax]

theorem floatLowest_lt_floatMax : floatLowest < floatMax := by
  have h := floatMax_pos
  unfold floatLowest
  linarith

theorem floatLowest_neg : floatLowest < 0 := by
  have h := floatMax_pos
  unfold floatLowest
  linarith

/-! Computation rules for the float model. -/

@[simp] theorem EFloat.add_val_val (a b : ℚ) :
    EFloat.add (EFloat.val a) (EFloat.val b) = EFloat.clamp (a + b) := rfl

@[simp] theorem EFloat.add_val_PInf (a : ℚ) :
    EFloat.add (EFloat.val a) EFloat.PInf = EFloat.PInf := rfl

@[simp] theorem EFloat.add_val_NInf (a : ℚ) :
    EFloat.add (EFloat.val a) EFloat.NInf = EFloat.NInf := rfl

@[simp] theorem EFloat.add_val_NaN (a : ℚ) :
    EFloat.add (EFloat.val a) EFloat.NaN = EFloat.NaN := rfl

@[simp] theorem EFloat.fle_val_val (a b : ℚ) :
    EFloat.fle (EFloat.val a) (EFloat.val b) = decide (a ≤ b) := rfl

@[simp] theorem EFloat.fle_PInf_val (b : ℚ) :
    EFloat.fle EFloat.PInf (EFloat.val b) = false := rfl

@[simp] theorem EFloat.fle_val_PInf (a : ℚ) :
    EFloat.fle (EFloat.val a) EFloat.PInf = true := rfl

@[simp] theorem EFloat.fle_NInf_val (b : ℚ) :
    EFloat.fle EFloat.NInf (EFloat.val b) = true := rfl

@[simp] theorem EFloat.fle_val_NInf (a : ℚ) :
    EFloat.fle (EFloat.val a) EFloat.NInf = false := rfl

@[simp] theorem EFloat.fle_val_NaN (a : ℚ) :
    EFloat.fle (EFloat.val a) EFloat.NaN = false := rfl

@[simp] theorem EFloat.fle_NaN (y : EFloat) : EFloat.fle EFloat.NaN y = false := by
  cases y
  all_goals rfl

@[simp] theorem EFloat.flt_val_val (a b : ℚ) :
    EFloat.flt (EFloat.val a) (EFloat.val b) = decide (a < b) := rfl

@[simp] theorem EFloat.isNaN_val (a : ℚ) : (EFloat.val a).isNaN = false := rfl

/-- Unfolding `Tensor.clampedAddScore` with the lets spelled out. -/
theorem clampedAddScore_eq (x y : EFloat) :
    Tensor.clampedAddScore x y =
      (let s := EFloat.add x (if y.isNaN = true then EFloat.val 0 else y)
       let s2 := if EFloat.fle s (EFloat.val floatLowest) = true then EFloat.val floatLowest else s
       if EFloat.fle (EFloat.val floatMax) s2 = true then EFloat.val floatMax else s2) := rfl

/-- The elementwise clamped addition on two finite values computes the saturated sum. -/
theorem clampedAddScore_val_val (a b : ℚ) :
    Tensor.clampedAddScore (EFloat.val a) (EFloat.val b) =
      EFloat.val (if a + b ≤ floatLowest then floatLowest
        else if floatMax ≤ a + b then floatMax else a + b) := by
  have hlm := floatLowest_lt_floatMax
  have hml : ¬ floatMax ≤ floatLowest := not_le_of_lt hlm
  rw [clampedAddScore_eq]
  simp only [EFloat.isNaN_val, Bool.false_eq_true, if_false, EFloat.add_val_val]
  by_cases h1 : floatMax < a + b
  · rw [show EFloat.clamp (a + b) = EFloat.PInf by rw [EFloat.clamp, if_pos h1]]
    have ha : ¬ a + b ≤ floatLowest := by linarith
    simp [ha, le_of_lt h1]
  · by_cases h2 : a + b < floatLowest
    · rw [show EFloat.clamp (a + b) = EFloat.NInf by rw [EFloat.clamp, if_neg h1, if_pos h2]]
      simp [hml, le_of_lt h2]
    · rw [show EFloat.clamp (a + b) = EFloat.val (a + b) by
        rw [EFloat.clamp, if_neg h1, if_neg h2]]
      by_cases h3 : a + b ≤ floatLowest
      · simp [h3, hml]
      · by_cases h4 : floatMax ≤ a + b
        · have h5 : a + b = floatMax := le_antisymm (not_lt.mp h1) h4
          simp [h3, h4, h5, hml]
        · simp [h3, h4]

/-- The elementwise clamped addition lands on a finite value of `[floatLowest,
floatMax]` whenever the accumulating score is finite, whatever the addend is. -/
theorem clampedAddScore_finite (a : ℚ) (y : EFloat) :
    ∃ q : ℚ, Tensor.clampedAddScore (EFloat.val a) y = EFloat.val q ∧
      floatLowest ≤ q ∧ q ≤ floatMax := by
  have hlm := floatLowest_lt_floatMax
  have hml : ¬ floatMax ≤ floatLowest := not_le_of_lt hlm
  have hval : ∀ b : ℚ, ∃ q : ℚ, Tensor.clampedAddScore (EFloat.val a) (EFloat.val b) =
      EFloat.val q ∧ floatLowest ≤ q ∧ q ≤ floatMax := by
    intro b
    rw [clampedAddScore_val_val]
    refine ⟨_, rfl, ?_, ?_⟩ <;> split_ifs <;> linarith
  cases y with
  | NaN =>
      have h0 : Tensor.clampedAddScore (EFloat.val a) EFloat.NaN =
          Tensor.clampedAddScore (EFloat.val a) (EFloat.val 0) := rfl
      rw [h0]; exact hval 0
  | PInf =>
      refine ⟨floatMax, ?_, le_of_lt hlm, le_refl _⟩
      rw [clampedAddScore_eq]
      simp [EFloat.isNaN]
  | NInf =>
      refine ⟨floatLowest, ?_, le_refl _, le_of_lt hlm⟩
      rw [clampedAddScore_eq]
      simp [EFloat.isNaN, hml]
  | val b => exact hval b

/-! ### Claim C3 -/

/-- A one-score expanded tensor holding NaN, for the C3 counterexample. -/
def tensorWithNaN : Tensor :=
  { cScores := 1
    dims := [⟨1, 2, fun _ => 0⟩]
    cTensorScoreCapacity := 8
    aTensorScores := fun _ => EFloat.NaN
    bExpanded := true }

/-- Claim C3 counterexample: `AddExpandedWithBadValueProtection` does not guarantee
that no stored score is NaN afterwards.  On an expanded tensor whose stored score is
already NaN, adding the addend `0` leaves NaN in the tensor: the NaN-as-zero rule
applies only to the addend, and both saturation compares are false on NaN. -/
theorem C3_counterexample :
    tensorWithNaN.bExpanded = true ∧
      0 < tensorWithNaN.liveScoreCount ∧
      (tensorWithNaN.AddExpandedWithBadValueProtection
        (fun _ => EFloat.val 0)).aTensorScores 0 = EFloat.NaN := by
  refine ⟨rfl, by decide, rfl⟩

/-- Claim C3 (amended): under the precondition `expanded = true` and the additional
precondition that every live stored score is finite, `AddExpandedWithBadValueProtection`
adds `other_scores[i]` into `scores[i]` pointwise over all `S · ∏ slice_count[d]` live
scores, treating a NaN addend as zero and saturating each result into
`[lowest_finite, highest_finite]`; afterwards no live stored score is `+∞`, `−∞`
or NaN. -/
theorem AddExpandedWithBadValueProtection_clamps (t : Tensor) (aFromScores : Nat → EFloat)
    (_hexp : t.bExpanded = true)
    (hfin : ∀ i < t.liveScoreCount, (t.aTensorScores i).isFinite = true) :
    ∀ i < t.liveScoreCount,
      (t.AddExpandedWithBadValueProtection aFromScores).aTensorScores i =
        Tensor.clampedAddScore (t.aTensorScores i) (aFromScores i) ∧
      ∃ q : ℚ, (t.AddExpandedWithBadValueProtection aFromScores).aTensorScores i =
          EFloat.val q ∧ floatLowest ≤ q ∧ q ≤ floatMax := by
  intro i hi
  have hpt : (t.AddExpandedWithBadValueProtection aFromScores).aTensorScores i =
      Tensor.clampedAddScore (t.aTensorScores i) (aFromScores i) := by
    unfold Tensor.AddExpandedWithBadValueProtection
    simp only
    rw [if_pos hi]
  refine ⟨hpt, ?_⟩
  rw [hpt]
  have hfi := hfin i hi
  cases hx : t.aTensorScores i with
  | val a => exact clampedAddScore_finite a (aFromScores i)
  | NaN => rw [hx] at hfi; simp [EFloat.isFinite] at hfi
  | PInf => rw [hx] at hfi; simp [EFloat.isFinite] at hfi
  | NInf => rw [hx] at hfi; simp [EFloat.isFinite] at hfi

/-- A concrete finite expanded tensor for the C3 witness. -/
def tensorFinite : Tensor :=
  { cScores := 1
    dims := [⟨2, 2, fun k => if k = 0 then 1 else 0⟩]
    cTensorScoreCapacity := 16
    aTensorScores := fun i => if i = 0 then EFloat.val 3 else EFloat.val floatLowest
    bExpanded := true }

/-- Witness for the amended claim C3 at a concrete input: a two-slice expanded tensor
with finite scores, one addend NaN and one addend `−1` driving the second score past
`lowest`. -/
theorem AddExpandedWithBadValueProtection_clamps_witness :
    tensorFinite.bExpanded = true ∧
      (∀ i < tensorFinite.liveScoreCount, (tensorFinite.aTensorScores i).isFinite = true) ∧
      (∀ i < tensorFinite.liveScoreCount,
        (tensorFinite.AddExpandedWithBadValueProtection
          (fun j => if j = 0 then EFloat.NaN else EFloat.val (-1))).aTensorScores i =
          Tensor.clampedAddScore (tensorFinite.aTensorScores i)
            (if i = 0 then EFloat.NaN else EFloat.val (-1)) ∧
        ∃ q : ℚ, (tensorFinite.AddExpandedWithBadValueProtection
            (fun j => if j = 0 then EFloat.NaN else EFloat.val (-1))).aTensorScores i =
          EFloat.val q ∧ floatLowest ≤ q ∧ q ≤ floatMax) :=
  ⟨rfl, by decide,
    AddExpandedWithBadValueProtection_clamps tensorFinite
      (fun j => if j = 0 then EFloat.NaN else EFloat.val (-1)) rfl (by decide)⟩

/-! ### List helpers for the dimension array -/

theorem getD_set_self {α : Type _} (l : List α) (i : Nat) (a d : α) (h : i < l.length) :
    (l.set i a).getD i d = a := by
  rw [List.getD_eq_getElem _ _ (by simpa using h)]
  simp

theorem getD_set_ne {α : Type _} (l : List α) (i j : Nat) (a d : α) (hne : i ≠ j) :
    (l.set i a).getD j d = l.getD j d := by
  by_cases hj : j < l.length
  · rw [List.getD_eq_getElem _ _ (by simpa using hj), List.getD_eq_getElem _ _ hj]
    simp [List.getElem_set_ne hne]
  · rw [List.getD_eq_default _ _ (by simp; omega), List.getD_eq_default _ _ (by omega)]

/-! ### Claim C9 -/

/-- Claim C9: `set_slice_count(d, n)` with `n` above the current slice capacity grows
the split buffer to split capacity `(n − 1) + (n − 1)/2 = max(n − 1, (n − 1) + (n − 1)/2)`
(so slice capacity one more), keeping the split contents and setting the slice count;
when the sizing overflow checks or the reallocation fail, it returns `Error_OutOfMemory`
with the tensor completely unchanged — prior split buffer, slice count and capacity all
survive, leaving the tensor usable at its prior size. -/
theorem SetCountSlices_growth (t : Tensor) (iDimension cSlices : Nat) (allocOk : Bool)
    (hcap : (t.dims.getD iDimension default).cSliceCapacity < cSlices) :
    ((cSlices - 1) + (cSlices - 1) / 2 = max (cSlices - 1) ((cSlices - 1) + (cSlices - 1) / 2)) ∧
    (IsAddError (cSlices - 1) ((cSlices - 1) / 2) = false →
     IsMultiplyError cBytesPerSplit ((cSlices - 1) + (cSlices - 1) / 2) = false →
     allocOk = true →
     iDimension < t.dims.length →
       (t.SetCountSlices iDimension cSlices allocOk).1 = .Error_None ∧
       ((t.SetCountSlices iDimension cSlices allocOk).2.dims.getD iDimension
          default).cSliceCapacity = ((cSlices - 1) + (cSlices - 1) / 2) + 1 ∧
       ((t.SetCountSlices iDimension cSlices allocOk).2.dims.getD iDimension
          default).cSlices = cSlices ∧
       ((t.SetCountSlices iDimension cSlices allocOk).2.dims.getD iDimension
          default).aSplits = (t.dims.getD iDimension default).aSplits) ∧
    ((IsAddError (cSlices - 1) ((cSlices - 1) / 2) = true ∨
      IsMultiplyError cBytesPerSplit ((cSlices - 1) + (cSlices - 1) / 2) = true ∨
      allocOk = false) →
       t.SetCountSlices iDimension cSlices allocOk = (.Error_OutOfMemory, t)) := by
  refine ⟨(Nat.max_eq_right (Nat.le_add_right _ _)).symm, ?_, ?_⟩
  · intro hadd hmul hok hdim
    subst hok
    unfold Tensor.SetCountSlices
    rw [if_pos hcap, if_neg (by rw [hadd]; exact Bool.false_ne_true),
      if_neg (by rw [hmul]; exact Bool.false_ne_true), if_pos rfl]
    refine ⟨rfl, ?_, ?_, ?_⟩
    · dsimp only
      rw [getD_set_self _ _ _ _ hdim]
    · dsimp only
      rw [getD_set_self _ _ _ _ hdim]
    · dsimp only
      rw [getD_set_self _ _ _ _ hdim]
  · intro hfail
    unfold Tensor.SetCountSlices
    by_cases hadd : IsAddError (cSlices - 1) ((cSlices - 1) / 2) = true
    · rw [if_pos hcap, if_pos hadd]
    · rw [if_pos hcap, if_neg hadd]
      by_cases hmul : IsMultiplyError cBytesPerSplit ((cSlices - 1) + (cSlices - 1) / 2) = true
      · rw [if_pos hmul]
      · rcases hfail with h | h | h
        · exact absurd h hadd
        · exact absurd h hmul
        · subst h
          rw [if_neg hmul, if_neg (fun hc => Bool.false_ne_true hc)]

/-- Witness for claim C9 at a concrete input: one dimension of capacity 2; growing to
6 slices succeeds with split capacity 7 = max(5, 5 + 2); with a failing `realloc`
the tensor is returned untouched. -/
theorem SetCountSlices_growth_witness :
    ((6 - 1) + (6 - 1) / 2 = max (6 - 1) ((6 - 1) + (6 - 1) / 2)) ∧
      ((tensorFinite.SetCountSlices 0 6 true).1 = .Error_None ∧
       ((tensorFinite.SetCountSlices 0 6 true).2.dims.getD 0 default).cSliceCapacity =
          ((6 - 1) + (6 - 1) / 2) + 1 ∧
       ((tensorFinite.SetCountSlices 0 6 true).2.dims.getD 0 default).cSlices = 6 ∧
       ((tensorFinite.SetCountSlices 0 6 true).2.dims.getD 0 default).aSplits =
          (tensorFinite.dims.getD 0 default).aSplits) ∧
      tensorFinite.SetCountSlices 0 6 false = (.Error_OutOfMemory, tensorFinite) := by
  have h := SetCountSlices_growth tensorFinite 0 6 true (by decide)
  have h2 := SetCountSlices_growth tensorFinite 0 6 false (by decide)
  exact ⟨h.1, h.2.1 (by decide) (by decide) rfl (by decide),
    h2.2.2 (Or.inr (Or.inr rfl))⟩

/-! ### Claim C10: capacities never shrink -/

theorem getD_set_cases {α : Type _} (l : List α) (i j : Nat) (a d : α) :
    (l.set i a).getD j d = if i = j ∧ i < l.length then a else l.getD j d := by
  by_cases hij : i = j
  · subst hij
    by_cases hl : i < l.length
    · rw [getD_set_self _ _ _ _ hl]
      simp [hl]
    · have hlen : l.length ≤ i := Nat.le_of_not_lt hl
      rw [if_neg (by simp [hl])]
      rw [List.getD_eq_default _ _ (by simpa using hlen), List.getD_eq_default _ _ hlen]
  · rw [getD_set_ne _ _ _ _ _ hij]
    simp [hij]

/-- The slice capacity of dimension `i` (`m_cSliceCapacity`). -/
def capAt (t : Tensor) (i : Nat) : Nat := (t.dims.getD i default).cSliceCapacity

/-- Monotonicity of all buffer capacities between two tensor states. -/
def capsMono (t t2 : Tensor) : Prop :=
  t.cTensorScoreCapacity ≤ t2.cTensorScoreCapacity ∧ ∀ i, capAt t i ≤ capAt t2 i

theorem capsMono_refl (t : Tensor) : capsMono t t := ⟨le_refl _, fun _ => le_refl _⟩

theorem capsMono_trans {t1 t2 t3 : Tensor} (h12 : capsMono t1 t2) (h23 : capsMono t2 t3) :
    capsMono t1 t3 :=
  ⟨le_trans h12.1 h23.1, fun i => le_trans (h12.2 i) (h23.2 i)⟩

theorem capsMono_SetCountSlices (t : Tensor) (iDimension cSlices : Nat) (allocOk : Bool) :
    capsMono t (t.SetCountSlices iDimension cSlices allocOk).2 := by
  unfold Tensor.SetCountSlices
  dsimp only
  by_cases hcap : (t.dims.getD iDimension default).cSliceCapacity < cSlices
  · rw [if_pos hcap]
    by_cases hadd : IsAddError (cSlices - 1) ((cSlices - 1) / 2) = true
    · rw [if_pos hadd]; exact capsMono_refl t
    · rw [if_neg hadd]
      by_cases hmul : IsMultiplyError cBytesPerSplit ((cSlices - 1) + (cSlices - 1) / 2) = true
      · rw [if_pos hmul]; exact capsMono_refl t
      · rw [if_neg hmul]
        by_cases hok : allocOk = true
        · subst hok
          rw [if_pos rfl]
          refine ⟨le_refl _, fun j => ?_⟩
          unfold capAt
          dsimp only
          rw [getD_set_cases]
          split_ifs with hj
          · rcases hj with ⟨hj1, _⟩
            subst hj1
            dsimp only
            omega
          · exact le_refl _
        · rw [if_neg hok]; exact capsMono_refl t
  · rw [if_neg hcap]
    refine ⟨le_refl _, fun j => ?_⟩
    unfold capAt
    dsimp only
    rw [getD_set_cases]
    split_ifs with hj
    · rcases hj with ⟨hj1, _⟩
      subst hj1
      exact le_refl _
    · exact le_refl _

theorem capsMono_Ensure (t : Tensor) (cTensorScores : Nat) (allocOk : Bool) :
    capsMono t (t.EnsureTensorScoreCapacity cTensorScores allocOk).2 := by
  unfold Tensor.EnsureTensorScoreCapacity
  by_cases h1 : IsMultiplyError cBytesPerFloat cTensorScores = true
  · rw [if_pos h1]; exact capsMono_refl t
  · rw [if_neg h1]
    dsimp only
    by_cases h2 : cBytesPerFloat * cTensorScores ≤ t.cTensorScoreCapacity
    · rw [if_pos h2]; exact capsMono_refl t
    · rw [if_neg h2]
      by_cases h3 : allocOk = true
      · subst h3
        rw [if_pos rfl]
        exact ⟨by dsimp only; omega, fun _ => le_refl _⟩
      · rw [if_neg h3]; exact capsMono_refl t

theorem capsMono_splits_rewrite (t : Tensor) (iDimension : Nat) (d2 : DimensionInfo)
    (hcap : d2.cSliceCapacity = capAt t iDimension) :
    capsMono t { t with dims := t.dims.set iDimension d2 } := by
  refine ⟨le_refl _, fun j => ?_⟩
  unfold capAt
  dsimp only
  rw [getD_set_cases]
  split_ifs with hj
  · rcases hj with ⟨hj1, _⟩
    subst hj1
    rw [hcap]
    exact le_refl _
  · exact le_refl _

theorem capsMono_copyDims (rhs : Tensor) (alloc : Nat → Bool) :
    ∀ (remaining iDimension cTensorScores : Nat) (t : Tensor),
      capsMono t (Tensor.copyDims rhs alloc remaining iDimension cTensorScores t).2.1 := by
  intro remaining
  induction remaining with
  | zero => intro i c t; exact capsMono_refl t
  | succ k ih =>
      intro i c t
      unfold Tensor.copyDims
      dsimp only
      cases hset : t.SetCountSlices i (rhs.dims.getD i default).cSlices (alloc i) with
      | mk err t2 =>
          have h1 : capsMono t t2 := by
            have h := capsMono_SetCountSlices t i (rhs.dims.getD i default).cSlices (alloc i)
            rwa [hset] at h
          cases err with
          | Error_None =>
              dsimp only
              refine capsMono_trans h1 (capsMono_trans
                (capsMono_splits_rewrite t2 i _ ?_) (ih _ _ _))
              rfl
          | Error_OutOfMemory => dsimp only; exact h1
          | Error_IllegalParamValue => dsimp only; exact h1

theorem capsMono_Copy (t rhs : Tensor) (alloc : Nat → Bool) :
    capsMono t (t.Copy rhs alloc).2 := by
  unfold Tensor.Copy
  cases hloop : Tensor.copyDims rhs alloc t.cDimensions 0 t.cScores t with
  | mk err rest =>
      cases rest with
      | mk t2 cTensorScores =>
          have h1 : capsMono t t2 := by
            have h := capsMono_copyDims rhs alloc t.cDimensions 0 t.cScores t
            rwa [hloop] at h
          cases err with
          | Error_None =>
              dsimp only
              cases hens : t2.EnsureTensorScoreCapacity cTensorScores (alloc t.cDimensions) with
              | mk err2 t3 =>
                  have h2 : capsMono t2 t3 := by
                    have h := capsMono_Ensure t2 cTensorScores (alloc t.cDimensions)
                    rwa [hens] at h
                  have h3 : capsMono t t3 := capsMono_trans h1 h2
                  cases err2 with
                  | Error_None =>
                      dsimp only
                      exact capsMono_trans h3 ⟨le_refl _, fun _ => le_refl _⟩
                  | Error_OutOfMemory => dsimp only; exact h3
                  | Error_IllegalParamValue => dsimp only; exact h3
          | Error_OutOfMemory => dsimp only; exact h1
          | Error_IllegalParamValue => dsimp only; exact h1

theorem capsMono_expandSplits (alloc : Nat → Bool) :
    ∀ (bins : List Nat) (iDimension : Nat) (t : Tensor),
      capsMono t (expandSplits alloc bins iDimension t).2 := by
  intro bins
  induction bins with
  | nil => intro i t; exact ⟨le_refl _, fun _ => le_refl _⟩
  | cons b rest ih =>
      intro i t
      unfold expandSplits
      dsimp only
      by_cases hne : b ≠ (t.dims.getD i default).cSlices
      · rw [if_pos hne]
        cases hset : t.SetCountSlices i b (alloc (i + 1)) with
        | mk err t2 =>
            have h1 : capsMono t t2 := by
              have h := capsMono_SetCountSlices t i b (alloc (i + 1))
              rwa [hset] at h
            cases err with
            | Error_None =>
                dsimp only
                refine capsMono_trans h1 (capsMono_trans
                  (capsMono_splits_rewrite t2 i _ ?_) (ih _ _))
                rfl
            | Error_OutOfMemory => dsimp only; exact h1
            | Error_IllegalParamValue => dsimp only; exact h1
      · rw [if_neg hne]
        exact ih _ _

theorem capsMono_Expand (t : Tensor) (bins : List Nat) (alloc : Nat → Bool) :
    capsMono t (t.Expand bins alloc).2 := by
  unfold Tensor.Expand
  by_cases hexp : t.bExpanded = true
  · rw [if_pos hexp]; exact capsMono_refl t
  · rw [if_neg hexp]
    by_cases hnil : bins.length = 0
    · rw [if_pos hnil]; exact ⟨le_refl _, fun _ => le_refl _⟩
    · rw [if_neg hnil]
      dsimp only
      cases hens : t.EnsureTensorScoreCapacity (t.cScores * bins.prod) (alloc 0) with
      | mk err t2 =>
          have h1 : capsMono t t2 := by
            have h := capsMono_Ensure t (t.cScores * bins.prod) (alloc 0)
            rwa [hens] at h
          cases err with
          | Error_None =>
              dsimp only
              refine capsMono_trans h1 (capsMono_trans ?_
                (capsMono_expandSplits alloc bins 0 _))
              exact ⟨le_refl _, fun _ => le_refl _⟩
          | Error_OutOfMemory => dsimp only; exact h1
          | Error_IllegalParamValue => dsimp only; exact h1

theorem capsMono_addSplits (rhs : Tensor) (alloc : Nat → Bool) :
    ∀ (stack : List DimensionInfoStack) (iDimension : Nat) (t : Tensor),
      capsMono t (addSplits rhs alloc stack iDimension t).2 := by
  intro stack
  induction stack with
  | nil => intro i t; exact capsMono_refl t
  | cons e rest ih =>
      intro i t
      unfold addSplits
      dsimp only
      cases hset : t.SetCountSlices i e.cNewSlices (alloc (i + 1)) with
      | mk err t2 =>
          have h1 : capsMono t t2 := by
            have h := capsMono_SetCountSlices t i e.cNewSlices (alloc (i + 1))
            rwa [hset] at h
          cases err with
          | Error_None =>
              dsimp only
              refine capsMono_trans h1 (capsMono_trans
                (capsMono_splits_rewrite t2 i _ ?_) (ih _ _))
              rfl
          | Error_OutOfMemory => dsimp only; exact h1
          | Error_IllegalParamValue => dsimp only; exact h1

theorem capsMono_Add (t rhs : Tensor) (alloc : Nat → Bool) :
    capsMono t (t.Add rhs alloc).2 := by
  unfold Tensor.Add
  by_cases hnil : t.dims.length = 0
  · rw [if_pos hnil]; exact ⟨le_refl _, fun _ => le_refl _⟩
  · rw [if_neg hnil]
    dsimp only
    cases hens : t.EnsureTensorScoreCapacity
        (t.cScores * ((List.zipWith (fun (d1 : DimensionInfo) (d2 : DimensionInfo) =>
          (DimensionInfoStack.mk (d1.cSlices - 1) (d2.cSlices - 1) (cMergedSlices d1 d2),
            d1, d2)) t.dims rhs.dims).map fun s => s.1.cNewSlices).prod) (alloc 0) with
    | mk err t2 =>
        have h1 : capsMono t t2 := by
          have h := capsMono_Ensure t
            (t.cScores * ((List.zipWith (fun (d1 : DimensionInfo) (d2 : DimensionInfo) =>
              (DimensionInfoStack.mk (d1.cSlices - 1) (d2.cSlices - 1) (cMergedSlices d1 d2),
                d1, d2)) t.dims rhs.dims).map fun s => s.1.cNewSlices).prod) (alloc 0)
          rwa [hens] at h
        cases err with
        | Error_None =>
            dsimp only
            refine capsMono_trans h1 (capsMono_trans ?_
              (capsMono_addSplits rhs alloc _ 0 _))
            exact ⟨le_refl _, fun _ => le_refl _⟩
        | Error_OutOfMemory => dsimp only; exact h1
        | Error_IllegalParamValue => dsimp only; exact h1

/-- Claim C10: no tensor operation ever shrinks a buffer.  For `reset`,
`set_slice_count`, `ensure_score_capacity`, `copy`, `multiply`, `expand`, `add` and
`add_expanded_clamped`, on success and on failure alike, every dimension's slice
capacity and the score-buffer capacity after the operation are at least their values
before it. -/
theorem tensor_capacities_monotone (t rhs : Tensor) (iDimension cSlices : Nat)
    (allocOk : Bool) (alloc : Nat → Bool) (cTensorScores : Nat) (v : EFloat)
    (aFromScores : Nat → EFloat) (bins : List Nat) :
    capsMono t t.Reset ∧
    capsMono t (t.SetCountSlices iDimension cSlices allocOk).2 ∧
    capsMono t (t.EnsureTensorScoreCapacity cTensorScores allocOk).2 ∧
    capsMono t (t.Copy rhs alloc).2 ∧
    capsMono t (t.MultiplyAndCheckForIssues v).2 ∧
    capsMono t (t.Expand bins alloc).2 ∧
    capsMono t (t.Add rhs alloc).2 ∧
    capsMono t (t.AddExpandedWithBadValueProtection aFromScores) := by
  refine ⟨?_, capsMono_SetCountSlices t iDimension cSlices allocOk,
    capsMono_Ensure t cTensorScores allocOk, capsMono_Copy t rhs alloc, ?_,
    capsMono_Expand t bins alloc, capsMono_Add t rhs alloc, ?_⟩
  · refine ⟨le_refl _, fun j => ?_⟩
    unfold capAt Tensor.Reset
    dsimp only
    by_cases hj : j < t.dims.length
    · rw [List.getD_eq_getElem _ _ hj, List.getD_eq_getElem _ _ (by simpa using hj)]
      simp
    · rw [List.getD_eq_default _ _ (by omega), List.getD_eq_default _ _ (by simp; omega)]
  · exact ⟨le_refl _, fun _ => le_refl _⟩
  · exact ⟨le_refl _, fun _ => le_refl _⟩

/-! ### Claim C4 -/

/-- A division by a finite nonzero double never produces a finite value outside
`[floatLowest, floatMax]` in the model (overflow goes to the infinities). -/
theorem EFloat.div_NaN_val (b : ℚ) : EFloat.div EFloat.NaN (EFloat.val b) = EFloat.NaN := rfl

theorem EFloat.div_PInf_val (b : ℚ) :
    EFloat.div EFloat.PInf (EFloat.val b) =
      (if b < 0 then EFloat.NInf else EFloat.PInf) := rfl

theorem EFloat.div_NInf_val (b : ℚ) :
    EFloat.div EFloat.NInf (EFloat.val b) =
      (if b < 0 then EFloat.PInf else EFloat.NInf) := rfl

theorem EFloat.div_val_val (a b : ℚ) :
    EFloat.div (EFloat.val a) (EFloat.val b) =
      (if b = 0 then (if a = 0 then EFloat.NaN else if 0 < a then EFloat.PInf else EFloat.NInf)
       else EFloat.clamp (a / b)) := rfl

theorem div_val_in_range (x : EFloat) (w q : ℚ) (hw : w ≠ 0)
    (h : EFloat.div x (EFloat.val w) = EFloat.val q) :
    floatLowest ≤ q ∧ q ≤ floatMax := by
  cases x with
  | NaN => rw [EFloat.div_NaN_val] at h; exact absurd h (by simp)
  | PInf =>
      rw [EFloat.div_PInf_val] at h
      by_cases hneg : w < 0
      · rw [if_pos hneg] at h; exact absurd h (by simp)
      · rw [if_neg hneg] at h; exact absurd h (by simp)
  | NInf =>
      rw [EFloat.div_NInf_val] at h
      by_cases hneg : w < 0
      · rw [if_pos hneg] at h; exact absurd h (by simp)
      · rw [if_neg hneg] at h; exact absurd h (by simp)
  | val a =>
      rw [EFloat.div_val_val, if_neg hw] at h
      unfold EFloat.clamp at h
      by_cases h1 : floatMax < a / w
      · rw [if_pos h1] at h; exact absurd h (by simp)
      · rw [if_neg h1] at h
        by_cases h2 : a / w < floatLowest
        · rw [if_pos h2] at h; exact absurd h (by simp)
        · rw [if_neg h2] at h
          have hq : a / w = q := by injection h
          subst hq
          exact ⟨le_of_not_lt h2, le_of_not_lt h1⟩

@[simp] theorem EFloat.isNaN_iff (x : EFloat) : x.isNaN = true ↔ x = EFloat.NaN := by
  cases x
  all_goals simp [EFloat.isNaN]

@[simp] theorem EFloat.flt_NaN (y : EFloat) : EFloat.flt EFloat.NaN y = false := by
  cases y
  all_goals rfl

@[simp] theorem EFloat.flt_PInf (y : EFloat) : EFloat.flt EFloat.PInf y = false := by
  cases y
  all_goals rfl

@[simp] theorem EFloat.flt_NInf_val (b : ℚ) :
    EFloat.flt EFloat.NInf (EFloat.val b) = true := rfl

@[simp] theorem EFloat.fle_NInf_PInf : EFloat.fle EFloat.NInf EFloat.PInf = true := rfl

@[simp] theorem EFloat.fle_PInf_PInf : EFloat.fle EFloat.PInf EFloat.PInf = true := rfl

@[simp] theorem EFloat.fle_NInf_NInf : EFloat.fle EFloat.NInf EFloat.NInf = true := rfl

/-- Claim C4: when `evaluate_interaction` reaches the partitioning step with exactly 2
significant dimensions and a non-null output pointer, the raw partitioner gain is
divided by the (strictly positive) total weight and then classified: NaN or `+∞`
stores the illegal-gain sentinel; a value below `lowest_finite` stores the sentinel; a
value in `[lowest_finite, 0)` stores `0`; any other value (`≥ 0`, finite) is stored as
the result; the return code is `Error_None` in all four cases. -/
theorem interaction_gain_classification (core : InteractionCoreModel)
    (orc : InteractionOracles) (groupBins : List Nat) (x : EFloat) (w : ℚ)
    (plan : ArenaPlan)
    (hw : core.weightTotal = EFloat.val w) (hwpos : 0 < w)
    (hdims : groupBins.length = 2)
    (hplan : planArena groupBins core.runtimeLearningTypeOrCountTargetClasses =
      Except.ok plan)
    (halloc : orc.histogramAllocOk = true) :
    (CalcInteractionStrengthInternal core orc groupBins (some x)).1 = .Error_None ∧
    (((EFloat.div orc.partitionGain core.weightTotal).isNaN = true ∨
      EFloat.div orc.partitionGain core.weightTotal = .PInf) →
      (CalcInteractionStrengthInternal core orc groupBins (some x)).2 =
        some k_illegalGainDouble) ∧
    ((EFloat.div orc.partitionGain core.weightTotal).flt (.val floatLowest) = true →
      (CalcInteractionStrengthInternal core orc groupBins (some x)).2 =
        some k_illegalGainDouble) ∧
    ((EFloat.val floatLowest).fle (EFloat.div orc.partitionGain core.weightTotal) = true ∧
     (EFloat.div orc.partitionGain core.weightTotal).flt (.val 0) = true →
      (CalcInteractionStrengthInternal core orc groupBins (some x)).2 = some (.val 0)) ∧
    ((EFloat.div orc.partitionGain core.weightTotal).isNaN = false ∧
     EFloat.div orc.partitionGain core.weightTotal ≠ .PInf ∧
     (EFloat.val 0).fle (EFloat.div orc.partitionGain core.weightTotal) = true →
      (CalcInteractionStrengthInternal core orc groupBins (some x)).2 =
        some (EFloat.div orc.partitionGain core.weightTotal)) := by
  have hlm := floatLowest_lt_floatMax
  have hneg := floatLowest_neg
  have hpos := floatMax_pos
  have hrun : CalcInteractionStrengthInternal core orc groupBins (some x) =
      (.Error_None,
        some (if !(EFloat.fle (EFloat.div orc.partitionGain core.weightTotal)
            (EFloat.val floatMax)) then k_illegalGainDouble
          else if EFloat.flt (EFloat.div orc.partitionGain core.weightTotal)
              (EFloat.val 0) then
            (if EFloat.fle (EFloat.val floatLowest)
                (EFloat.div orc.partitionGain core.weightTotal) then EFloat.val 0
             else k_illegalGainDouble)
          else EFloat.div orc.partitionGain core.weightTotal)) := by
    unfold CalcInteractionStrengthInternal
    rw [hplan]
    dsimp only
    rw [if_neg (by simp [halloc]), if_pos hdims]
  rw [hrun]
  dsimp only
  refine ⟨rfl, ?_, ?_, ?_, ?_⟩
  · intro h
    rcases h with h | h
    · rw [EFloat.isNaN_iff] at h
      rw [h]
      simp
    · rw [h]
      simp
  · intro h
    cases hg : EFloat.div orc.partitionGain core.weightTotal with
    | NaN => rw [hg] at h; simp at h
    | PInf => rw [hg] at h; simp at h
    | NInf =>
        simp [not_le_of_lt hlm]
    | val q =>
        rw [hg] at h
        simp only [EFloat.flt_val_val, decide_eq_true_eq] at h
        have h1 : q ≤ floatMax := by linarith
        have h2 : q < 0 := by linarith
        have h3 : ¬ floatLowest ≤ q := by linarith
        simp [h1, h2, h3]
  · intro h
    rcases h with ⟨h1, h2⟩
    cases hg : EFloat.div orc.partitionGain core.weightTotal with
    | NaN => rw [hg] at h1; simp at h1
    | PInf => rw [hg] at h2; simp at h2
    | NInf => rw [hg] at h1; simp at h1
    | val q =>
        rw [hg] at h1 h2
        simp only [EFloat.fle_val_val, decide_eq_true_eq] at h1
        simp only [EFloat.flt_val_val, decide_eq_true_eq] at h2
        have h3 : q ≤ floatMax := by linarith
        simp [h1, h2, h3]
  · intro h
    rcases h with ⟨h1, h2, h3⟩
    cases hg : EFloat.div orc.partitionGain core.weightTotal with
    | NaN => rw [hg] at h1; simp [EFloat.isNaN] at h1
    | PInf => exact absurd hg h2
    | NInf => rw [hg] at h3; simp at h3
    | val q =>
        rw [hg] at h3
        simp only [EFloat.fle_val_val, decide_eq_true_eq] at h3
        have hrange : floatLowest ≤ q ∧ q ≤ floatMax := by
          apply div_val_in_range orc.partitionGain w q (ne_of_gt hwpos)
          rw [← hw, hg]
        simp [hrange.2, not_lt_of_le h3]

/-- A concrete regression core with two features of 2 bins, 6 samples and total
weight 2, for the interaction witnesses. -/
def coreWit : InteractionCoreModel :=
  { featureBinCounts := [2, 2]
    cSamples := 6
    runtimeLearningTypeOrCountTargetClasses := -1
    weightTotal := EFloat.val 2 }

/-- Oracles for the witnesses: the partitioner returns the raw gain 6 and the arena
allocation succeeds. -/
def orcWit : InteractionOracles := { partitionGain := EFloat.val 6, histogramAllocOk := true }

/-- The normalized witness gain: `6 / 2` evaluates to the finite double 3. -/
theorem divWit_eq : EFloat.div (EFloat.val 6) (EFloat.val 2) = EFloat.val 3 := by
  rw [EFloat.div_val_val, if_neg (by norm_num)]
  unfold EFloat.clamp
  rw [if_neg (by norm_num [floatMax]), if_neg (by norm_num [floatMax, floatLowest])]
  norm_num

/-- Witness for claim C4 at a concrete input: a 2×2 pair, raw gain 6, total weight 2
— the query returns `Error_None` and stores the normalized gain `6 / 2 = 3`. -/
theorem interaction_gain_classification_witness :
    (CalcInteractionStrengthInternal coreWit orcWit [2, 2] (some k_illegalGainDouble)).1 =
      .Error_None ∧
    (CalcInteractionStrengthInternal coreWit orcWit [2, 2] (some k_illegalGainDouble)).2 =
      some (EFloat.div (EFloat.val 6) (EFloat.val 2)) := by
  have h := interaction_gain_classification coreWit orcWit [2, 2] k_illegalGainDouble 2
    ⟨4, 4, 8, 24, 192⟩ rfl (by norm_num) rfl rfl rfl
  refine ⟨h.1, h.2.2.2.2 ?_⟩
  have hdiv : EFloat.div orcWit.partitionGain coreWit.weightTotal = EFloat.val 3 := divWit_eq
  rw [hdiv]
  refine ⟨rfl, by simp, by simp⟩

/-! ### Claim C7 -/

/-- Claim C7 counterexample: a call that passes the input validation (three features,
every bin count `2³² ≥ 2`, one sample, and all indices in range) with a
significant-dimension count of 3 does not return `Error_None`: the arena sizing
overflows `size_t` on the main-space product and the call returns
`Error_OutOfMemory` (the output keeps the illegal-gain sentinel set on entry). -/
theorem C7_counterexample :
    (CalcInteractionStrength true
        { featureBinCounts := [4294967296, 4294967296, 4294967296]
          cSamples := 1
          runtimeLearningTypeOrCountTargetClasses := -1
          weightTotal := EFloat.val 1 }
        { partitionGain := EFloat.val 0, histogramAllocOk := true }
        3 (some [0, 1, 2]) true).1 = .Error_OutOfMemory ∧
    (CalcInteractionStrength true
        { featureBinCounts := [4294967296, 4294967296, 4294967296]
          cSamples := 1
          runtimeLearningTypeOrCountTargetClasses := -1
          weightTotal := EFloat.val 1 }
        { partitionGain := EFloat.val 0, histogramAllocOk := true }
        3 (some [0, 1, 2]) true).2 = some k_illegalGainDouble := by
  constructor
  · rfl
  · rfl

/-- Claim C7 (amended): a call that passes input validation with a significant
dimension count other than 2 returns `Error_None` and stores the illegal-gain sentinel
in the non-null output, provided the arena sizing overflow checks pass and the
histogram allocation succeeds; when the sizing overflows or the allocation fails the
call instead returns `Error_OutOfMemory` with the output still holding the sentinel. -/
theorem interaction_not_pair_sentinel (core : InteractionCoreModel)
    (orc : InteractionOracles) (countDimensions : Int) (idxs : List Int)
    (groupBins : List Nat) (plan : ArenaPlan)
    (hpos : 0 < countDimensions) (hmax : countDimensions ≤ (k_cDimensionsMax : Int))
    (hgather : gatherBins core.featureBinCounts (idxs.take countDimensions.toNat) =
      .ok groupBins)
    (hsamples : core.cSamples ≠ 0)
    (hclasses : core.runtimeLearningTypeOrCountTargetClasses ≠ 1)
    (hdims : groupBins.length ≠ 2)
    (hplan : planArena groupBins core.runtimeLearningTypeOrCountTargetClasses =
      Except.ok plan)
    (halloc : orc.histogramAllocOk = true) :
    CalcInteractionStrength true core orc countDimensions (some idxs) true =
      (.Error_None, some k_illegalGainDouble) := by
  unfold CalcInteractionStrength
  rw [if_neg (by simp), if_neg (not_le_of_lt hpos)]
  dsimp only
  rw [if_neg (not_lt_of_le hmax)]
  rw [hgather]
  dsimp only
  rw [if_neg hsamples, if_neg hclasses]
  unfold CalcInteractionStrengthInternal
  rw [hplan]
  dsimp only
  rw [if_neg (by simp [halloc]), if_neg hdims]
  rfl

/-- Witness for the amended claim C7 at a concrete input: a three-dimensional
interaction over 2-bin features returns `Error_None` with the sentinel stored. -/
theorem interaction_not_pair_sentinel_witness :
    CalcInteractionStrength true
        { featureBinCounts := [2, 2, 2]
          cSamples := 1
          runtimeLearningTypeOrCountTargetClasses := -1
          weightTotal := EFloat.val 1 }
        { partitionGain := EFloat.val 0, histogramAllocOk := true }
        3 (some [0, 1, 2]) true = (.Error_None, some k_illegalGainDouble) :=
  interaction_not_pair_sentinel
    { featureBinCounts := [2, 2, 2]
      cSamples := 1
      runtimeLearningTypeOrCountTargetClasses := -1
      weightTotal := EFloat.val 1 }
    { partitionGain := EFloat.val 0, histogramAllocOk := true }
    3 [0, 1, 2] [2, 2, 2] ⟨8, 7, 15, 24, 360⟩
    (by norm_num) (by norm_num [k_cDimensionsMax]) (by decide) (by decide) (by decide)
    (by decide) rfl rfl

/-! ### Claim C5 -/

/-- Claim C5 counterexample: an index array containing an out-of-range entry (7, with
only 2 features) does not always return `Error_IllegalParamValue`: here the first
entry references a single-bin feature, and the per-element loop of
`CalcInteractionStrength` takes the single-bin short circuit (`Error_None`, output 0)
before ever range-checking the second entry. -/
theorem C5_counterexample :
    ((2 : Int) ≤ 7 ∧ (List.getD [1, 5] 0 0 : Nat) ≤ 1) ∧
    CalcInteractionStrength true
        { featureBinCounts := [1, 5]
          cSamples := 1
          runtimeLearningTypeOrCountTargetClasses := -1
          weightTotal := EFloat.val 1 }
        { partitionGain := EFloat.val 0, histogramAllocOk := true }
        2 (some [0, 7]) true = (.Error_None, some (EFloat.val 0)) := by
  exact ⟨by norm_num, rfl⟩

/-- The gathering loop rejects the first offending entry: if entry `i` is out of
range and every earlier entry references an in-range feature with at least 2 bins,
the loop ends `illegal`. -/
theorem gatherBins_illegal_at (features : List Nat) :
    ∀ (l : List Int) (i : Nat),
      i < l.length →
      (l.getD i 0 < 0 ∨ (features.length : Int) ≤ l.getD i 0) →
      (∀ j, j < i → 0 ≤ l.getD j 0 ∧ l.getD j 0 < (features.length : Int) ∧
        2 ≤ features.getD (l.getD j 0).toNat 0) →
      gatherBins features l = .illegal := by
  intro l
  induction l with
  | nil => intro i hi _ _; simp at hi
  | cons a rest ih =>
      intro i hi hbad hprev
      cases i with
      | zero =>
          have ha : (a :: rest).getD 0 0 = a := rfl
          rw [ha] at hbad
          unfold gatherBins
          rcases hbad with h | h
          · rw [if_pos h]
          · rw [if_neg (not_lt_of_le (le_trans (Int.ofNat_nonneg _) h)), if_pos h]
      | succ k =>
          have h0 := hprev 0 (Nat.succ_pos k)
          have ha : (a :: rest).getD 0 0 = a := rfl
          rw [ha] at h0
          unfold gatherBins
          rw [if_neg (not_lt_of_le h0.1), if_neg (not_le_of_lt h0.2.1),
            if_neg (by omega : ¬ features.getD a.toNat 0 ≤ 1)]
          have hrec : gatherBins features rest = .illegal := by
            refine ih k (by simpa using hi) ?_ ?_
            · exact hbad
            · intro j hj
              exact hprev (j + 1) (by omega)
          rw [hrec]

/-- Claim C5 (amended): the feature-index checks run per element, left to right, with
the range check of each entry preceding that entry's single-bin check.  Hence a call
whose index array contains an out-of-range entry returns `Error_IllegalParamValue`
whenever no earlier entry references a single-bin feature — in particular whenever
every earlier entry is in range with `bin_count ≥ 2`.  (It does not return
`IllegalParam` when a single-bin feature is referenced before the offending index;
see the counterexample.) -/
theorem interaction_index_validation_order (core : InteractionCoreModel)
    (orc : InteractionOracles) (countDimensions : Int) (idxs : List Int) (i : Nat)
    (outNonNull : Bool)
    (hpos : 0 < countDimensions) (hmax : countDimensions ≤ (k_cDimensionsMax : Int))
    (hcount : countDimensions.toNat = idxs.length)
    (hi : i < idxs.length)
    (hbad : idxs.getD i 0 < 0 ∨ (core.featureBinCounts.length : Int) ≤ idxs.getD i 0)
    (hprev : ∀ j, j < i → 0 ≤ idxs.getD j 0 ∧
      idxs.getD j 0 < (core.featureBinCounts.length : Int) ∧
      2 ≤ core.featureBinCounts.getD (idxs.getD j 0).toNat 0) :
    (CalcInteractionStrength true core orc countDimensions (some idxs) outNonNull).1 =
      .Error_IllegalParamValue := by
  unfold CalcInteractionStrength
  rw [if_neg (by simp), if_neg (not_le_of_lt hpos)]
  dsimp only
  rw [if_neg (not_lt_of_le hmax), hcount, List.take_length]
  rw [gatherBins_illegal_at core.featureBinCounts idxs i hi hbad hprev]

/-- Witness for the amended claim C5 at a concrete input: with features of 5 and 3
bins, the index array `[1, 9]` has its out-of-range entry at position 1 after a valid
entry, and the call returns `Error_IllegalParamValue`. -/
theorem interaction_index_validation_order_witness :
    (CalcInteractionStrength true
        { featureBinCounts := [5, 3]
          cSamples := 1
          runtimeLearningTypeOrCountTargetClasses := -1
          weightTotal := EFloat.val 1 }
        { partitionGain := EFloat.val 0, histogramAllocOk := true }
        2 (some [1, 9]) true).1 = .Error_IllegalParamValue :=
  interaction_index_validation_order
    { featureBinCounts := [5, 3]
      cSamples := 1
      runtimeLearningTypeOrCountTargetClasses := -1
      weightTotal := EFloat.val 1 }
    { partitionGain := EFloat.val 0, histogramAllocOk := true }
    2 [1, 9] 1 true (by norm_num) (by norm_num [k_cDimensionsMax]) rfl (by norm_num)
    (by norm_num) (by intro j hj; interval_cases j; exact ⟨by norm_num, by norm_num, by norm_num⟩)

/-! ### Claim C6 -/

/-- On a non-null output primed with the sentinel, `CalcInteractionStrengthInternal`
always leaves `0`, a non-negative finite gain, or the sentinel. -/
theorem internal_output_wellformed (core : InteractionCoreModel)
    (orc : InteractionOracles) (groupBins : List Nat) :
    ∃ v, (CalcInteractionStrengthInternal core orc groupBins
        (some k_illegalGainDouble)).2 = some v ∧
      (v = k_illegalGainDouble ∨ v = EFloat.val 0 ∨ ∃ q : ℚ, v = EFloat.val q ∧ 0 ≤ q) := by
  unfold CalcInteractionStrengthInternal
  cases hplan : planArena groupBins core.runtimeLearningTypeOrCountTargetClasses with
  | error e => exact ⟨k_illegalGainDouble, rfl, Or.inl rfl⟩
  | ok plan =>
      dsimp only
      by_cases halloc : orc.histogramAllocOk = false
      · rw [if_pos halloc]
        exact ⟨k_illegalGainDouble, rfl, Or.inl rfl⟩
      · rw [if_neg halloc]
        by_cases hd : groupBins.length = 2
        · rw [if_pos hd]
          dsimp only
          set g := EFloat.div orc.partitionGain core.weightTotal with hg
          by_cases h1 : EFloat.fle g (EFloat.val floatMax) = true
          · rw [if_neg (by rw [h1]; simp)]
            by_cases h2 : EFloat.flt g (EFloat.val 0) = true
            · rw [if_pos h2]
              by_cases h3 : EFloat.fle (EFloat.val floatLowest) g = true
              · rw [if_pos h3]
                exact ⟨EFloat.val 0, rfl, Or.inr (Or.inl rfl)⟩
              · rw [if_neg h3]
                exact ⟨k_illegalGainDouble, rfl, Or.inl rfl⟩
            · rw [if_neg h2]
              refine ⟨g, rfl, Or.inr (Or.inr ?_)⟩
              cases hgv : g with
              | NaN => rw [hgv] at h1; simp at h1
              | PInf => rw [hgv] at h1; simp at h1
              | NInf => rw [hgv] at h2; simp at h2
              | val q =>
                  refine ⟨q, rfl, ?_⟩
                  rw [hgv] at h2
                  simp only [EFloat.flt_val_val, decide_eq_true_eq] at h2
                  exact le_of_not_lt h2
          · rw [if_pos (by rw [Bool.not_eq_true] at h1; rw [h1]; rfl)]
            exact ⟨k_illegalGainDouble, rfl, Or.inl rfl⟩
        · rw [if_neg hd]
          exact ⟨k_illegalGainDouble, rfl, Or.inl rfl⟩

/-- Claim C6: with a non-null output pointer, `evaluate_interaction` sets the output
to the illegal-gain sentinel on entry (observable on the invalid-handle path below)
and, for every return code and every input, leaves exactly one of: `0`, a finite
non-negative gain, or the illegal-gain sentinel; never NaN or an infinity. -/
theorem interaction_output_trichotomy (handleValid : Bool) (core : InteractionCoreModel)
    (orc : InteractionOracles) (countDimensions : Int)
    (featureIndexes : Option (List Int)) :
    ∃ v, (CalcInteractionStrength handleValid core orc countDimensions
        featureIndexes true).2 = some v ∧
      (v = k_illegalGainDouble ∨ v = EFloat.val 0 ∨ ∃ q : ℚ, v = EFloat.val q ∧ 0 ≤ q) ∧
      (handleValid = false →
        CalcInteractionStrength handleValid core orc countDimensions featureIndexes true =
          (.Error_IllegalParamValue, some k_illegalGainDouble)) := by
  unfold CalcInteractionStrength
  by_cases hh : handleValid = false
  · rw [if_pos hh]
    exact ⟨k_illegalGainDouble, rfl, Or.inl rfl, fun _ => rfl⟩
  · rw [if_neg hh]
    have hh2 : ∀ P : Prop, handleValid = false → P := fun P h => absurd h hh
    by_cases hc0 : countDimensions ≤ 0
    · rw [if_pos hc0]
      by_cases hz : countDimensions = 0
      · rw [if_pos hz]
        exact ⟨EFloat.val 0, rfl, Or.inr (Or.inl rfl), hh2 _⟩
      · rw [if_neg hz]
        exact ⟨k_illegalGainDouble, rfl, Or.inl rfl, hh2 _⟩
    · rw [if_neg hc0]
      cases featureIndexes with
      | none => exact ⟨k_illegalGainDouble, rfl, Or.inl rfl, hh2 _⟩
      | some idxs =>
          dsimp only
          by_cases hbig : (k_cDimensionsMax : Int) < countDimensions
          · rw [if_pos hbig]
            exact ⟨k_illegalGainDouble, rfl, Or.inl rfl, hh2 _⟩
          · rw [if_neg hbig]
            cases hg : gatherBins core.featureBinCounts (idxs.take countDimensions.toNat) with
            | illegal => exact ⟨k_illegalGainDouble, rfl, Or.inl rfl, hh2 _⟩
            | singleBin => exact ⟨EFloat.val 0, rfl, Or.inr (Or.inl rfl), hh2 _⟩
            | ok groupBins =>
                dsimp only
                by_cases hs : core.cSamples = 0
                · rw [if_pos hs]
                  exact ⟨EFloat.val 0, rfl, Or.inr (Or.inl rfl), hh2 _⟩
                · rw [if_neg hs]
                  by_cases hcl : core.runtimeLearningTypeOrCountTargetClasses = 1
                  · rw [if_pos hcl]
                    exact ⟨EFloat.val 0, rfl, Or.inr (Or.inl rfl), hh2 _⟩
                  · rw [if_neg hcl]
                    obtain ⟨v, hv, htri⟩ := internal_output_wellformed core orc groupBins
                    exact ⟨v, hv, htri, hh2 _⟩

/-- Witness for claim C6 at a concrete input (the 2×2 query of the C4 witness,
through the public entry point). -/
theorem interaction_output_trichotomy_witness :
    ∃ v, (CalcInteractionStrength true coreWit orcWit 2 (some [0, 1]) true).2 = some v ∧
      (v = k_illegalGainDouble ∨ v = EFloat.val 0 ∨ ∃ q : ℚ, v = EFloat.val q ∧ 0 ≤ q) ∧
      (true = false →
        CalcInteractionStrength true coreWit orcWit 2 (some [0, 1]) true =
          (.Error_IllegalParamValue, some k_illegalGainDouble)) :=
  interaction_output_trichotomy true coreWit orcWit 2 (some [0, 1])

/-! ### Claim C8 -/

/-- Sum of the prefix products of a list of bin counts: `Σ_d ∏_{e<d} bins[e]`. -/
def prefixProds : List Nat → Nat
  | [] => 0
  | b :: rest => 1 + b * prefixProds rest

theorem prefixProds_nil : prefixProds [] = 0 := rfl

theorem prefixProds_cons (b : Nat) (rest : List Nat) :
    prefixProds (b :: rest) = 1 + b * prefixProds rest := rfl

theorem sizingLoop_nil (main aux : Nat) : sizingLoop [] main aux = some (main, aux) := rfl

theorem one_le_listProd (l : List Nat) (h : ∀ x ∈ l, 1 ≤ x) : 1 ≤ l.prod := by
  induction l with
  | nil => simp
  | cons a rest ih =>
      rw [List.prod_cons]
      have ha : 1 ≤ a := h a (List.mem_cons_self a rest)
      have hr : 1 ≤ rest.prod := ih fun x hx => h x (List.mem_cons_of_mem a hx)
      calc 1 = 1 * 1 := by omega
        _ ≤ a * rest.prod := Nat.mul_le_mul ha hr

/-- Invariant of the bucket-counting loop: starting from a wrap-free state with
`aux < main < 2⁶⁴` and every bin count at least 2, the loop detects overflow exactly
when the full product overflows, and otherwise returns the product and the exact
prefix-product sum, never wrapping the unchecked auxiliary addition, with the
auxiliary count strictly below the main count. -/
theorem sizingLoop_spec :
    ∀ (bins : List Nat) (cTotalBucketsMainSpace cAux : Nat),
      (∀ b ∈ bins, 2 ≤ b) → cAux < cTotalBucketsMainSpace →
      cTotalBucketsMainSpace < cSizeMax →
      (cSizeMax ≤ cTotalBucketsMainSpace * bins.prod →
        sizingLoop bins cTotalBucketsMainSpace cAux = none) ∧
      (cTotalBucketsMainSpace * bins.prod < cSizeMax →
        sizingLoop bins cTotalBucketsMainSpace cAux =
          some (cTotalBucketsMainSpace * bins.prod,
            cAux + cTotalBucketsMainSpace * prefixProds bins) ∧
        cAux + cTotalBucketsMainSpace * prefixProds bins <
          cTotalBucketsMainSpace * bins.prod) := by
  intro bins
  induction bins with
  | nil =>
      intro main aux _ hinv hm
      constructor
      · intro h
        rw [List.prod_nil, Nat.mul_one] at h
        exact absurd h (not_le_of_lt hm)
      · intro _
        refine ⟨?_, ?_⟩
        · rw [sizingLoop_nil, List.prod_nil, Nat.mul_one, prefixProds_nil, Nat.mul_zero,
            Nat.add_zero]
        · rw [List.prod_nil, Nat.mul_one, prefixProds_nil]
          omega
  | cons b rest ih =>
      intro main aux hb hinv hm
      have hb2 : 2 ≤ b := hb b (List.mem_cons_self b rest)
      have hbr : ∀ x ∈ rest, 2 ≤ x := fun x hx => hb x (List.mem_cons_of_mem b hx)
      have hmain1 : 1 ≤ main := by omega
      have hprod : (b :: rest).prod = b * rest.prod := List.prod_cons
      by_cases hov : cSizeMax ≤ main * b
      · have hloop : sizingLoop (b :: rest) main aux = none := by
          unfold sizingLoop
          rw [if_pos (by unfold IsMultiplyError; simpa using hov)]
        constructor
        · intro _; exact hloop
        · intro h
          rw [hprod] at h
          have hr1 : 1 ≤ rest.prod := one_le_listProd rest fun x hx => by
            have := hbr x hx; omega
          have : main * b ≤ main * (b * rest.prod) := by
            rw [← Nat.mul_assoc]
            exact Nat.le_mul_of_pos_right _ (by omega)
          omega
      · have hok : main * b < cSizeMax := lt_of_not_le hov
        have hnowrap : aux + main < cSizeMax := by
          have h2m : 2 * main ≤ main * b := by
            calc 2 * main = main * 2 := Nat.mul_comm 2 main
              _ ≤ main * b := Nat.mul_le_mul_left main hb2
          omega
        have hstep : sizingLoop (b :: rest) main aux =
            sizingLoop rest (main * b) (aux + main) := by
          simp only [sizingLoop]
          rw [if_neg (by unfold IsMultiplyError; simpa using hov)]
          rw [Nat.mod_eq_of_lt hnowrap]
        have hinv2 : aux + main < main * b := by
          have h2m : 2 * main ≤ main * b := by
            calc 2 * main = main * 2 := Nat.mul_comm 2 main
              _ ≤ main * b := Nat.mul_le_mul_left main hb2
          omega
        obtain ⟨ihnone, ihsome⟩ := ih (main * b) (aux + main) hbr hinv2 hok
        have hassoc : main * (b :: rest).prod = (main * b) * rest.prod := by
          rw [hprod, Nat.mul_assoc]
        constructor
        · intro h
          rw [hstep]
          exact ihnone (by rw [← hassoc]; exact h)
        · intro h
          rw [hassoc] at h
          obtain ⟨heq, hlt⟩ := ihsome h
          have hpre : aux + main * prefixProds (b :: rest) =
              (aux + main) + (main * b) * prefixProds rest := by
            rw [prefixProds_cons]
            ring
          constructor
          · rw [hstep, heq, hassoc, hpre]
          · rw [hassoc, hpre]
            exact hlt

/-- Every failing path of the arena sizing reports `Error_OutOfMemory`. -/
theorem planArena_error_oom (bins : List Nat) (classes : Int) (e : ErrorEbm)
    (h : planArena bins classes = .error e) : e = .Error_OutOfMemory := by
  unfold planArena at h
  cases hloop : sizingLoop bins 1 0 with
  | none =>
      rw [hloop] at h
      dsimp only at h
      exact (Except.error.inj h).symm
  | some p =>
      rw [hloop] at h
      cases p with
      | mk main aux =>
          dsimp only at h
          split_ifs at h
          all_goals exact (Except.error.inj h).symm

/-- Claim C8: the arena sizing computes `main_buckets` as the product of the bin
counts, with the per-step multiplication checks detecting exactly an overflowing
product; `aux_for_totals` is the sum of the prefix products (strictly less than
`main_buckets` when every bin count is at least 2); `aux_buckets = max(aux_for_totals,
4)`; both `total_buckets = main + aux` and `bytes_per_bucket * total_buckets` are
overflow-checked; and any detected overflow makes the call return
`Error_OutOfMemory`. -/
theorem arena_sizing_spec (core : InteractionCoreModel) (orc : InteractionOracles)
    (groupBins : List Nat) (out : Option EFloat)
    (hb : ∀ b ∈ groupBins, 2 ≤ b) :
    (sizingLoop groupBins 1 0 = none ↔ cSizeMax ≤ groupBins.prod) ∧
    (∀ plan, planArena groupBins core.runtimeLearningTypeOrCountTargetClasses =
        .ok plan →
      plan.cTotalBucketsMainSpace = groupBins.prod ∧
      prefixProds groupBins < groupBins.prod ∧
      plan.cAuxillaryBuckets = max (prefixProds groupBins) 4 ∧
      plan.cTotalBuckets = plan.cTotalBucketsMainSpace + plan.cAuxillaryBuckets ∧
      plan.cTotalBuckets < cSizeMax ∧
      plan.cBytesBuffer = plan.cBytesPerHistogramBucket * plan.cTotalBuckets ∧
      plan.cBytesBuffer < cSizeMax) ∧
    (∀ e, planArena groupBins core.runtimeLearningTypeOrCountTargetClasses =
        .error e →
      e = .Error_OutOfMemory ∧
      (CalcInteractionStrengthInternal core orc groupBins out).1 =
        .Error_OutOfMemory) := by
  have hspec := sizingLoop_spec groupBins 1 0 hb (by omega) (by norm_num [cSizeMax])
  rw [Nat.one_mul, Nat.one_mul, Nat.zero_add] at hspec
  refine ⟨?_, ?_, ?_⟩
  · constructor
    · intro hnone
      by_contra hlt
      have h2 := (hspec.2 (lt_of_not_le hlt)).1
      rw [h2] at hnone
      exact Option.noConfusion hnone
    · intro hge
      exact hspec.1 hge
  · intro plan hplan
    by_cases hov : cSizeMax ≤ groupBins.prod
    · unfold planArena at hplan
      rw [hspec.1 hov] at hplan
      exact absurd hplan (by simp)
    · have hlt := lt_of_not_le hov
      obtain ⟨heq, hstrict⟩ := hspec.2 hlt
      have hmax : (if prefixProds groupBins < 4 then (4 : Nat)
          else prefixProds groupBins) = max (prefixProds groupBins) 4 := by
        rcases Nat.lt_or_ge (prefixProds groupBins) 4 with hc | hc
        · rw [if_pos hc]; omega
        · rw [if_neg (not_lt_of_le hc)]; omega
      unfold planArena at hplan
      rw [heq] at hplan
      dsimp only at hplan
      rw [hmax] at hplan
      split_ifs at hplan with h2 h3 h4
      have hp := Except.ok.inj hplan
      subst hp
      refine ⟨rfl, hstrict, rfl, rfl, ?_, rfl, ?_⟩
      · simp only [IsAddError, decide_eq_true_eq] at h2
        dsimp only
        omega
      · simp only [IsMultiplyError, decide_eq_true_eq] at h4
        dsimp only
        omega
  · intro e he
    refine ⟨planArena_error_oom _ _ _ he, ?_⟩
    unfold CalcInteractionStrengthInternal
    rw [he, planArena_error_oom _ _ _ he]

/-- Witness for claim C8 at a concrete input: bins `[3, 2]` give `main = 6`,
`aux_for_totals = 1 + 3·1 = 4`, `aux = max(4, 4) = 4`, `total = 10`. -/
theorem arena_sizing_spec_witness :
    ((∀ b ∈ [3, 2], 2 ≤ b) ∧
      planArena [3, 2] (-1) = Except.ok ⟨6, 4, 10, 24, 240⟩) ∧
    ((6 : Nat) = List.prod [3, 2] ∧ prefixProds [3, 2] < List.prod [3, 2] ∧
      (4 : Nat) = max (prefixProds [3, 2]) 4 ∧ (10 : Nat) = 6 + 4 ∧
      (10 : Nat) < cSizeMax ∧ (240 : Nat) = 24 * 10 ∧ (240 : Nat) < cSizeMax) := by
  have h := arena_sizing_spec
    { featureBinCounts := [3, 2]
      cSamples := 1
      runtimeLearningTypeOrCountTargetClasses := -1
      weightTotal := EFloat.val 1 }
    { partitionGain := EFloat.val 0, histogramAllocOk := true }
    [3, 2] none (by decide)
  have h2 := h.2.1 ⟨6, 4, 10, 24, 240⟩ rfl
  exact ⟨⟨by decide, rfl⟩, h2⟩

/-! ### Slice lookup characterization (towards claims C1 and C2) -/

theorem countLE_zero (s : Nat → Nat) (b : Nat) : countLE s 0 b = 0 := rfl

theorem countLE_succ (s : Nat → Nat) (m b : Nat) :
    countLE s (m + 1) b = countLE s m b + (if s m ≤ b then 1 else 0) := by
  unfold countLE
  rw [List.range_succ, List.filter_append, List.length_append]
  congr 1
  by_cases h : s m ≤ b
  · simp [h]
  · simp [h]

theorem countLE_le (s : Nat → Nat) (m b : Nat) : countLE s m b ≤ m := by
  unfold countLE
  calc ((List.range m).filter fun k => s k ≤ b).length ≤ (List.range m).length :=
        List.length_filter_le _ _
    _ = m := List.length_range m

/-- The count of splits at or below `b` is `j` when the first `j` splits are at or
below `b` and the rest are above it. -/
theorem countLE_eq_of (s : Nat → Nat) (m b : Nat) :
    ∀ j, j ≤ m → (∀ k, k < j → s k ≤ b) → (∀ k, j ≤ k → k < m → b < s k) →
      countLE s m b = j := by
  induction m with
  | zero =>
      intro j hj _ _
      have hj0 : j = 0 := by omega
      subst hj0
      exact countLE_zero s b
  | succ m ih =>
      intro j hj hlow hhigh
      rw [countLE_succ]
      by_cases hjm : j = m + 1
      · subst hjm
        rw [if_pos (hlow m (by omega))]
        rw [ih m (le_refl m) (fun k hk => hlow k (by omega)) (fun k h1 h2 => by omega)]
      · have hjm2 : j ≤ m := by omega
        rw [if_neg (not_le_of_lt (hhigh m hjm2 (by omega)))]
        rw [ih j hjm2 hlow (fun k h1 h2 => hhigh k h1 (by omega))]
        omega

/-- Inverse characterization: for strictly increasing splits, everything below the
count is at or below `b`, everything at or beyond it (within range) is above `b`. -/
theorem countLE_inv (s : Nat → Nat) (m b : Nat)
    (mono : ∀ j k, j < k → k < m → s j < s k) :
    (∀ k, k < countLE s m b → s k ≤ b) ∧
    (∀ k, countLE s m b ≤ k → k < m → b < s k) := by
  induction m with
  | zero => exact ⟨fun k hk => absurd (lt_of_lt_of_le hk (countLE_le s 0 b)) (by omega),
      fun k _ hk => absurd hk (by omega)⟩
  | succ m ih =>
      have mono' : ∀ j k, j < k → k < m → s j < s k := fun j k h1 h2 => mono j k h1 (by omega)
      obtain ⟨ihlow, ihhigh⟩ := ih mono'
      by_cases hs : s m ≤ b
      · have hall : countLE s (m + 1) b = m + 1 := by
          refine countLE_eq_of s (m + 1) b (m + 1) (le_refl _) ?_ (fun k h1 h2 => by omega)
          intro k hk
          rcases Nat.lt_or_ge k m with hkm | hkm
          · exact le_trans (le_of_lt (mono k m hkm (by omega))) hs
          · have : k = m := by omega
            subst this; exact hs
        rw [hall]
        exact ⟨fun k hk => by
            rcases Nat.lt_or_ge k m with hkm | hkm
            · exact le_trans (le_of_lt (mono k m hkm (by omega))) hs
            · have : k = m := by omega
              subst this; exact hs,
          fun k h1 h2 => by omega⟩
      · have hkeep : countLE s (m + 1) b = countLE s m b := by
          rw [countLE_succ, if_neg hs, Nat.add_zero]
        rw [hkeep]
        refine ⟨ihlow, fun k h1 h2 => ?_⟩
        rcases Nat.lt_or_ge k m with hkm | hkm
        · exact ihhigh k h1 hkm
        · have : k = m := by omega
          subst this
          exact lt_of_not_le hs

/-- Well-formedness of one dimension against its feature's bin count (§3 invariants):
at least one slice, no more slices than bins, live splits strictly increasing within
`(0, cBins)`. -/
def dimWF (d : DimensionInfo) (cBins : Nat) : Prop :=
  1 ≤ d.cSlices ∧ d.cSlices ≤ cBins ∧
  (∀ k, k < d.cSlices - 1 → 1 ≤ d.aSplits k ∧ d.aSplits k < cBins) ∧
  (∀ k, k < d.cSlices - 1 → ∀ j, j < k → d.aSplits j < d.aSplits k)

theorem dimWF_mono {d : DimensionInfo} {cBins : Nat} (h : dimWF d cBins) :
    ∀ j k, j < k → k < d.cSlices - 1 → d.aSplits j < d.aSplits k :=
  fun j k h1 h2 => h.2.2.2 k h2 j h1

theorem sliceOf_le {d : DimensionInfo} (b : Nat) : d.sliceOf b ≤ d.cSlices - 1 :=
  countLE_le _ _ _

theorem sliceOf_zero {d : DimensionInfo} {cBins : Nat} (h : dimWF d cBins) :
    d.sliceOf 0 = 0 :=
  countLE_eq_of _ _ _ 0 (by omega) (fun k hk => by omega)
    (fun k _ hk => (h.2.2.1 k hk).1)

theorem sliceOf_last {d : DimensionInfo} {cBins : Nat} (h : dimWF d cBins) :
    d.sliceOf (cBins - 1) = d.cSlices - 1 :=
  countLE_eq_of _ _ _ (d.cSlices - 1) (le_refl _)
    (fun k hk => by have := (h.2.2.1 k hk).2; omega)
    (fun k h1 h2 => by omega)

theorem sliceOf_pos_bin {d : DimensionInfo} {cBins : Nat} (h : dimWF d cBins) (c : Nat)
    (hc : 0 < d.sliceOf c) : 1 ≤ c := by
  have hinv := (countLE_inv d.aSplits (d.cSlices - 1) c (dimWF_mono h)).1
  have hle := sliceOf_le (d := d) c
  have h0 : d.aSplits 0 ≤ c := hinv 0 hc
  have h1 : 1 ≤ d.aSplits 0 := (h.2.2.1 0 (by omega)).1
  omega

theorem sliceOf_dec_move {d : DimensionInfo} {cBins : Nat} (h : dimWF d cBins) (c : Nat)
    (hc : 1 ≤ c) (hj : 0 < d.sliceOf c)
    (hmove : c ≤ d.aSplits (d.sliceOf c - 1)) :
    d.sliceOf (c - 1) = d.sliceOf c - 1 := by
  obtain ⟨hlow, hhigh⟩ := countLE_inv d.aSplits (d.cSlices - 1) c (dimWF_mono h)
  have hle := sliceOf_le (d := d) c
  simp only [DimensionInfo.sliceOf] at hj hmove hle ⊢
  have hsj : d.aSplits (countLE d.aSplits (d.cSlices - 1) c - 1) = c :=
    le_antisymm (hlow _ (by omega)) hmove
  refine countLE_eq_of _ _ _ (countLE d.aSplits (d.cSlices - 1) c - 1) (by omega) ?_ ?_
  · intro k hk
    have := dimWF_mono h k (countLE d.aSplits (d.cSlices - 1) c - 1) (by omega) (by omega)
    omega
  · intro k h1 h2
    rcases Nat.lt_or_ge k (countLE d.aSplits (d.cSlices - 1) c) with hk | hk
    · have : k = countLE d.aSplits (d.cSlices - 1) c - 1 := by omega
      subst this
      omega
    · have := hhigh k hk h2
      omega

theorem sliceOf_dec_stay {d : DimensionInfo} {cBins : Nat} (h : dimWF d cBins) (c : Nat)
    (hc : 1 ≤ c) (hj : 0 < d.sliceOf c)
    (hstay : d.aSplits (d.sliceOf c - 1) < c) :
    d.sliceOf (c - 1) = d.sliceOf c := by
  obtain ⟨hlow, hhigh⟩ := countLE_inv d.aSplits (d.cSlices - 1) c (dimWF_mono h)
  have hle := sliceOf_le (d := d) c
  simp only [DimensionInfo.sliceOf] at hj hstay hle ⊢
  refine countLE_eq_of _ _ _ (countLE d.aSplits (d.cSlices - 1) c) (by omega) ?_ ?_
  · intro k hk
    rcases Nat.lt_or_ge k (countLE d.aSplits (d.cSlices - 1) c - 1) with hkk | hkk
    · have := dimWF_mono h k (countLE d.aSplits (d.cSlices - 1) c - 1) hkk (by omega)
      omega
    · have : k = countLE d.aSplits (d.cSlices - 1) c - 1 := by omega
      subst this
      omega
  · intro k h1 h2
    have := hhigh k h1 h2
    omega

theorem sliceOf_dec_zero {d : DimensionInfo} {cBins : Nat} (h : dimWF d cBins) (c : Nat)
    (hz : d.sliceOf c = 0) : d.sliceOf (c - 1) = 0 := by
  obtain ⟨_, hhigh⟩ := countLE_inv d.aSplits (d.cSlices - 1) c (dimWF_mono h)
  simp only [DimensionInfo.sliceOf] at hz ⊢
  refine countLE_eq_of _ _ _ 0 (by omega) (fun k hk => by omega) ?_
  intro k _ h2
  have := hhigh k (by omega) h2
  omega

/-! ### Mixed-radix coordinates of the expanded grid -/

/-- Flat cell index of a coordinate tuple in a grid with the given per-dimension
radices (dimension 0 fastest). -/
def flatIndexN : List Nat → List Nat → Nat
  | [], _ => 0
  | _, [] => 0
  | b :: bs, c :: cs => c + b * flatIndexN bs cs

@[simp] theorem flatIndexN_nil (cs : List Nat) : flatIndexN [] cs = 0 := by
  cases cs <;> rfl

@[simp] theorem flatIndexN_cons (b : Nat) (bs : List Nat) (c : Nat) (cs : List Nat) :
    flatIndexN (b :: bs) (c :: cs) = c + b * flatIndexN bs cs := rfl

/-- Decrement of a little-endian mixed-radix numeral. -/
def decDigits : List Nat → List Nat → List Nat
  | _, [] => []
  | [], _ => []
  | b :: bs, c :: cs => if c = 0 then (b - 1) :: decDigits bs cs else (c - 1) :: cs

@[simp] theorem decDigits_cons (b : Nat) (bs : List Nat) (c : Nat) (cs : List Nat) :
    decDigits (b :: bs) (c :: cs) =
      if c = 0 then (b - 1) :: decDigits bs cs else (c - 1) :: cs := rfl

theorem decDigits_valid : ∀ {bs cs : List Nat}, List.Forall₂ (fun c b => c < b) cs bs →
    List.Forall₂ (fun c b => c < b) (decDigits bs cs) bs := by
  intro bs cs h
  induction h with
  | nil => exact List.Forall₂.nil
  | cons hcb htail ih =>
      rename_i c b cs2 bs2
      rw [decDigits_cons]
      by_cases hc : c = 0
      · rw [if_pos hc]
        exact List.Forall₂.cons (by omega) ih
      · rw [if_neg hc]
        exact List.Forall₂.cons (by omega) htail

theorem flatIndexN_dec : ∀ {bs cs : List Nat}, List.Forall₂ (fun c b => c < b) cs bs →
    flatIndexN bs cs ≠ 0 →
    flatIndexN bs (decDigits bs cs) = flatIndexN bs cs - 1 := by
  intro bs cs h
  induction h with
  | nil => intro h0; exact absurd rfl h0
  | cons hcb htail ih =>
      rename_i c b cs2 bs2
      intro h0
      rw [flatIndexN_cons] at h0 ⊢
      rw [decDigits_cons]
      by_cases hc : c = 0
      · subst hc
        rw [if_pos rfl, flatIndexN_cons]
        have hF : flatIndexN bs2 cs2 ≠ 0 := by
          intro hz
          rw [hz] at h0
          simp at h0
        rw [ih hF]
        obtain ⟨F, hFsucc⟩ := Nat.exists_eq_succ_of_ne_zero hF
        rw [hFsucc]
        have hmul : b * (F + 1) = b * F + b := by ring
        rw [Nat.succ_sub_one, hmul]
        omega
      · rw [if_neg hc, flatIndexN_cons]
        omega

theorem flatIndexN_lt_prod : ∀ {bs cs : List Nat},
    List.Forall₂ (fun c b => c < b) cs bs → flatIndexN bs cs < bs.prod := by
  intro bs cs h
  induction h with
  | nil => simp
  | cons hcb htail ih =>
      rename_i c b cs2 bs2
      rw [flatIndexN_cons, List.prod_cons]
      have h1 : flatIndexN bs2 cs2 + 1 ≤ bs2.prod := ih
      calc c + b * flatIndexN bs2 cs2 < b + b * flatIndexN bs2 cs2 := by omega
        _ = b * (flatIndexN bs2 cs2 + 1) := by ring
        _ ≤ b * bs2.prod := Nat.mul_le_mul_left b h1

theorem flatIndexN_zero_iff : ∀ {bs cs : List Nat},
    List.Forall₂ (fun c b => c < b) cs bs →
    (flatIndexN bs cs = 0 ↔ ∀ c ∈ cs, c = 0) := by
  intro bs cs h
  induction h with
  | nil => simp
  | cons hcb htail ih =>
      rename_i c b cs2 bs2
      rw [flatIndexN_cons]
      constructor
      · intro h0 x hx
        have hc0 : c = 0 := by omega
        have hbF : b * flatIndexN bs2 cs2 = 0 := by omega
        have hF : flatIndexN bs2 cs2 = 0 := by
          rcases Nat.mul_eq_zero.mp hbF with hb | hF
          · omega
          · exact hF
        rcases List.mem_cons.mp hx with hx | hx
        · omega
        · exact (ih.mp hF) x hx
      · intro hall
        have hc0 : c = 0 := hall c (List.mem_cons_self _ _)
        have hF : flatIndexN bs2 cs2 = 0 := ih.mpr fun x hx => hall x (List.mem_cons_of_mem _ hx)
        rw [hc0, hF]
        ring

@[simp] theorem flatIndex_nil (cs : List Nat) : flatIndex [] cs = 0 := by
  cases cs <;> rfl

@[simp] theorem flatIndex_cons (d : DimensionInfo) (ds : List DimensionInfo)
    (c : Nat) (cs : List Nat) :
    flatIndex (d :: ds) (c :: cs) = d.sliceOf c + d.cSlices * flatIndex ds cs := rfl

theorem splits_lb {d : DimensionInfo} {cBins : Nat} (h : dimWF d cBins) :
    ∀ k, k < d.cSlices - 1 → k + 1 ≤ d.aSplits k := by
  intro k
  induction k with
  | zero => intro hk; exact (h.2.2.1 0 hk).1
  | succ n ih =>
      intro hk
      have h1 := ih (by omega)
      have h2 := dimWF_mono h n (n + 1) (by omega) hk
      omega

theorem sliceOf_le_bin {d : DimensionInfo} {cBins : Nat} (h : dimWF d cBins) (c : Nat) :
    d.sliceOf c ≤ c := by
  by_cases hz : d.sliceOf c = 0
  · omega
  · obtain ⟨hlow, _⟩ := countLE_inv d.aSplits (d.cSlices - 1) c (dimWF_mono h)
    have hle := sliceOf_le (d := d) c
    simp only [DimensionInfo.sliceOf] at hz hle ⊢
    have h1 : d.aSplits (countLE d.aSplits (d.cSlices - 1) c - 1) ≤ c := hlow _ (by omega)
    have h2 := splits_lb h (countLE d.aSplits (d.cSlices - 1) c - 1) (by omega)
    omega

theorem flatIndexN_inj : ∀ {bs cs1 cs2 : List Nat},
    List.Forall₂ (fun c b => c < b) cs1 bs → List.Forall₂ (fun c b => c < b) cs2 bs →
    flatIndexN bs cs1 = flatIndexN bs cs2 → cs1 = cs2 := by
  intro bs cs1 cs2 h1
  induction h1 generalizing cs2 with
  | nil => intro h2 _; cases h2; rfl
  | cons hcb htail ih =>
      rename_i c b cs1t bst
      intro h2 heq
      cases h2 with
      | cons hcb2 htail2 =>
          rename_i c2 cs2t
          rw [flatIndexN_cons, flatIndexN_cons] at heq
          have hFeq : flatIndexN bst cs1t = flatIndexN bst cs2t := by
            rcases lt_trichotomy (flatIndexN bst cs1t) (flatIndexN bst cs2t) with hlt | he | hgt
            · have h5 : flatIndexN bst cs1t + 1 ≤ flatIndexN bst cs2t := by omega
              have := Nat.mul_le_mul_left b h5
              have hm : b * (flatIndexN bst cs1t + 1) = b * flatIndexN bst cs1t + b := by ring
              omega
            · exact he
            · have h5 : flatIndexN bst cs2t + 1 ≤ flatIndexN bst cs1t := by omega
              have := Nat.mul_le_mul_left b h5
              have hm : b * (flatIndexN bst cs2t + 1) = b * flatIndexN bst cs2t + b := by ring
              omega
          have hceq : c = c2 := by rw [hFeq] at heq; omega
          rw [hceq, ih htail2 hFeq]

theorem flatIndex_le_flatIndexN : ∀ {ds : List DimensionInfo} {bs cs : List Nat},
    List.Forall₂ dimWF ds bs → List.Forall₂ (fun c b => c < b) cs bs →
    flatIndex ds cs ≤ flatIndexN bs cs := by
  intro ds bs cs hd
  induction hd generalizing cs with
  | nil => intro hc; cases hc; simp
  | cons hdb htail ih =>
      rename_i d b dst bst
      intro hc
      cases hc with
      | cons hcb hcs =>
          rename_i c cst
          rw [flatIndex_cons, flatIndexN_cons]
          have h1 : d.sliceOf c ≤ c := sliceOf_le_bin hdb c
          have h2 : flatIndex dst cst ≤ flatIndexN bst cst := ih hcs
          have h3 : d.cSlices ≤ b := hdb.2.1
          have h4 : d.cSlices * flatIndex dst cst ≤ b * flatIndexN bst cst :=
            Nat.mul_le_mul h3 h2
          omega

/-- The iterator stack of `Expand` at bin coordinate `cs` of the grid `bs`:
per dimension, the slice holding the coordinate, the 1-based remaining bin index,
and the target (dense) slice count. -/
def expandStack : List DimensionInfo → List Nat → List Nat →
    List (DimensionInfoStackExpand × DimensionInfo)
  | d :: ds, b :: bs, c :: cs =>
      (DimensionInfoStackExpand.mk (d.sliceOf c) (c + 1) b, d) :: expandStack ds bs cs
  | _, _, _ => []

@[simp] theorem expandStack_cons (d : DimensionInfo) (ds : List DimensionInfo)
    (b : Nat) (bs : List Nat) (c : Nat) (cs : List Nat) :
    expandStack (d :: ds) (b :: bs) (c :: cs) =
      (DimensionInfoStackExpand.mk (d.sliceOf c) (c + 1) b, d) :: expandStack ds bs cs := rfl

theorem expandStep_cons (p1 mult : Nat) (e : DimensionInfoStackExpand) (d : DimensionInfo)
    (rest : List (DimensionInfoStackExpand × DimensionInfo)) :
    expandStep p1 mult ((e, d) :: rest) =
      if 0 < e.pSplit1 then
        if e.iEdge2 - 1 ≤ d.aSplits (e.pSplit1 - 1) then
          (p1 - mult, ({ e with pSplit1 := e.pSplit1 - 1, iEdge2 := e.iEdge2 - 1 }, d) :: rest)
        else
          (p1, ({ e with iEdge2 := e.iEdge2 - 1 }, d) :: rest)
      else
        if 1 < e.iEdge2 then
          (p1, ({ e with iEdge2 := e.iEdge2 - 1 }, d) :: rest)
        else
          ((expandStep (p1 + mult * d.cSlices - mult) (mult * d.cSlices) rest).1,
            ({ e with pSplit1 := d.cSlices - 1, iEdge2 := e.cNewSlices }, d) ::
              (expandStep (p1 + mult * d.cSlices - mult) (mult * d.cSlices) rest).2) := rfl

theorem expandStep_spec : ∀ {ds : List DimensionInfo} {bs cs : List Nat},
    List.Forall₂ dimWF ds bs → List.Forall₂ (fun c b => c < b) cs bs →
    flatIndexN bs cs ≠ 0 → ∀ β mult,
    expandStep (β + mult * flatIndex ds cs) mult (expandStack ds bs cs) =
      (β + mult * flatIndex ds (decDigits bs cs), expandStack ds bs (decDigits bs cs)) := by
  intro ds bs cs hd
  induction hd generalizing cs with
  | nil =>
      intro hc h0
      cases hc
      simp at h0
  | cons hdb htail ih =>
      rename_i d b dst bst
      intro hc h0 β mult
      cases hc with
      | cons hcb hcs =>
          rename_i c cst
          rw [flatIndexN_cons] at h0
          by_cases hc0 : c = 0
          · -- carry: reset this dimension, step the rest of the stack
            subst hc0
            have hb : 0 < b := hcb
            have hFN : flatIndexN bst cst ≠ 0 := by
              intro hz; rw [hz] at h0; simp at h0
            have hn : 1 ≤ d.cSlices := hdb.1
            obtain ⟨m, hm⟩ : ∃ m, d.cSlices = m + 1 := ⟨d.cSlices - 1, by omega⟩
            have hz : d.sliceOf 0 = 0 := sliceOf_zero hdb
            rw [decDigits_cons, if_pos rfl, expandStack_cons, expandStack_cons,
              flatIndex_cons, flatIndex_cons, expandStep_cons]
            dsimp only
            rw [if_neg (by rw [hz]; omega), if_neg (by omega)]
            have hp : β + mult * (d.sliceOf 0 + d.cSlices * flatIndex dst cst) +
                mult * d.cSlices - mult =
                (β + mult * (d.cSlices - 1)) + (mult * d.cSlices) * flatIndex dst cst := by
              rw [hz, hm]
              have e1 : mult * (0 + (m + 1) * flatIndex dst cst) =
                  mult * ((m + 1) * flatIndex dst cst) := by ring
              have e2 : mult * (m + 1) = mult * m + mult := by ring
              have e3 : (mult * (m + 1)) * flatIndex dst cst =
                  mult * ((m + 1) * flatIndex dst cst) := by ring
              have e4 : (m + 1 - 1) = m := by omega
              rw [e4]
              omega
            rw [hp, ih hcs hFN (β + mult * (d.cSlices - 1)) (mult * d.cSlices)]
            rw [Prod.mk.injEq]
            refine ⟨?_, ?_⟩
            · rw [sliceOf_last hdb, hm]
              have e1 : mult * (m + 1 - 1 + (m + 1) * flatIndex dst (decDigits bst cst)) =
                  mult * m + mult * ((m + 1) * flatIndex dst (decDigits bst cst)) := by
                have e4 : (m + 1 - 1) = m := by omega
                rw [e4]; ring
              have e2 : (mult * (m + 1)) * flatIndex dst (decDigits bst cst) =
                  mult * ((m + 1) * flatIndex dst (decDigits bst cst)) := by ring
              have e3 : mult * (m + 1 - 1) = mult * m := by
                have e4 : (m + 1 - 1) = m := by omega
                rw [e4]
              omega
            · rw [sliceOf_last hdb]
              have hb1 : b - 1 + 1 = b := by omega
              rw [hb1]
          · -- decrement within this dimension
            have hc1 : 1 ≤ c := by omega
            rw [decDigits_cons, if_neg hc0, expandStack_cons, expandStack_cons,
              flatIndex_cons, flatIndex_cons, expandStep_cons]
            dsimp only
            by_cases hsl : 0 < d.sliceOf c
            · rw [if_pos hsl]
              have he1 : c + 1 - 1 = c := by omega
              rw [he1]
              by_cases hmv : c ≤ d.aSplits (d.sliceOf c - 1)
              · rw [if_pos hmv, Prod.mk.injEq]
                have hdec := sliceOf_dec_move hdb c hc1 hsl hmv
                refine ⟨?_, ?_⟩
                · rw [hdec]
                  obtain ⟨j, hj⟩ : ∃ j, d.sliceOf c = j + 1 := ⟨d.sliceOf c - 1, by omega⟩
                  rw [hj]
                  have e1 : mult * (j + 1 + d.cSlices * flatIndex dst cst) =
                      mult * (j + d.cSlices * flatIndex dst cst) + mult := by ring
                  have e2 : (j + 1 - 1) = j := by omega
                  rw [e2]
                  omega
                · rw [hdec]
                  have hb1 : c - 1 + 1 = c := by omega
                  rw [hb1]
              · rw [if_neg hmv, Prod.mk.injEq]
                have hdec := sliceOf_dec_stay hdb c hc1 hsl (by omega)
                refine ⟨?_, ?_⟩
                · rw [hdec]
                · rw [hdec]
                  have hb1 : c - 1 + 1 = c := by omega
                  rw [hb1]
            · rw [if_neg hsl, if_pos (by omega : 1 < c + 1)]
              have hz : d.sliceOf c = 0 := by omega
              have hdec := sliceOf_dec_zero hdb c hz
              rw [Prod.mk.injEq]
              refine ⟨?_, ?_⟩
              · rw [hdec, hz]
              · rw [hdec, hz]
                have he1 : c + 1 - 1 = c := by omega
                have hb1 : c - 1 + 1 = c := by omega
                rw [he1, hb1]

theorem expandLoop_succ (cS fuel : Nat) (buf : Nat → EFloat) (top p1 : Nat)
    (st : List (DimensionInfoStackExpand × DimensionInfo)) :
    expandLoop cS (fuel + 1) buf top p1 st =
      if top - cS = 0 then writeBlockCopy buf top p1 cS
      else expandLoop cS fuel (writeBlockCopy buf top p1 cS) (top - cS)
        (expandStep p1 cS st).1 (expandStep p1 cS st).2 := rfl

theorem expandLoop_spec (ds : List DimensionInfo) (bs : List Nat)
    (hd : List.Forall₂ dimWF ds bs) (cS : Nat) (hS : 0 < cS) (buf0 : Nat → EFloat) :
    ∀ (n : Nat) (cs : List Nat) (fuel : Nat) (buf : Nat → EFloat),
    List.Forall₂ (fun c b => c < b) cs bs → flatIndexN bs cs = n →
    n + 1 ≤ fuel →
    (∀ x, x < cS * (n + 1) → buf x = buf0 x) →
    (∀ cs2 : List Nat, List.Forall₂ (fun c b => c < b) cs2 bs →
       flatIndexN bs cs2 ≤ n → ∀ j, j < cS →
       expandLoop cS fuel buf (cS * (n + 1)) (cS * (flatIndex ds cs + 1))
         (expandStack ds bs cs) (cS * flatIndexN bs cs2 + j) =
         buf0 (cS * flatIndex ds cs2 + j)) ∧
    (∀ x, cS * (n + 1) ≤ x →
       expandLoop cS fuel buf (cS * (n + 1)) (cS * (flatIndex ds cs + 1))
         (expandStack ds bs cs) x = buf x) := by
  intro n
  induction n with
  | zero =>
      intro cs fuel buf hc hn hfuel hbuf
      obtain ⟨f, rfl⟩ : ∃ f, fuel = f + 1 := ⟨fuel - 1, by omega⟩
      have hflat0 : flatIndex ds cs = 0 := by
        have := flatIndex_le_flatIndexN hd hc
        omega
      have e1 : cS * (0 + 1) = cS := by ring
      rw [hflat0, expandLoop_succ, if_pos (by omega)]
      constructor
      · intro cs2 hc2 hle j hj
        have h02 : flatIndexN bs cs2 = 0 := by omega
        have hf2 : flatIndex ds cs2 = 0 := by
          have := flatIndex_le_flatIndexN hd hc2
          omega
        rw [h02, hf2]
        simp only [writeBlockCopy]
        rw [if_pos (by omega)]
        have hidx : cS * (0 + 1) - (cS * (0 + 1) - (cS * 0 + j)) = j := by omega
        rw [hidx]
        have hj2 : cS * 0 + j = j := by omega
        rw [hj2]
        exact hbuf j (by omega)
      · intro x hx
        simp only [writeBlockCopy]
        rw [if_neg (by omega)]
  | succ n ihn =>
      intro cs fuel buf hc hn hfuel hbuf
      obtain ⟨f, rfl⟩ : ∃ f, fuel = f + 1 := ⟨fuel - 1, by omega⟩
      have h0 : flatIndexN bs cs ≠ 0 := by omega
      have e1 : cS * (n + 1 + 1) = cS * (n + 1) + cS := by ring
      have hpos : 0 < cS * (n + 1) := Nat.mul_pos hS (by omega)
      rw [expandLoop_succ, if_neg (by omega)]
      have htop2 : cS * (n + 1 + 1) - cS = cS * (n + 1) := by omega
      have hp1 : cS * (flatIndex ds cs + 1) = cS + cS * flatIndex ds cs := by ring
      rw [htop2, hp1, expandStep_spec hd hc h0 cS cS]
      have hback : cS + cS * flatIndex ds (decDigits bs cs) =
          cS * (flatIndex ds (decDigits bs cs) + 1) := by ring
      dsimp only
      rw [hback]
      have hc2 : List.Forall₂ (fun c b => c < b) (decDigits bs cs) bs := decDigits_valid hc
      have hn2 : flatIndexN bs (decDigits bs cs) = n := by
        rw [flatIndexN_dec hc h0, hn]
        omega
      have hbuf2 : ∀ x, x < cS * (n + 1) →
          writeBlockCopy buf (cS * (n + 1 + 1)) (cS + cS * flatIndex ds cs) cS x = buf0 x := by
        intro x hx
        simp only [writeBlockCopy]
        rw [if_neg (by omega)]
        exact hbuf x (by omega)
      obtain ⟨H1, H2⟩ := ihn (decDigits bs cs) f
        (writeBlockCopy buf (cS * (n + 1 + 1)) (cS + cS * flatIndex ds cs) cS)
        hc2 hn2 (by omega) hbuf2
      constructor
      · intro cs2 hc2' hle j hj
        rcases Nat.lt_or_ge (flatIndexN bs cs2) (n + 1) with hlt | hge
        · exact H1 cs2 hc2' (by omega) j hj
        · have heq2 : flatIndexN bs cs2 = n + 1 := by omega
          have hcseq : cs2 = cs := flatIndexN_inj hc2' hc (by rw [heq2, hn])
          subst hcseq
          rw [heq2]
          rw [H2 _ (by omega)]
          simp only [writeBlockCopy]
          rw [if_pos (by omega)]
          have hflatle : flatIndex ds cs2 ≤ n + 1 := by
            have := flatIndex_le_flatIndexN hd hc2'
            omega
          have hmul : cS * flatIndex ds cs2 ≤ cS * (n + 1) :=
            Nat.mul_le_mul_left cS hflatle
          have hidx : cS + cS * flatIndex ds cs2 -
              (cS * (n + 1 + 1) - (cS * (n + 1) + j)) = cS * flatIndex ds cs2 + j := by
            omega
          rw [hidx]
          exact hbuf _ (by omega)
      · intro x hx
        rw [H2 x (by omega)]
        simp only [writeBlockCopy]
        rw [if_neg (by omega)]

@[simp] theorem flatIndex_nil_right (ds : List DimensionInfo) : flatIndex ds [] = 0 := by
  cases ds <;> rfl

@[simp] theorem flatIndexN_nil_right (bs : List Nat) : flatIndexN bs [] = 0 := by
  cases bs <;> rfl

theorem splits_ub_aux {d : DimensionInfo} {b : Nat} (h : dimWF d b) (hslice : d.cSlices = b) :
    ∀ t k, k + t = b - 2 → k < b - 1 → d.aSplits k ≤ k + 1 := by
  intro t
  induction t with
  | zero =>
      intro k hk hkb
      have := (h.2.2.1 k (by omega)).2
      omega
  | succ tt ih =>
      intro k hk hkb
      have h1 : d.aSplits k < d.aSplits (k + 1) :=
        dimWF_mono h k (k + 1) (by omega) (by omega)
      have h2 := ih (k + 1) (by omega) (by omega)
      omega

theorem splits_dense {d : DimensionInfo} {b : Nat} (h : dimWF d b) (hslice : d.cSlices = b) :
    ∀ k, k < b - 1 → d.aSplits k = k + 1 := by
  intro k hk
  have hub := splits_ub_aux h hslice (b - 2 - k) k (by omega) hk
  have hlb := splits_lb h k (by omega)
  omega

theorem bins_pos : ∀ {ds : List DimensionInfo} {bs : List Nat},
    List.Forall₂ dimWF ds bs → ∀ b ∈ bs, 1 ≤ b := by
  intro ds bs hd
  induction hd with
  | nil => intro b hb; cases hb
  | cons hdb htail ih =>
      intro b hb
      rcases List.mem_cons.mp hb with hb | hb
      · subst hb
        have h1 := hdb.1
        have h2 := hdb.2.1
        omega
      · exact ih b hb

theorem cSlices_prod_pos : ∀ {ds : List DimensionInfo} {bs : List Nat},
    List.Forall₂ dimWF ds bs → 1 ≤ (ds.map DimensionInfo.cSlices).prod := by
  intro ds bs hd
  induction hd with
  | nil => simp
  | cons hdb htail ih =>
      rename_i d b dst bst
      rw [List.map_cons, List.prod_cons]
      have h1 := hdb.1
      calc 1 = 1 * 1 := by ring
        _ ≤ d.cSlices * (dst.map DimensionInfo.cSlices).prod := Nat.mul_le_mul h1 ih

theorem prod_pos_of_pos : ∀ {bs : List Nat}, (∀ b ∈ bs, 1 ≤ b) → 1 ≤ bs.prod := by
  intro bs
  induction bs with
  | nil => intro _; simp
  | cons b bst ih =>
      intro h
      rw [List.prod_cons]
      have h1 : 1 ≤ b := h b (List.mem_cons_self _ _)
      have h2 : 1 ≤ bst.prod := ih fun x hx => h x (List.mem_cons_of_mem _ hx)
      calc 1 = 1 * 1 := by ring
        _ ≤ b * bst.prod := Nat.mul_le_mul h1 h2

theorem mem_le_prod : ∀ {bs : List Nat}, (∀ b ∈ bs, 1 ≤ b) → ∀ b ∈ bs, b ≤ bs.prod := by
  intro bs
  induction bs with
  | nil => intro _ b hb; cases hb
  | cons x bst ih =>
      intro h b hb
      rw [List.prod_cons]
      have h2 : 1 ≤ bst.prod := prod_pos_of_pos fun y hy => h y (List.mem_cons_of_mem _ hy)
      rcases List.mem_cons.mp hb with hb | hb
      · subst hb
        calc b = b * 1 := by ring
          _ ≤ b * bst.prod := Nat.mul_le_mul_left b h2
      · have h3 : b ≤ bst.prod := ih (fun y hy => h y (List.mem_cons_of_mem _ hy)) b hb
        have h1 : 1 ≤ x := h x (List.mem_cons_self _ _)
        calc b ≤ bst.prod := h3
          _ = 1 * bst.prod := by ring
          _ ≤ x * bst.prod := Nat.mul_le_mul_right _ h1

theorem csMax_valid : ∀ {ds : List DimensionInfo} {bs : List Nat},
    List.Forall₂ dimWF ds bs →
    List.Forall₂ (fun c b => c < b) (bs.map fun b => b - 1) bs := by
  intro ds bs hd
  induction hd with
  | nil => exact List.Forall₂.nil
  | cons hdb htail ih =>
      rw [List.map_cons]
      refine List.Forall₂.cons ?_ ih
      have h1 := hdb.1
      have h2 := hdb.2.1
      omega

theorem flatIndexN_max : ∀ {ds : List DimensionInfo} {bs : List Nat},
    List.Forall₂ dimWF ds bs →
    flatIndexN bs (bs.map fun b => b - 1) = bs.prod - 1 := by
  intro ds bs hd
  induction hd with
  | nil => simp
  | cons hdb htail ih =>
      rename_i d b dst bst
      rw [List.map_cons, flatIndexN_cons, List.prod_cons, ih]
      have hb : 1 ≤ b := by have := hdb.1; have := hdb.2.1; omega
      have hP : 1 ≤ bst.prod := prod_pos_of_pos (bins_pos htail)
      obtain ⟨q, hq⟩ : ∃ q, bst.prod = q + 1 := ⟨bst.prod - 1, by omega⟩
      rw [hq]
      have e1 : b * (q + 1) = b * q + b := by ring
      have e2 : (q + 1 - 1) = q := by omega
      rw [e2]
      omega

theorem flatIndex_max : ∀ {ds : List DimensionInfo} {bs : List Nat},
    List.Forall₂ dimWF ds bs →
    flatIndex ds (bs.map fun b => b - 1) = (ds.map DimensionInfo.cSlices).prod - 1 := by
  intro ds bs hd
  induction hd with
  | nil => simp
  | cons hdb htail ih =>
      rename_i d b dst bst
      rw [List.map_cons, List.map_cons, flatIndex_cons, List.prod_cons, ih,
        sliceOf_last hdb]
      have hn : 1 ≤ d.cSlices := hdb.1
      have hQ : 1 ≤ (dst.map DimensionInfo.cSlices).prod := cSlices_prod_pos htail
      obtain ⟨q, hq⟩ : ∃ q, (dst.map DimensionInfo.cSlices).prod = q + 1 :=
        ⟨(dst.map DimensionInfo.cSlices).prod - 1, by omega⟩
      rw [hq]
      have e1 : d.cSlices * (q + 1) = d.cSlices * q + d.cSlices := by ring
      have e2 : (q + 1 - 1) = q := by omega
      rw [e2]
      omega

theorem expandStack_init : ∀ {ds : List DimensionInfo} {bs : List Nat},
    List.Forall₂ dimWF ds bs →
    List.zipWith (fun (cBins : Nat) (d : DimensionInfo) =>
        (DimensionInfoStackExpand.mk (d.cSlices - 1) cBins cBins, d)) bs ds =
      expandStack ds bs (bs.map fun b => b - 1) := by
  intro ds bs hd
  induction hd with
  | nil => rfl
  | cons hdb htail ih =>
      rename_i d b dst bst
      rw [List.map_cons, List.zipWith_cons_cons, expandStack_cons, ih,
        sliceOf_last hdb]
      have hb : 1 ≤ b := by have := hdb.1; have := hdb.2.1; omega
      have e1 : b - 1 + 1 = b := by omega
      rw [e1]

theorem forall₂_getD {α β : Type _} (P : α → β → Prop) :
    ∀ (l1 : List α) (l2 : List β) (d1 : α) (d2 : β),
    List.Forall₂ P l1 l2 → ∀ k, k < l2.length → P (l1.getD k d1) (l2.getD k d2) := by
  intro l1 l2 d1 d2 h
  induction h with
  | nil => intro k hk; simp at hk
  | cons hab htail ih =>
      intro k hk
      cases k with
      | zero => simpa using hab
      | succ m =>
          simp only [List.getD_cons_succ]
          exact ih m (by simpa using hk)

theorem forall₂_of_getD {α β : Type _} (P : α → β → Prop) :
    ∀ (l2 : List β) (l1 : List α) (d1 : α) (d2 : β),
    l1.length = l2.length → (∀ k, k < l2.length → P (l1.getD k d1) (l2.getD k d2)) →
    List.Forall₂ P l1 l2 := by
  intro l2
  induction l2 with
  | nil =>
      intro l1 d1 d2 hlen _
      rw [List.length_nil, List.length_eq_zero] at hlen
      subst hlen
      exact List.Forall₂.nil
  | cons b l2t ih =>
      intro l1 d1 d2 hlen hP
      cases l1 with
      | nil => simp at hlen
      | cons a l1t =>
          refine List.Forall₂.cons ?_ (ih l1t d1 d2 (by simpa using hlen) ?_)
          · simpa using hP 0 (by simp)
          · intro k hk
            simpa using hP (k + 1) (by simpa using hk)

/-- A fully expanded dimension: dense slices `0,…,b−1` delimited by splits `k+1`. -/
def denseDim (d : DimensionInfo) (b : Nat) : Prop :=
  d.cSlices = b ∧ ∀ m, m < b - 1 → d.aSplits m = m + 1

theorem sliceOf_dense {d : DimensionInfo} {b : Nat} (h : denseDim d b) (c : Nat)
    (hc : c < b) : d.sliceOf c = c := by
  simp only [DimensionInfo.sliceOf, h.1]
  refine countLE_eq_of _ _ _ c (by omega) ?_ ?_
  · intro k hk
    rw [h.2 k (by omega)]
    omega
  · intro k h1 h2
    rw [h.2 k h2]
    omega

theorem flatIndex_dense : ∀ {ds : List DimensionInfo} {bs cs : List Nat},
    List.Forall₂ denseDim ds bs → List.Forall₂ (fun c b => c < b) cs bs →
    flatIndex ds cs = flatIndexN bs cs := by
  intro ds bs cs hd
  induction hd generalizing cs with
  | nil => intro hc; cases hc; simp
  | cons hdb htail ih =>
      rename_i d b dst bst
      intro hc
      cases hc with
      | cons hcb hcs =>
          rename_i c cst
          rw [flatIndex_cons, flatIndexN_cons, sliceOf_dense hdb c hcb, hdb.1, ih hcs]

theorem SetCountSlices_ok (t : Tensor) (i cS2 : Nat) (hb : cS2 ≤ 2 ^ 60) :
    ∃ (tr : Tensor) (pd2 : DimensionInfo),
      t.SetCountSlices i cS2 true = (.Error_None, tr) ∧
      tr.dims = t.dims.set i pd2 ∧
      tr.cScores = t.cScores ∧ tr.aTensorScores = t.aTensorScores ∧
      tr.bExpanded = t.bExpanded ∧
      pd2.cSlices = cS2 ∧ pd2.aSplits = (t.dims.getD i default).aSplits := by
  unfold Tensor.SetCountSlices
  by_cases hcap : (t.dims.getD i default).cSliceCapacity < cS2
  · rw [if_pos hcap]
    have hadd : IsAddError (cS2 - 1) ((cS2 - 1) / 2) = false := by
      unfold IsAddError cSizeMax
      simp only [decide_eq_false_iff_not, not_le]
      omega
    have hmul : IsMultiplyError cBytesPerSplit ((cS2 - 1) + (cS2 - 1) / 2) = false := by
      unfold IsMultiplyError cBytesPerSplit cSizeMax
      simp only [decide_eq_false_iff_not, not_le]
      omega
    rw [if_neg (by rw [hadd]; exact Bool.false_ne_true),
      if_neg (by rw [hmul]; exact Bool.false_ne_true), if_pos rfl]
    exact ⟨_, _, rfl, rfl, rfl, rfl, rfl, rfl, rfl⟩
  · rw [if_neg hcap]
    exact ⟨_, _, rfl, rfl, rfl, rfl, rfl, rfl, rfl⟩

/-- The split rewrite of one dimension in `Expand`: dense splits `1,…,cBins−1` are
written over the first `cBins − 1` split entries. -/
def densify (pd : DimensionInfo) (cBins : Nat) : DimensionInfo :=
  { pd with aSplits := fun k => if k + 1 < cBins then k + 1 else pd.aSplits k }

/-- `densify` applied at position `i` of the dimension array. -/
def densifyAt (t : Tensor) (i cBins : Nat) : Tensor :=
  { t with dims := t.dims.set i (densify (t.dims.getD i default) cBins) }

theorem expandSplits_nil (alloc : Nat → Bool) (i : Nat) (t : Tensor) :
    expandSplits alloc [] i t = (.Error_None, { t with bExpanded := true }) := rfl

theorem expandSplits_cons_skip (alloc : Nat → Bool) (cBins : Nat) (rest : List Nat)
    (i : Nat) (t : Tensor) (heq : cBins = (t.dims.getD i default).cSlices) :
    expandSplits alloc (cBins :: rest) i t = expandSplits alloc rest (i + 1) t := by
  simp only [expandSplits]
  rw [if_neg (fun h => h heq)]

theorem expandSplits_cons_set (alloc : Nat → Bool) (cBins : Nat) (rest : List Nat)
    (i : Nat) (t tr : Tensor) (hne : cBins ≠ (t.dims.getD i default).cSlices)
    (hset : t.SetCountSlices i cBins (alloc (i + 1)) = (.Error_None, tr)) :
    expandSplits alloc (cBins :: rest) i t =
      expandSplits alloc rest (i + 1) (densifyAt tr i cBins) := by
  simp only [expandSplits]
  rw [if_pos hne, hset]
  rfl

theorem expandSplits_spec (alloc : Nat → Bool) (halloc : ∀ k, alloc k = true) :
    ∀ (bins2 : List Nat) (i : Nat) (t : Tensor),
    t.dims.length = i + bins2.length →
    (∀ b ∈ bins2, b ≤ 2 ^ 60) →
    (∀ k, k < bins2.length → dimWF (t.dims.getD (i + k) default) (bins2.getD k 0)) →
    ∃ t2, expandSplits alloc bins2 i t = (.Error_None, t2) ∧
      t2.cScores = t.cScores ∧
      t2.aTensorScores = t.aTensorScores ∧
      t2.bExpanded = true ∧
      t2.dims.length = t.dims.length ∧
      (∀ k, k < i → t2.dims.getD k default = t.dims.getD k default) ∧
      (∀ k, k < bins2.length → denseDim (t2.dims.getD (i + k) default) (bins2.getD k 0)) := by
  intro bins2
  induction bins2 with
  | nil =>
      intro i t _ _ _
      rw [expandSplits_nil]
      exact ⟨_, rfl, rfl, rfl, rfl, rfl, fun k _ => rfl, fun k hk => by simp at hk⟩
  | cons cBins rest ih =>
      intro i t hlen hbound hwf
      have hi : i < t.dims.length := by
        rw [hlen, List.length_cons]
        omega
      have hb60 : cBins ≤ 2 ^ 60 := hbound _ (List.mem_cons_self _ _)
      by_cases hne : cBins = (t.dims.getD i default).cSlices
      · rw [expandSplits_cons_skip alloc cBins rest i t hne]
        have hwf0 := hwf 0 (by rw [List.length_cons]; omega)
        rw [Nat.add_zero, List.getD_cons_zero] at hwf0
        have hlen1 : t.dims.length = (i + 1) + rest.length := by
          rw [hlen, List.length_cons]
          omega
        have hwf1 : ∀ k, k < rest.length →
            dimWF (t.dims.getD ((i + 1) + k) default) (rest.getD k 0) := by
          intro k hk
          have h1 := hwf (k + 1) (by rw [List.length_cons]; omega)
          rw [List.getD_cons_succ] at h1
          have h2 : i + (k + 1) = (i + 1) + k := by omega
          rw [h2] at h1
          exact h1
        obtain ⟨t4, hrec, hc4, ha4, hb4, hl4, hpre4, hdense4⟩ :=
          ih (i + 1) t hlen1 (fun b hb => hbound b (List.mem_cons_of_mem _ hb)) hwf1
        refine ⟨t4, hrec, hc4, ha4, hb4, hl4, ?_, ?_⟩
        · intro k hk
          exact hpre4 k (by omega)
        · intro k hk
          cases k with
          | zero =>
              rw [Nat.add_zero, hpre4 i (by omega), List.getD_cons_zero]
              exact ⟨hne.symm, splits_dense hwf0 hne.symm⟩
          | succ m =>
              rw [List.length_cons] at hk
              have h1 := hdense4 m (by omega)
              have h2 : i + (m + 1) = (i + 1) + m := by omega
              rw [h2, List.getD_cons_succ]
              exact h1
      · have hset0 := SetCountSlices_ok t i cBins hb60
        obtain ⟨tr, pd2, hset, htrd, htrc, htra, htrb, hpd2s, hpd2a⟩ := hset0
        rw [expandSplits_cons_set alloc cBins rest i t tr hne (by rw [halloc (i + 1)]; exact hset)]
        have hget2 : tr.dims.getD i default = pd2 := by
          rw [htrd]
          exact getD_set_self _ _ _ _ hi
        have hT3d : (densifyAt tr i cBins).dims = t.dims.set i (densify pd2 cBins) := by
          unfold densifyAt
          rw [hget2, htrd]
          simp only [List.set_set]
        have hlen3 : (densifyAt tr i cBins).dims.length = (i + 1) + rest.length := by
          rw [hT3d, List.length_set, hlen, List.length_cons]
          omega
        have hwf3 : ∀ k, k < rest.length →
            dimWF ((densifyAt tr i cBins).dims.getD ((i + 1) + k) default) (rest.getD k 0) := by
          intro k hk
          rw [hT3d, getD_set_ne _ _ _ _ _ (by omega)]
          have h1 := hwf (k + 1) (by rw [List.length_cons]; omega)
          rw [List.getD_cons_succ] at h1
          have h2 : i + (k + 1) = (i + 1) + k := by omega
          rw [h2] at h1
          exact h1
        obtain ⟨t4, hrec, hc4, ha4, hb4, hl4, hpre4, hdense4⟩ :=
          ih (i + 1) (densifyAt tr i cBins) hlen3
            (fun b hb => hbound b (List.mem_cons_of_mem _ hb)) hwf3
        have hdc : (densifyAt tr i cBins).cScores = t.cScores := by
          unfold densifyAt
          dsimp only
          rw [htrc]
        have hda : (densifyAt tr i cBins).aTensorScores = t.aTensorScores := by
          unfold densifyAt
          dsimp only
          rw [htra]
        refine ⟨t4, hrec, ?_, ?_, hb4, ?_, ?_, ?_⟩
        · rw [hc4, hdc]
        · rw [ha4, hda]
        · rw [hl4, hT3d, List.length_set]
        · intro k hk
          rw [hpre4 k (by omega), hT3d, getD_set_ne _ _ _ _ _ (by omega)]
        · intro k hk
          cases k with
          | zero =>
              rw [Nat.add_zero, hpre4 i (by omega), hT3d,
                getD_set_self _ _ _ _ hi, List.getD_cons_zero]
              constructor
              · unfold densify
                dsimp only
                exact hpd2s
              · intro m hm
                unfold densify
                dsimp only
                rw [if_pos (by omega)]
          | succ m =>
              rw [List.length_cons] at hk
              have h1 := hdense4 m (by omega)
              have h2 : i + (m + 1) = (i + 1) + m := by omega
              rw [h2, List.getD_cons_succ]
              exact h1

theorem expand_tail (alloc : Nat → Bool) (halloc : ∀ k, alloc k = true)
    (bins : List Nat) (t t2 : Tensor) (Y : Nat → EFloat)
    (hd : List.Forall₂ dimWF t.dims bins)
    (ht2d : t2.dims = t.dims) (ht2s : t2.cScores = t.cScores)
    (hb : ∀ b ∈ bins, b ≤ 2 ^ 60)
    (hY : ∀ coord : List Nat, List.Forall₂ (fun c b => c < b) coord bins →
      ∀ j, j < t.cScores →
      Y (t.cScores * flatIndexN bins coord + j) =
        t.aTensorScores (t.cScores * flatIndex t.dims coord + j)) :
    (expandSplits alloc bins 0 { t2 with aTensorScores := Y }).1 = .Error_None ∧
    (expandSplits alloc bins 0 { t2 with aTensorScores := Y }).2.bExpanded = true ∧
    (∀ k, k < bins.length →
      ((expandSplits alloc bins 0 { t2 with aTensorScores := Y }).2.dims.getD k
          default).cSlices = bins.getD k 0 ∧
      ∀ m, m < bins.getD k 0 - 1 →
        ((expandSplits alloc bins 0 { t2 with aTensorScores := Y }).2.dims.getD k
            default).aSplits m = m + 1) ∧
    (∀ coord : List Nat, List.Forall₂ (fun c b => c < b) coord bins →
      ∀ j, j < t.cScores →
        (expandSplits alloc bins 0 { t2 with aTensorScores := Y }).2.sample coord j =
          t.sample coord j) := by
  have hlen0 : ({ t2 with aTensorScores := Y } : Tensor).dims.length = 0 + bins.length := by
    dsimp only
    rw [ht2d, Nat.zero_add]
    exact hd.length_eq
  have hwf0 : ∀ k, k < bins.length →
      dimWF (({ t2 with aTensorScores := Y } : Tensor).dims.getD (0 + k) default)
        (bins.getD k 0) := by
    intro k hk
    dsimp only
    rw [ht2d, Nat.zero_add]
    exact forall₂_getD dimWF t.dims bins default 0 hd k hk
  obtain ⟨t3, hsp, hsc, hsa, hsb, hslen, _, hsdense⟩ :=
    expandSplits_spec alloc halloc bins 0 { t2 with aTensorScores := Y } hlen0 hb hwf0
  rw [hsp]
  have hdense : ∀ k, k < bins.length → denseDim (t3.dims.getD k default) (bins.getD k 0) := by
    intro k hk
    have := hsdense k hk
    rwa [Nat.zero_add] at this
  have hdenseF : List.Forall₂ denseDim t3.dims bins := by
    refine forall₂_of_getD denseDim bins t3.dims default 0 ?_ hdense
    rw [hslen]
    dsimp only
    rw [ht2d]
    exact hd.length_eq
  refine ⟨rfl, hsb, ?_, ?_⟩
  · intro k hk
    exact ⟨(hdense k hk).1, (hdense k hk).2⟩
  · intro coord hcoord j hj
    show t3.aTensorScores (t3.cScores * flatIndex t3.dims coord + j) =
      t.aTensorScores (t.cScores * flatIndex t.dims coord + j)
    rw [hsa, hsc]
    dsimp only
    rw [ht2s, flatIndex_dense hdenseF hcoord]
    exact hY coord hcoord j hj

/-- Claim C2: `Expand` is idempotent once the tensor is expanded (it returns
`Error_None` and the tensor unchanged); otherwise, under the tensor's sortedness
invariants, a positive score count, successful allocations and sizes below the
overflow checks, it returns `Error_None`, every dimension ends dense
(`cSlices = cBins`, `splits[k] = k + 1`), the expanded flag is set, and sampling at
any bin coordinate is preserved. -/
theorem Expand_correct (t : Tensor) (bins : List Nat) (alloc : Nat → Bool)
    (hd : List.Forall₂ dimWF t.dims bins)
    (hS : 0 < t.cScores)
    (halloc : ∀ i, alloc i = true)
    (hsz : t.cScores * bins.prod ≤ 2 ^ 60) :
    (t.bExpanded = true → t.Expand bins alloc = (.Error_None, t)) ∧
    (t.bExpanded = false →
      (t.Expand bins alloc).1 = .Error_None ∧
      (t.Expand bins alloc).2.bExpanded = true ∧
      (∀ k, k < bins.length →
        ((t.Expand bins alloc).2.dims.getD k default).cSlices = bins.getD k 0 ∧
        ∀ m, m < bins.getD k 0 - 1 →
          ((t.Expand bins alloc).2.dims.getD k default).aSplits m = m + 1) ∧
      (∀ coord : List Nat, List.Forall₂ (fun c b => c < b) coord bins →
        ∀ j, j < t.cScores →
          (t.Expand bins alloc).2.sample coord j = t.sample coord j)) := by
  constructor
  · intro hexp
    unfold Tensor.Expand
    rw [if_pos hexp]
  · intro hnexp
    unfold Tensor.Expand
    rw [if_neg (by rw [hnexp]; exact Bool.false_ne_true)]
    by_cases hlen0 : bins.length = 0
    · rw [if_pos hlen0]
      refine ⟨rfl, rfl, ?_, ?_⟩
      · intro k hk
        rw [hlen0] at hk
        exact absurd hk (by omega)
      · intro coord hcoord j hj
        rfl
    · rw [if_neg hlen0]
      dsimp only
      have hbpos : ∀ b ∈ bins, 1 ≤ b := bins_pos hd
      have hprodpos : 1 ≤ bins.prod := prod_pos_of_pos hbpos
      have hmulerr : IsMultiplyError cBytesPerFloat (t.cScores * bins.prod) = false := by
        unfold IsMultiplyError cBytesPerFloat cSizeMax
        simp only [decide_eq_false_iff_not, not_le]
        omega
      have hens : ∃ t2, t.EnsureTensorScoreCapacity (t.cScores * bins.prod) (alloc 0) =
          (.Error_None, t2) ∧ t2.dims = t.dims ∧ t2.cScores = t.cScores ∧
          t2.aTensorScores = t.aTensorScores := by
        rw [halloc 0]
        unfold Tensor.EnsureTensorScoreCapacity
        rw [if_neg (by rw [hmulerr]; exact Bool.false_ne_true)]
        by_cases hcap : cBytesPerFloat * (t.cScores * bins.prod) ≤ t.cTensorScoreCapacity
        · rw [if_pos hcap]
          exact ⟨t, rfl, rfl, rfl, rfl⟩
        · rw [if_neg hcap, if_pos rfl]
          exact ⟨_, rfl, rfl, rfl, rfl⟩
      obtain ⟨t2, hens, ht2d, ht2s, ht2a⟩ := hens
      rw [hens]
      dsimp only
      obtain ⟨n, hn1⟩ : ∃ n, bins.prod = n + 1 := ⟨bins.prod - 1, by omega⟩
      have hcsM : List.Forall₂ (fun c b => c < b) (bins.map fun b => b - 1) bins :=
        csMax_valid hd
      have hnM : flatIndexN bins (bins.map fun b => b - 1) = n := by
        rw [flatIndexN_max hd, hn1]
        omega
      have hQ : (t.dims.map DimensionInfo.cSlices).prod =
          flatIndex t.dims (bins.map fun b => b - 1) + 1 := by
        have h1 := flatIndex_max hd
        have h2 := cSlices_prod_pos hd
        omega
      have hlive : t.liveScoreCount =
          t.cScores * (flatIndex t.dims (bins.map fun b => b - 1) + 1) := by
        unfold Tensor.liveScoreCount
        rw [hQ]
      have htop : t.cScores * bins.prod = t.cScores * (n + 1) := by rw [hn1]
      have hfuel : n + 1 ≤ t.cScores * (n + 1) := Nat.le_mul_of_pos_left (n + 1) hS
      rw [ht2a, hlive, expandStack_init hd, htop]
      obtain ⟨H1, H2⟩ := expandLoop_spec t.dims bins hd t.cScores hS t.aTensorScores n
        (bins.map fun b => b - 1) (t.cScores * (n + 1)) t.aTensorScores hcsM hnM hfuel
        (fun x _ => rfl)
      have hb60 : ∀ b ∈ bins, b ≤ 2 ^ 60 := by
        intro b hb
        have h1 := mem_le_prod hbpos b hb
        have h2 : bins.prod ≤ t.cScores * bins.prod := Nat.le_mul_of_pos_left _ hS
        omega
      exact expand_tail alloc halloc bins t t2 _ hd ht2d ht2s hb60
        (fun coord hcoord j hj =>
          H1 coord hcoord (by have := flatIndexN_lt_prod hcoord; omega) j hj)

/-- A one-dimensional, two-slice, unexpanded tensor (split at bin 2 of 3). -/
def tensorToExpand : Tensor :=
  { cScores := 1
    dims := [⟨2, 2, fun k => if k = 0 then 2 else 0⟩]
    cTensorScoreCapacity := 64
    aTensorScores := fun i => EFloat.val i
    bExpanded := false }

/-- Witness for claim C2 at a concrete input: expanding the one-dimensional tensor
with 3 bins succeeds, produces dense splits, sets the flag and preserves sampling. -/
theorem Expand_correct_witness :
    (tensorToExpand.bExpanded = true →
      tensorToExpand.Expand [3] (fun _ => true) = (.Error_None, tensorToExpand)) ∧
    (tensorToExpand.bExpanded = false →
      (tensorToExpand.Expand [3] (fun _ => true)).1 = .Error_None ∧
      (tensorToExpand.Expand [3] (fun _ => true)).2.bExpanded = true ∧
      (∀ k, k < [3].length →
        (((tensorToExpand.Expand [3] (fun _ => true)).2.dims.getD k default).cSlices =
          [3].getD k 0 ∧
        ∀ m, m < [3].getD k 0 - 1 →
          ((tensorToExpand.Expand [3] (fun _ => true)).2.dims.getD k default).aSplits m =
            m + 1)) ∧
      (∀ coord : List Nat, List.Forall₂ (fun c b => c < b) coord [3] →
        ∀ j, j < tensorToExpand.cScores →
          (tensorToExpand.Expand [3] (fun _ => true)).2.sample coord j =
            tensorToExpand.sample coord j)) :=
  Expand_correct tensorToExpand [3] (fun _ => true)
    (List.Forall₂.cons
      (by
        refine ⟨?_, ?_, ?_, ?_⟩ <;> dsimp only [dimWF]
        · omega
        · omega
        · intro k hk
          have hk0 : k = 0 := by omega
          subst hk0
          constructor <;> simp
        · intro k hk j hj
          omega)
      List.Forall₂.nil)
    (by norm_num [tensorToExpand])
    (fun _ => rfl)
    (by norm_num [tensorToExpand])

/-! ### The merged dimension of `Add` -/

theorem countLE_mono (s : Nat → Nat) (m : Nat) {b b' : Nat} (h : b ≤ b') :
    countLE s m b ≤ countLE s m b' := by
  induction m with
  | zero => simp [countLE_zero]
  | succ mm ih =>
      rw [countLE_succ, countLE_succ]
      by_cases hs : s mm ≤ b
      · rw [if_pos hs, if_pos (le_trans hs h)]
        omega
      · rw [if_neg hs]
        split_ifs <;> omega

theorem countLE_congr (s : Nat → Nat) (m : Nat) {b b' : Nat}
    (h : ∀ k, k < m → (s k ≤ b ↔ s k ≤ b')) :
    countLE s m b = countLE s m b' := by
  induction m with
  | zero => rfl
  | succ mm ih =>
      rw [countLE_succ, countLE_succ, ih (fun k hk => h k (by omega))]
      by_cases hs : s mm ≤ b
      · rw [if_pos hs, if_pos ((h mm (by omega)).mp hs)]
      · rw [if_neg hs, if_neg (fun hc => hs ((h mm (by omega)).mpr hc))]

/-- The first bin of slice `r` of a dimension: `0` for slice 0, otherwise the
split that opens the slice. -/
def repBin (d : DimensionInfo) (r : Nat) : Nat :=
  if r = 0 then 0 else d.aSplits (r - 1)

/-- One dimension of `Add`'s well-formedness: both inputs and the merged dimension
are well formed over the same bin count, the merged split set contains every input
split, and every merged split is an input split. -/
def addDimWF (d1 d2 dm : DimensionInfo) (B : Nat) : Prop :=
  dimWF d1 B ∧ dimWF d2 B ∧ dimWF dm B ∧
  (∀ k, k < d1.cSlices - 1 → ∃ j, j < dm.cSlices - 1 ∧ dm.aSplits j = d1.aSplits k) ∧
  (∀ k, k < d2.cSlices - 1 → ∃ j, j < dm.cSlices - 1 ∧ dm.aSplits j = d2.aSplits k) ∧
  (∀ j, j < dm.cSlices - 1 →
    (∃ k, k < d1.cSlices - 1 ∧ d1.aSplits k = dm.aSplits j) ∨
    (∃ k, k < d2.cSlices - 1 ∧ d2.aSplits k = dm.aSplits j))

theorem repBin_lt {dm : DimensionInfo} {B : Nat} (h : dimWF dm B) (r : Nat)
    (hr : r < dm.cSlices) : repBin dm r < B := by
  unfold repBin
  by_cases h0 : r = 0
  · rw [if_pos h0]
    have h1 := h.1
    have h2 := h.2.1
    omega
  · rw [if_neg h0]
    exact (h.2.2.1 (r - 1) (by omega)).2

theorem sliceOf_repBin {dm : DimensionInfo} {B : Nat} (h : dimWF dm B) (r : Nat)
    (hr : r < dm.cSlices) : dm.sliceOf (repBin dm r) = r := by
  unfold repBin
  by_cases h0 : r = 0
  · rw [if_pos h0, h0]
    exact sliceOf_zero h
  · rw [if_neg h0]
    refine countLE_eq_of _ _ _ r (by omega) ?_ ?_
    · intro k hk
      rcases Nat.lt_or_ge k (r - 1) with hkr | hkr
      · exact le_of_lt (dimWF_mono h k (r - 1) hkr (by omega))
      · have : k = r - 1 := by omega
        rw [this]
    · intro k h1 h2
      exact dimWF_mono h (r - 1) k (by omega) h2

theorem repBin_le_of_sliceOf {dm : DimensionInfo} {B : Nat} (h : dimWF dm B) (c : Nat) :
    repBin dm (dm.sliceOf c) ≤ c := by
  unfold repBin
  by_cases h0 : dm.sliceOf c = 0
  · rw [if_pos h0]
    omega
  · rw [if_neg h0]
    obtain ⟨hlow, _⟩ := countLE_inv dm.aSplits (dm.cSlices - 1) c (dimWF_mono h)
    exact hlow _ (by simp only [DimensionInfo.sliceOf] at h0 ⊢; omega)

theorem repBin_lt_succ {dm : DimensionInfo} {B : Nat} (h : dimWF dm B) (r : Nat)
    (hr1 : 1 ≤ r) (hr : r < dm.cSlices) : repBin dm (r - 1) < repBin dm r := by
  have hrne : ¬ r = 0 := by omega
  by_cases h0 : r - 1 = 0
  · rw [repBin, repBin, if_pos h0, if_neg hrne]
    have := (h.2.2.1 (r - 1) (by omega)).1
    omega
  · rw [repBin, repBin, if_neg h0, if_neg hrne]
    exact dimWF_mono h (r - 1 - 1) (r - 1) (by omega) (by omega)

/-- A merged split lying in the half-open interval between consecutive slice
representatives is the representative itself. -/
theorem split_between {dm : DimensionInfo} {B : Nat} (h : dimWF dm B) (r : Nat)
    (hr1 : 1 ≤ r) (hr : r < dm.cSlices) (j : Nat) (hj : j < dm.cSlices - 1)
    (hlo : repBin dm (r - 1) < dm.aSplits j) (hhi : dm.aSplits j ≤ repBin dm r) :
    dm.aSplits j = repBin dm r := by
  unfold repBin at hlo hhi ⊢
  rw [if_neg (by omega)] at hhi ⊢
  have hjub : j ≤ r - 1 := by
    by_contra hc
    have := dimWF_mono h (r - 1) j (by omega) hj
    omega
  by_cases h0 : r - 1 = 0
  · rw [if_pos h0] at hlo
    have : j = r - 1 := by omega
    rw [this]
  · rw [if_neg h0] at hlo
    have hjlb : r - 1 ≤ j := by
      by_contra hc
      rcases Nat.lt_or_ge j (r - 1 - 1) with hj2 | hj2
      · have := dimWF_mono h j (r - 1 - 1) hj2 (by omega)
        omega
      · have : j = r - 1 - 1 := by omega
        subst this
        omega
    have : j = r - 1 := by omega
    rw [this]

theorem repBin_zero (dm : DimensionInfo) : repBin dm 0 = 0 := rfl

theorem splits_mono_le {d : DimensionInfo} {B : Nat} (h : dimWF d B) {j k : Nat}
    (hjk : j ≤ k) (hk : k < d.cSlices - 1) : d.aSplits j ≤ d.aSplits k := by
  rcases Nat.lt_or_ge j k with hlt | hge
  · exact le_of_lt (dimWF_mono h j k hlt hk)
  · have : j = k := by omega
    rw [this]

/-- A split of `d1` strictly between consecutive representatives equals the upper
representative (it is a merged split, and the interval holds only one of those). -/
theorem split_between_sub {d1 dm : DimensionInfo} {B : Nat} (hm : dimWF dm B)
    (incl : ∀ k, k < d1.cSlices - 1 → ∃ j, j < dm.cSlices - 1 ∧ dm.aSplits j = d1.aSplits k)
    (r : Nat) (hr1 : 1 ≤ r) (hr : r < dm.cSlices) (k : Nat) (hk : k < d1.cSlices - 1)
    (hlo : repBin dm (r - 1) < d1.aSplits k) (hhi : d1.aSplits k ≤ repBin dm r) :
    d1.aSplits k = repBin dm r := by
  obtain ⟨j, hj, hju⟩ := incl k hk
  rw [← hju] at hlo hhi ⊢
  exact split_between hm r hr1 hr j hj hlo hhi

theorem sigma_step_hit {d1 dm : DimensionInfo} {B : Nat} (h1 : dimWF d1 B)
    (hm : dimWF dm B)
    (incl : ∀ k, k < d1.cSlices - 1 → ∃ j, j < dm.cSlices - 1 ∧ dm.aSplits j = d1.aSplits k)
    (r : Nat) (hr1 : 1 ≤ r) (hr : r < dm.cSlices)
    (hhit : ∃ k, k < d1.cSlices - 1 ∧ d1.aSplits k = repBin dm r) :
    d1.sliceOf (repBin dm r) = d1.sliceOf (repBin dm (r - 1)) + 1 := by
  obtain ⟨ks, hks, hkv⟩ := hhit
  have hstep := repBin_lt_succ hm r hr1 hr
  obtain ⟨hlow, hhigh⟩ :=
    countLE_inv d1.aSplits (d1.cSlices - 1) (repBin dm (r - 1)) (dimWF_mono h1)
  simp only [DimensionInfo.sliceOf]
  set j0 := countLE d1.aSplits (d1.cSlices - 1) (repBin dm (r - 1)) with hj0
  have hksge : j0 ≤ ks := by
    by_contra hc
    have := hlow ks (by omega)
    omega
  have hkseq : ks = j0 := by
    by_contra hc
    have hj0m : j0 < d1.cSlices - 1 := by omega
    have hbig := hhigh j0 (le_refl _) hj0m
    have hsmall : d1.aSplits j0 < repBin dm r := by
      have := dimWF_mono h1 j0 ks (by omega) hks
      omega
    have := split_between_sub hm incl r hr1 hr j0 hj0m hbig (by omega)
    omega
  refine countLE_eq_of _ _ _ (j0 + 1) (by omega) ?_ ?_
  · intro k hk
    rcases Nat.lt_or_ge k j0 with hkj | hkj
    · have := hlow k hkj
      omega
    · have : k = j0 := by omega
      subst this
      rw [← hkseq, hkv]
  · intro k hkge hklt
    have : d1.aSplits ks < d1.aSplits k := dimWF_mono h1 ks k (by omega) hklt
    omega

theorem sigma_step_miss {d1 dm : DimensionInfo} {B : Nat} (h1 : dimWF d1 B)
    (hm : dimWF dm B)
    (incl : ∀ k, k < d1.cSlices - 1 → ∃ j, j < dm.cSlices - 1 ∧ dm.aSplits j = d1.aSplits k)
    (r : Nat) (hr1 : 1 ≤ r) (hr : r < dm.cSlices)
    (hmiss : ¬∃ k, k < d1.cSlices - 1 ∧ d1.aSplits k = repBin dm r) :
    d1.sliceOf (repBin dm r) = d1.sliceOf (repBin dm (r - 1)) := by
  have hstep := repBin_lt_succ hm r hr1 hr
  obtain ⟨hlow, hhigh⟩ :=
    countLE_inv d1.aSplits (d1.cSlices - 1) (repBin dm (r - 1)) (dimWF_mono h1)
  simp only [DimensionInfo.sliceOf]
  set j0 := countLE d1.aSplits (d1.cSlices - 1) (repBin dm (r - 1)) with hj0
  refine countLE_eq_of _ _ _ j0 (countLE_le _ _ _) ?_ ?_
  · intro k hk
    have := hlow k hk
    omega
  · intro k hkge hklt
    have hbig := hhigh k hkge hklt
    by_contra hc
    have := split_between_sub hm incl r hr1 hr k hklt hbig (by omega)
    exact hmiss ⟨k, hklt, this⟩

theorem sigma_top {d1 dm : DimensionInfo} {B : Nat} (h1 : dimWF d1 B) (hm : dimWF dm B)
    (incl : ∀ k, k < d1.cSlices - 1 → ∃ j, j < dm.cSlices - 1 ∧ dm.aSplits j = d1.aSplits k) :
    d1.sliceOf (repBin dm (dm.cSlices - 1)) = d1.cSlices - 1 := by
  by_cases hM : dm.cSlices - 1 = 0
  · rw [hM]
    have hm1 : d1.cSlices - 1 = 0 := by
      by_contra hc
      obtain ⟨j, hj, _⟩ := incl 0 (by omega)
      omega
    rw [hm1, repBin_zero]
    exact sliceOf_zero h1
  · refine countLE_eq_of _ _ _ (d1.cSlices - 1) (le_refl _) ?_ (fun k h1k h2k => by omega)
    intro k hk
    obtain ⟨j, hj, hju⟩ := incl k hk
    rw [← hju, repBin, if_neg hM]
    exact splits_mono_le hm (by omega) (by omega)

theorem sigma_le_r {d1 dm : DimensionInfo} {B : Nat} (h1 : dimWF d1 B) (hm : dimWF dm B)
    (incl : ∀ k, k < d1.cSlices - 1 → ∃ j, j < dm.cSlices - 1 ∧ dm.aSplits j = d1.aSplits k) :
    ∀ r, r < dm.cSlices → d1.sliceOf (repBin dm r) ≤ r := by
  intro r
  induction r with
  | zero =>
      intro _
      rw [repBin_zero, sliceOf_zero h1]
  | succ rr ih =>
      intro hr
      by_cases hhit : ∃ k, k < d1.cSlices - 1 ∧ d1.aSplits k = repBin dm (rr + 1)
      · have := sigma_step_hit h1 hm incl (rr + 1) (by omega) hr hhit
        have h2 := ih (by omega)
        simp only [Nat.add_sub_cancel] at this
        omega
      · have := sigma_step_miss h1 hm incl (rr + 1) (by omega) hr hhit
        have h2 := ih (by omega)
        simp only [Nat.add_sub_cancel] at this
        omega

theorem r_le_sigma_sum {d1 d2 dm : DimensionInfo} {B : Nat} (h : addDimWF d1 d2 dm B) :
    ∀ r, r < dm.cSlices →
      r ≤ d1.sliceOf (repBin dm r) + d2.sliceOf (repBin dm r) := by
  obtain ⟨h1, h2, hm, incl1, incl2, surj⟩ := h
  intro r
  induction r with
  | zero => intro _; omega
  | succ rr ih =>
      intro hr
      have hsur := surj rr (by omega)
      have hrep : repBin dm (rr + 1) = dm.aSplits rr := by
        rw [repBin, if_neg (by omega)]
        norm_num
      have hmono1 : d1.sliceOf (repBin dm rr) ≤ d1.sliceOf (repBin dm (rr + 1)) :=
        countLE_mono _ _ (le_of_lt (repBin_lt_succ hm (rr + 1) (by omega) hr))
      have hmono2 : d2.sliceOf (repBin dm rr) ≤ d2.sliceOf (repBin dm (rr + 1)) :=
        countLE_mono _ _ (le_of_lt (repBin_lt_succ hm (rr + 1) (by omega) hr))
      have hih := ih (by omega)
      rcases hsur with ⟨k, hk, hkv⟩ | ⟨k, hk, hkv⟩
      · have := sigma_step_hit h1 hm incl1 (rr + 1) (by omega) hr
          ⟨k, hk, by rw [hkv, hrep]⟩
        simp only [Nat.add_sub_cancel] at this
        omega
      · have := sigma_step_hit h2 hm incl2 (rr + 1) (by omega) hr
          ⟨k, hk, by rw [hkv, hrep]⟩
        simp only [Nat.add_sub_cancel] at this
        omega

theorem sigma_hit_last {d1 dm : DimensionInfo} {B : Nat} (h1 : dimWF d1 B)
    (hhit : ∃ k, k < d1.cSlices - 1 ∧ d1.aSplits k = repBin dm r) :
    d1.aSplits (d1.sliceOf (repBin dm r) - 1) = repBin dm r ∧
      0 < d1.sliceOf (repBin dm r) := by
  obtain ⟨ks, hks, hkv⟩ := hhit
  obtain ⟨hlow, hhigh⟩ :=
    countLE_inv d1.aSplits (d1.cSlices - 1) (repBin dm r) (dimWF_mono h1)
  simp only [DimensionInfo.sliceOf] at *
  set j := countLE d1.aSplits (d1.cSlices - 1) (repBin dm r) with hj
  have hkslt : ks < j := by
    by_contra hc
    have := hhigh ks (by omega) hks
    omega
  have hle := countLE_le d1.aSplits (d1.cSlices - 1) (repBin dm r)
  refine ⟨le_antisymm (hlow _ (by omega)) ?_, by omega⟩
  calc repBin dm r = d1.aSplits ks := hkv.symm
    _ ≤ d1.aSplits (j - 1) := splits_mono_le h1 (by omega) (by omega)

theorem sigma_miss_last {d1 dm : DimensionInfo} {B : Nat} (h1 : dimWF d1 B)
    (hmiss : ¬∃ k, k < d1.cSlices - 1 ∧ d1.aSplits k = repBin dm r)
    (hpos : 0 < d1.sliceOf (repBin dm r)) :
    d1.aSplits (d1.sliceOf (repBin dm r) - 1) < repBin dm r := by
  obtain ⟨hlow, hhigh⟩ :=
    countLE_inv d1.aSplits (d1.cSlices - 1) (repBin dm r) (dimWF_mono h1)
  simp only [DimensionInfo.sliceOf] at *
  set j := countLE d1.aSplits (d1.cSlices - 1) (repBin dm r) with hj
  have hle := countLE_le d1.aSplits (d1.cSlices - 1) (repBin dm r)
  have h1l := hlow (j - 1) (by omega)
  rcases Nat.lt_or_ge (d1.aSplits (j - 1)) (repBin dm r) with hlt | hge
  · exact hlt
  · exact absurd ⟨j - 1, by omega, by omega⟩ hmiss

theorem sigma_pos_cases {d1 d2 dm : DimensionInfo} {B : Nat} (h : addDimWF d1 d2 dm B)
    (r : Nat) (hr1 : 1 ≤ r) (hr : r < dm.cSlices) :
    (∃ k, k < d1.cSlices - 1 ∧ d1.aSplits k = repBin dm r) ∨
    (∃ k, k < d2.cSlices - 1 ∧ d2.aSplits k = repBin dm r) := by
  obtain ⟨h1, h2, hm, incl1, incl2, surj⟩ := h
  have hrep : repBin dm r = dm.aSplits (r - 1) := by
    rw [repBin, if_neg (by omega)]
  rcases surj (r - 1) (by omega) with ⟨k, hk, hkv⟩ | ⟨k, hk, hkv⟩
  · exact Or.inl ⟨k, hk, by rw [hkv, hrep]⟩
  · exact Or.inr ⟨k, hk, by rw [hkv, hrep]⟩

/-- Well-formedness of `Add`'s dimension lists: input dimensions and merged
dimension of every position are related by `addDimWF` over that position's bin count. -/
inductive AddWF : List DimensionInfo → List DimensionInfo → List DimensionInfo →
    List Nat → Prop
  | nil : AddWF [] [] [] []
  | cons {d1 d2 dm : DimensionInfo} {B : Nat} {ds1 ds2 dms : List DimensionInfo}
      {Bs : List Nat} : addDimWF d1 d2 dm B → AddWF ds1 ds2 dms Bs →
      AddWF (d1 :: ds1) (d2 :: ds2) (dm :: dms) (B :: Bs)

/-- The iterator stack of `Add` at merged coordinate `rs` of the merged grid. -/
def addStack : List DimensionInfo → List DimensionInfo → List DimensionInfo → List Nat →
    List (DimensionInfoStack × DimensionInfo × DimensionInfo)
  | d1 :: ds1, d2 :: ds2, dm :: dms, r :: rs =>
      (DimensionInfoStack.mk (d1.sliceOf (repBin dm r)) (d2.sliceOf (repBin dm r))
        dm.cSlices, d1, d2) :: addStack ds1 ds2 dms rs
  | _, _, _, _ => []

@[simp] theorem addStack_cons (d1 d2 dm : DimensionInfo) (ds1 ds2 dms : List DimensionInfo)
    (r : Nat) (rs : List Nat) :
    addStack (d1 :: ds1) (d2 :: ds2) (dm :: dms) (r :: rs) =
      (DimensionInfoStack.mk (d1.sliceOf (repBin dm r)) (d2.sliceOf (repBin dm r))
        dm.cSlices, d1, d2) :: addStack ds1 ds2 dms rs := rfl

theorem addStep_cons (p1 p2 mult1 mult2 : Nat) (e : DimensionInfoStack)
    (d1i d2i : DimensionInfo) (rest : List (DimensionInfoStack × DimensionInfo × DimensionInfo)) :
    addStep p1 p2 mult1 mult2 ((e, d1i, d2i) :: rest) =
      if 0 < e.pSplit1 then
        if 0 < e.pSplit2 then
          ((if d2i.aSplits (e.pSplit2 - 1) ≤ d1i.aSplits (e.pSplit1 - 1) then p1 - mult1
              else p1,
            if d1i.aSplits (e.pSplit1 - 1) ≤ d2i.aSplits (e.pSplit2 - 1) then p2 - mult2
              else p2),
           ({ e with
              pSplit1 := if d2i.aSplits (e.pSplit2 - 1) ≤ d1i.aSplits (e.pSplit1 - 1) then
                  e.pSplit1 - 1 else e.pSplit1,
              pSplit2 := if d1i.aSplits (e.pSplit1 - 1) ≤ d2i.aSplits (e.pSplit2 - 1) then
                  e.pSplit2 - 1 else e.pSplit2 }, d1i, d2i) :: rest)
        else ((p1 - mult1, p2), ({ e with pSplit1 := e.pSplit1 - 1 }, d1i, d2i) :: rest)
      else
        if 0 < e.pSplit2 then
          ((p1, p2 - mult2), ({ e with pSplit2 := e.pSplit2 - 1 }, d1i, d2i) :: rest)
        else
          ((addStep (p1 + mult1 * d1i.cSlices - mult1) (p2 + mult2 * d2i.cSlices - mult2)
              (mult1 * d1i.cSlices) (mult2 * d2i.cSlices) rest).1,
           ({ e with pSplit1 := d1i.cSlices - 1, pSplit2 := d2i.cSlices - 1 },
             d1i, d2i) ::
             (addStep (p1 + mult1 * d1i.cSlices - mult1) (p2 + mult2 * d2i.cSlices - mult2)
               (mult1 * d1i.cSlices) (mult2 * d2i.cSlices) rest).2) := rfl

theorem addStep_spec : ∀ {ds1 ds2 dms : List DimensionInfo} {Bs rs : List Nat},
    AddWF ds1 ds2 dms Bs →
    List.Forall₂ (fun (r : Nat) (dm : DimensionInfo) => r < dm.cSlices) rs dms →
    flatIndexN (dms.map DimensionInfo.cSlices) rs ≠ 0 →
    ∀ β1 β2 mult1 mult2,
    addStep (β1 + mult1 * flatIndex ds1 (List.zipWith repBin dms rs))
        (β2 + mult2 * flatIndex ds2 (List.zipWith repBin dms rs)) mult1 mult2
        (addStack ds1 ds2 dms rs) =
      ((β1 + mult1 * flatIndex ds1
          (List.zipWith repBin dms (decDigits (dms.map DimensionInfo.cSlices) rs)),
        β2 + mult2 * flatIndex ds2
          (List.zipWith repBin dms (decDigits (dms.map DimensionInfo.cSlices) rs))),
       addStack ds1 ds2 dms (decDigits (dms.map DimensionInfo.cSlices) rs)) := by
  intro ds1 ds2 dms Bs rs hwf
  induction hwf generalizing rs with
  | nil =>
      intro hv h0
      cases hv
      simp at h0
  | cons hdw htail ih =>
      rename_i d1 d2 dm B ds1t ds2t dmst Bst
      intro hv h0 β1 β2 mult1 mult2
      cases hv with
      | cons hrdm hvt =>
          rename_i r rst
          rw [List.map_cons, flatIndexN_cons] at h0
          rw [List.map_cons]
          have h1 := hdw.1
          have h2 := hdw.2.1
          have hm := hdw.2.2.1
          have incl1 := hdw.2.2.2.1
          have incl2 := hdw.2.2.2.2.1
          by_cases hr0 : r = 0
          · subst hr0
            have hn1 : 1 ≤ d1.cSlices := h1.1
            have hn2 : 1 ≤ d2.cSlices := h2.1
            have hM1 : 1 ≤ dm.cSlices := hm.1
            have hσ10 : d1.sliceOf (repBin dm 0) = 0 := by
              rw [repBin_zero]; exact sliceOf_zero h1
            have hσ20 : d2.sliceOf (repBin dm 0) = 0 := by
              rw [repBin_zero]; exact sliceOf_zero h2
            have hFN : flatIndexN (dmst.map DimensionInfo.cSlices) rst ≠ 0 := by
              intro hz
              rw [hz] at h0
              simp at h0
            rw [decDigits_cons, if_pos rfl, addStack_cons, addStack_cons,
              List.zipWith_cons_cons, List.zipWith_cons_cons, flatIndex_cons,
              flatIndex_cons, flatIndex_cons, flatIndex_cons, addStep_cons]
            dsimp only
            rw [hσ10, hσ20, if_neg (by omega), if_neg (by omega)]
            obtain ⟨m1, hm1⟩ : ∃ m, d1.cSlices = m + 1 := ⟨d1.cSlices - 1, by omega⟩
            obtain ⟨m2, hm2⟩ : ∃ m, d2.cSlices = m + 1 := ⟨d2.cSlices - 1, by omega⟩
            have hp1 : β1 + mult1 *
                (0 + d1.cSlices * flatIndex ds1t (List.zipWith repBin dmst rst)) +
                mult1 * d1.cSlices - mult1 =
                (β1 + mult1 * (d1.cSlices - 1)) +
                  (mult1 * d1.cSlices) * flatIndex ds1t (List.zipWith repBin dmst rst) := by
              rw [hm1]
              have e1 : mult1 * (0 + (m1 + 1) *
                  flatIndex ds1t (List.zipWith repBin dmst rst)) =
                  mult1 * ((m1 + 1) * flatIndex ds1t (List.zipWith repBin dmst rst)) := by
                ring
              have e2 : mult1 * (m1 + 1) = mult1 * m1 + mult1 := by ring
              have e3 : (mult1 * (m1 + 1)) *
                  flatIndex ds1t (List.zipWith repBin dmst rst) =
                  mult1 * ((m1 + 1) * flatIndex ds1t (List.zipWith repBin dmst rst)) := by
                ring
              have e4 : (m1 + 1 - 1) = m1 := by omega
              rw [e4]
              omega
            have hp2 : β2 + mult2 *
                (0 + d2.cSlices * flatIndex ds2t (List.zipWith repBin dmst rst)) +
                mult2 * d2.cSlices - mult2 =
                (β2 + mult2 * (d2.cSlices - 1)) +
                  (mult2 * d2.cSlices) * flatIndex ds2t (List.zipWith repBin dmst rst) := by
              rw [hm2]
              have e1 : mult2 * (0 + (m2 + 1) *
                  flatIndex ds2t (List.zipWith repBin dmst rst)) =
                  mult2 * ((m2 + 1) * flatIndex ds2t (List.zipWith repBin dmst rst)) := by
                ring
              have e2 : mult2 * (m2 + 1) = mult2 * m2 + mult2 := by ring
              have e3 : (mult2 * (m2 + 1)) *
                  flatIndex ds2t (List.zipWith repBin dmst rst) =
                  mult2 * ((m2 + 1) * flatIndex ds2t (List.zipWith repBin dmst rst)) := by
                ring
              have e4 : (m2 + 1 - 1) = m2 := by omega
              rw [e4]
              omega
            rw [hp1, hp2, ih hvt hFN (β1 + mult1 * (d1.cSlices - 1))
              (β2 + mult2 * (d2.cSlices - 1)) (mult1 * d1.cSlices) (mult2 * d2.cSlices)]
            rw [Prod.mk.injEq, Prod.mk.injEq]
            refine ⟨⟨?_, ?_⟩, ?_⟩
            · rw [sigma_top h1 hm incl1, hm1]
              set F1 := flatIndex ds1t
                (List.zipWith repBin dmst (decDigits (dmst.map DimensionInfo.cSlices) rst))
              have e1 : mult1 * (m1 + 1 - 1 + (m1 + 1) * F1) =
                  mult1 * m1 + mult1 * ((m1 + 1) * F1) := by
                have e4 : (m1 + 1 - 1) = m1 := by omega
                rw [e4]; ring
              have e2 : (mult1 * (m1 + 1)) * F1 = mult1 * ((m1 + 1) * F1) := by ring
              have e3 : mult1 * (m1 + 1 - 1) = mult1 * m1 := by
                have e4 : (m1 + 1 - 1) = m1 := by omega
                rw [e4]
              omega
            · rw [sigma_top h2 hm incl2, hm2]
              set F2 := flatIndex ds2t
                (List.zipWith repBin dmst (decDigits (dmst.map DimensionInfo.cSlices) rst))
              have e1 : mult2 * (m2 + 1 - 1 + (m2 + 1) * F2) =
                  mult2 * m2 + mult2 * ((m2 + 1) * F2) := by
                have e4 : (m2 + 1 - 1) = m2 := by omega
                rw [e4]; ring
              have e2 : (mult2 * (m2 + 1)) * F2 = mult2 * ((m2 + 1) * F2) := by ring
              have e3 : mult2 * (m2 + 1 - 1) = mult2 * m2 := by
                have e4 : (m2 + 1 - 1) = m2 := by omega
                rw [e4]
              omega
            · rw [sigma_top h1 hm incl1, sigma_top h2 hm incl2]
          · have hr1 : 1 ≤ r := by omega
            rw [decDigits_cons, if_neg hr0, addStack_cons, addStack_cons,
              List.zipWith_cons_cons, List.zipWith_cons_cons, flatIndex_cons,
              flatIndex_cons, flatIndex_cons, flatIndex_cons, addStep_cons]
            dsimp only
            by_cases hp1 : 0 < d1.sliceOf (repBin dm r)
            · rw [if_pos hp1]
              by_cases hp2 : 0 < d2.sliceOf (repBin dm r)
              · rw [if_pos hp2]
                by_cases hhit1 : ∃ k, k < d1.cSlices - 1 ∧ d1.aSplits k = repBin dm r
                · have hlast1 := (sigma_hit_last h1 hhit1).1
                  have hs1 := sigma_step_hit h1 hm incl1 r hr1 hrdm hhit1
                  by_cases hhit2 : ∃ k, k < d2.cSlices - 1 ∧ d2.aSplits k = repBin dm r
                  · have hlast2 := (sigma_hit_last h2 hhit2).1
                    have hs2 := sigma_step_hit h2 hm incl2 r hr1 hrdm hhit2
                    rw [if_pos (by rw [hlast1, hlast2]),
                      if_pos (by rw [hlast1, hlast2]),
                      if_pos (by rw [hlast1, hlast2]),
                      if_pos (by rw [hlast1, hlast2])]
                    rw [Prod.mk.injEq, Prod.mk.injEq]
                    refine ⟨⟨?_, ?_⟩, ?_⟩
                    · rw [hs1]
                      set F1 := flatIndex ds1t (List.zipWith repBin dmst rst)
                      have e1 : mult1 * (d1.sliceOf (repBin dm (r - 1)) + 1 +
                          d1.cSlices * F1) =
                          mult1 * (d1.sliceOf (repBin dm (r - 1)) + d1.cSlices * F1) +
                            mult1 := by ring
                      omega
                    · rw [hs2]
                      set F2 := flatIndex ds2t (List.zipWith repBin dmst rst)
                      have e1 : mult2 * (d2.sliceOf (repBin dm (r - 1)) + 1 +
                          d2.cSlices * F2) =
                          mult2 * (d2.sliceOf (repBin dm (r - 1)) + d2.cSlices * F2) +
                            mult2 := by ring
                      omega
                    · rw [hs1, hs2]
                      simp only [Nat.add_sub_cancel]
                  · have hlast2 := sigma_miss_last h2 hhit2 hp2
                    have hs2 := sigma_step_miss h2 hm incl2 r hr1 hrdm hhit2
                    rw [if_pos (by rw [hlast1]; omega), if_neg (by rw [hlast1]; omega),
                      if_pos (by rw [hlast1]; omega), if_neg (by rw [hlast1]; omega)]
                    rw [Prod.mk.injEq, Prod.mk.injEq]
                    refine ⟨⟨?_, ?_⟩, ?_⟩
                    · rw [hs1]
                      set F1 := flatIndex ds1t (List.zipWith repBin dmst rst)
                      have e1 : mult1 * (d1.sliceOf (repBin dm (r - 1)) + 1 +
                          d1.cSlices * F1) =
                          mult1 * (d1.sliceOf (repBin dm (r - 1)) + d1.cSlices * F1) +
                            mult1 := by ring
                      omega
                    · rw [hs2]
                    · rw [hs1, hs2]
                      simp only [Nat.add_sub_cancel]
                · have hhit2 : ∃ k, k < d2.cSlices - 1 ∧ d2.aSplits k = repBin dm r := by
                    rcases sigma_pos_cases hdw r hr1 hrdm with hh | hh
                    · exact absurd hh hhit1
                    · exact hh
                  have hlast1 := sigma_miss_last h1 hhit1 hp1
                  have hlast2 := (sigma_hit_last h2 hhit2).1
                  have hs1 := sigma_step_miss h1 hm incl1 r hr1 hrdm hhit1
                  have hs2 := sigma_step_hit h2 hm incl2 r hr1 hrdm hhit2
                  rw [if_neg (by rw [hlast2]; omega), if_pos (by rw [hlast2]; omega),
                    if_neg (by rw [hlast2]; omega), if_pos (by rw [hlast2]; omega)]
                  rw [Prod.mk.injEq, Prod.mk.injEq]
                  refine ⟨⟨?_, ?_⟩, ?_⟩
                  · rw [hs1]
                  · rw [hs2]
                    set F2 := flatIndex ds2t (List.zipWith repBin dmst rst)
                    have e1 : mult2 * (d2.sliceOf (repBin dm (r - 1)) + 1 +
                        d2.cSlices * F2) =
                        mult2 * (d2.sliceOf (repBin dm (r - 1)) + d2.cSlices * F2) +
                          mult2 := by ring
                    omega
                  · rw [hs1, hs2]
                    simp only [Nat.add_sub_cancel]
              · rw [if_neg hp2]
                have hhit1 : ∃ k, k < d1.cSlices - 1 ∧ d1.aSplits k = repBin dm r := by
                  rcases sigma_pos_cases hdw r hr1 hrdm with hh | hh
                  · exact hh
                  · exact absurd (sigma_hit_last h2 hh).2 hp2
                have hmiss2 : ¬∃ k, k < d2.cSlices - 1 ∧ d2.aSplits k = repBin dm r :=
                  fun hex => absurd (sigma_hit_last h2 hex).2 hp2
                have hs1 := sigma_step_hit h1 hm incl1 r hr1 hrdm hhit1
                have hs2 := sigma_step_miss h2 hm incl2 r hr1 hrdm hmiss2
                rw [Prod.mk.injEq, Prod.mk.injEq]
                refine ⟨⟨?_, ?_⟩, ?_⟩
                · rw [hs1]
                  set F1 := flatIndex ds1t (List.zipWith repBin dmst rst)
                  have e1 : mult1 * (d1.sliceOf (repBin dm (r - 1)) + 1 +
                      d1.cSlices * F1) =
                      mult1 * (d1.sliceOf (repBin dm (r - 1)) + d1.cSlices * F1) +
                        mult1 := by ring
                  omega
                · rw [hs2]
                · rw [hs1, hs2]
                  simp only [Nat.add_sub_cancel]
            · rw [if_neg hp1]
              have hmiss1 : ¬∃ k, k < d1.cSlices - 1 ∧ d1.aSplits k = repBin dm r :=
                fun hex => absurd (sigma_hit_last h1 hex).2 hp1
              have hhit2 : ∃ k, k < d2.cSlices - 1 ∧ d2.aSplits k = repBin dm r := by
                rcases sigma_pos_cases hdw r hr1 hrdm with hh | hh
                · exact absurd hh hmiss1
                · exact hh
              have hp2 : 0 < d2.sliceOf (repBin dm r) := (sigma_hit_last h2 hhit2).2
              rw [if_pos hp2]
              have hs1 := sigma_step_miss h1 hm incl1 r hr1 hrdm hmiss1
              have hs2 := sigma_step_hit h2 hm incl2 r hr1 hrdm hhit2
              rw [Prod.mk.injEq, Prod.mk.injEq]
              refine ⟨⟨?_, ?_⟩, ?_⟩
              · rw [hs1]
              · rw [hs2]
                set F2 := flatIndex ds2t (List.zipWith repBin dmst rst)
                have e1 : mult2 * (d2.sliceOf (repBin dm (r - 1)) + 1 +
                    d2.cSlices * F2) =
                    mult2 * (d2.sliceOf (repBin dm (r - 1)) + d2.cSlices * F2) +
                      mult2 := by ring
                omega
              · rw [hs1, hs2]
                simp only [Nat.add_sub_cancel]

theorem cSlices_le_merged {d1 d2 dm : DimensionInfo} {B : Nat}
    (h : addDimWF d1 d2 dm B) : d1.cSlices ≤ dm.cSlices ∧ d2.cSlices ≤ dm.cSlices := by
  obtain ⟨h1, h2, hm, incl1, incl2, _⟩ := h
  have hM1 : 1 ≤ dm.cSlices := hm.1
  have t1 := sigma_le_r h1 hm incl1 (dm.cSlices - 1) (by omega)
  have t2 := sigma_le_r h2 hm incl2 (dm.cSlices - 1) (by omega)
  rw [sigma_top h1 hm incl1] at t1
  rw [sigma_top h2 hm incl2] at t2
  have hn1 : 1 ≤ d1.cSlices := h1.1
  have hn2 : 1 ≤ d2.cSlices := h2.1
  omega

theorem flatIndexRep_le : ∀ {ds1 ds2 dms : List DimensionInfo} {Bs rs : List Nat},
    AddWF ds1 ds2 dms Bs →
    List.Forall₂ (fun (r : Nat) (dm : DimensionInfo) => r < dm.cSlices) rs dms →
    flatIndex ds1 (List.zipWith repBin dms rs) ≤
        flatIndexN (dms.map DimensionInfo.cSlices) rs ∧
    flatIndex ds2 (List.zipWith repBin dms rs) ≤
        flatIndexN (dms.map DimensionInfo.cSlices) rs := by
  intro ds1 ds2 dms Bs rs hwf
  induction hwf generalizing rs with
  | nil =>
      intro hv
      cases hv
      simp
  | cons hdw htail ih =>
      rename_i d1 d2 dm B ds1t ds2t dmst Bst
      intro hv
      cases hv with
      | cons hrdm hvt =>
          rename_i r rst
          rw [List.map_cons, List.zipWith_cons_cons, flatIndex_cons, flatIndex_cons,
            flatIndexN_cons]
          obtain ⟨ih1, ih2⟩ := ih hvt
          obtain ⟨hle1, hle2⟩ := cSlices_le_merged hdw
          have hσ1 := sigma_le_r hdw.1 hdw.2.2.1 hdw.2.2.2.1 r hrdm
          have hσ2 := sigma_le_r hdw.2.1 hdw.2.2.1 hdw.2.2.2.2.1 r hrdm
          constructor
          · have := Nat.mul_le_mul hle1 ih1
            omega
          · have := Nat.mul_le_mul hle2 ih2
            omega

theorem forall₂_lt_map : ∀ {rs : List Nat} {dms : List DimensionInfo},
    List.Forall₂ (fun (r : Nat) (dm : DimensionInfo) => r < dm.cSlices) rs dms →
    List.Forall₂ (fun c b => c < b) rs (dms.map DimensionInfo.cSlices) := by
  intro rs dms h
  induction h with
  | nil => exact List.Forall₂.nil
  | cons hrd ht iht => exact List.Forall₂.cons hrd iht

theorem forall₂_lt_unmap : ∀ {dms : List DimensionInfo} {rs : List Nat},
    List.Forall₂ (fun c b => c < b) rs (dms.map DimensionInfo.cSlices) →
    List.Forall₂ (fun (r : Nat) (dm : DimensionInfo) => r < dm.cSlices) rs dms := by
  intro dms
  induction dms with
  | nil =>
      intro rs h
      rw [List.map_nil] at h
      cases h
      exact List.Forall₂.nil
  | cons dm dmst iht =>
      intro rs h
      rw [List.map_cons] at h
      cases h with
      | cons hrd ht => exact List.Forall₂.cons hrd (iht ht)

theorem addLoop_succ (cS : Nat) (rbuf : Nat → EFloat) (fuel : Nat) (buf : Nat → EFloat)
    (top p1 p2 : Nat) (st : List (DimensionInfoStack × DimensionInfo × DimensionInfo)) :
    addLoop cS rbuf (fuel + 1) buf top p1 p2 st =
      if top - cS = 0 then writeBlockSum buf rbuf top p1 p2 cS
      else addLoop cS rbuf fuel (writeBlockSum buf rbuf top p1 p2 cS) (top - cS)
        (addStep p1 p2 cS cS st).1.1 (addStep p1 p2 cS cS st).1.2
        (addStep p1 p2 cS cS st).2 := rfl

theorem addLoop_spec (ds1 ds2 dms : List DimensionInfo) (Bs : List Nat)
    (hwf : AddWF ds1 ds2 dms Bs) (cS : Nat) (hS : 0 < cS) (buf0 rbuf : Nat → EFloat) :
    ∀ (n : Nat) (rs : List Nat) (fuel : Nat) (buf : Nat → EFloat),
    List.Forall₂ (fun (r : Nat) (dm : DimensionInfo) => r < dm.cSlices) rs dms →
    flatIndexN (dms.map DimensionInfo.cSlices) rs = n →
    n + 1 ≤ fuel →
    (∀ x, x < cS * (n + 1) → buf x = buf0 x) →
    (∀ rs2 : List Nat,
       List.Forall₂ (fun (r : Nat) (dm : DimensionInfo) => r < dm.cSlices) rs2 dms →
       flatIndexN (dms.map DimensionInfo.cSlices) rs2 ≤ n → ∀ j, j < cS →
       addLoop cS rbuf fuel buf (cS * (n + 1))
         (cS * (flatIndex ds1 (List.zipWith repBin dms rs) + 1))
         (cS * (flatIndex ds2 (List.zipWith repBin dms rs) + 1))
         (addStack ds1 ds2 dms rs)
         (cS * flatIndexN (dms.map DimensionInfo.cSlices) rs2 + j) =
       EFloat.add (buf0 (cS * flatIndex ds1 (List.zipWith repBin dms rs2) + j))
         (rbuf (cS * flatIndex ds2 (List.zipWith repBin dms rs2) + j))) ∧
    (∀ x, cS * (n + 1) ≤ x →
       addLoop cS rbuf fuel buf (cS * (n + 1))
         (cS * (flatIndex ds1 (List.zipWith repBin dms rs) + 1))
         (cS * (flatIndex ds2 (List.zipWith repBin dms rs) + 1))
         (addStack ds1 ds2 dms rs) x = buf x) := by
  intro n
  induction n with
  | zero =>
      intro rs fuel buf hv hn hfuel hbuf
      obtain ⟨f, rfl⟩ : ∃ f, fuel = f + 1 := ⟨fuel - 1, by omega⟩
      have hflat1 : flatIndex ds1 (List.zipWith repBin dms rs) = 0 := by
        have := (flatIndexRep_le hwf hv).1
        omega
      have hflat2 : flatIndex ds2 (List.zipWith repBin dms rs) = 0 := by
        have := (flatIndexRep_le hwf hv).2
        omega
      have e1 : cS * (0 + 1) = cS := by ring
      rw [hflat1, hflat2, addLoop_succ, if_pos (by omega)]
      constructor
      · intro rs2 hv2 hle j hj
        have h02 : flatIndexN (dms.map DimensionInfo.cSlices) rs2 = 0 := by omega
        have hf21 : flatIndex ds1 (List.zipWith repBin dms rs2) = 0 := by
          have := (flatIndexRep_le hwf hv2).1
          omega
        have hf22 : flatIndex ds2 (List.zipWith repBin dms rs2) = 0 := by
          have := (flatIndexRep_le hwf hv2).2
          omega
        rw [h02, hf21, hf22]
        simp only [writeBlockSum]
        rw [if_pos (by omega)]
        have hidx1 : cS * (0 + 1) - (cS * (0 + 1) - (cS * 0 + j)) = cS * 0 + j := by omega
        rw [hidx1]
        rw [hbuf _ (by omega)]
      · intro x hx
        simp only [writeBlockSum]
        rw [if_neg (by omega)]
  | succ n ihn =>
      intro rs fuel buf hv hn hfuel hbuf
      obtain ⟨f, rfl⟩ : ∃ f, fuel = f + 1 := ⟨fuel - 1, by omega⟩
      have h0 : flatIndexN (dms.map DimensionInfo.cSlices) rs ≠ 0 := by omega
      have e1 : cS * (n + 1 + 1) = cS * (n + 1) + cS := by ring
      have hpos : 0 < cS * (n + 1) := Nat.mul_pos hS (by omega)
      rw [addLoop_succ, if_neg (by omega)]
      have htop2 : cS * (n + 1 + 1) - cS = cS * (n + 1) := by omega
      have hp1 : cS * (flatIndex ds1 (List.zipWith repBin dms rs) + 1) =
          cS + cS * flatIndex ds1 (List.zipWith repBin dms rs) := by ring
      have hp2 : cS * (flatIndex ds2 (List.zipWith repBin dms rs) + 1) =
          cS + cS * flatIndex ds2 (List.zipWith repBin dms rs) := by ring
      rw [htop2, hp1, hp2, addStep_spec hwf hv h0 cS cS cS cS]
      have hback1 : cS + cS * flatIndex ds1
          (List.zipWith repBin dms (decDigits (dms.map DimensionInfo.cSlices) rs)) =
          cS * (flatIndex ds1
            (List.zipWith repBin dms (decDigits (dms.map DimensionInfo.cSlices) rs)) + 1) := by
        ring
      have hback2 : cS + cS * flatIndex ds2
          (List.zipWith repBin dms (decDigits (dms.map DimensionInfo.cSlices) rs)) =
          cS * (flatIndex ds2
            (List.zipWith repBin dms (decDigits (dms.map DimensionInfo.cSlices) rs)) + 1) := by
        ring
      dsimp only
      rw [hback1, hback2]
      have hvM : List.Forall₂ (fun (r : Nat) (M : Nat) => r < M) rs
          (dms.map DimensionInfo.cSlices) := forall₂_lt_map hv
      have hv2 : List.Forall₂ (fun (r : Nat) (dm : DimensionInfo) => r < dm.cSlices)
          (decDigits (dms.map DimensionInfo.cSlices) rs) dms :=
        forall₂_lt_unmap (decDigits_valid hvM)
      have hn2 : flatIndexN (dms.map DimensionInfo.cSlices)
          (decDigits (dms.map DimensionInfo.cSlices) rs) = n := by
        rw [flatIndexN_dec hvM h0, hn]
        omega
      have hbuf2 : ∀ x, x < cS * (n + 1) →
          writeBlockSum buf rbuf (cS * (n + 1 + 1))
            (cS + cS * flatIndex ds1 (List.zipWith repBin dms rs))
            (cS + cS * flatIndex ds2 (List.zipWith repBin dms rs)) cS x = buf0 x := by
        intro x hx
        simp only [writeBlockSum]
        rw [if_neg (by omega)]
        exact hbuf x (by omega)
      obtain ⟨H1, H2⟩ := ihn (decDigits (dms.map DimensionInfo.cSlices) rs) f
        (writeBlockSum buf rbuf (cS * (n + 1 + 1))
          (cS + cS * flatIndex ds1 (List.zipWith repBin dms rs))
          (cS + cS * flatIndex ds2 (List.zipWith repBin dms rs)) cS)
        hv2 hn2 (by omega) hbuf2
      constructor
      · intro rs2 hv2' hle j hj
        rcases Nat.lt_or_ge (flatIndexN (dms.map DimensionInfo.cSlices) rs2) (n + 1)
          with hlt | hge
        · exact H1 rs2 hv2' (by omega) j hj
        · have heq2 : flatIndexN (dms.map DimensionInfo.cSlices) rs2 = n + 1 := by omega
          have hvM2 : List.Forall₂ (fun (r : Nat) (M : Nat) => r < M) rs2
              (dms.map DimensionInfo.cSlices) := forall₂_lt_map hv2'
          have hrseq : rs2 = rs := flatIndexN_inj hvM2 hvM (by rw [heq2, hn])
          subst hrseq
          rw [heq2, H2 _ (by omega)]
          simp only [writeBlockSum]
          rw [if_pos (by omega)]
          have hflatle1 : flatIndex ds1 (List.zipWith repBin dms rs2) ≤ n + 1 := by
            have := (flatIndexRep_le hwf hv2').1
            omega
          have hflatle2 : flatIndex ds2 (List.zipWith repBin dms rs2) ≤ n + 1 := by
            have := (flatIndexRep_le hwf hv2').2
            omega
          have hmul1 : cS * flatIndex ds1 (List.zipWith repBin dms rs2) ≤ cS * (n + 1) :=
            Nat.mul_le_mul_left cS hflatle1
          have hmul2 : cS * flatIndex ds2 (List.zipWith repBin dms rs2) ≤ cS * (n + 1) :=
            Nat.mul_le_mul_left cS hflatle2
          have hidx1 : cS + cS * flatIndex ds1 (List.zipWith repBin dms rs2) -
              (cS * (n + 1 + 1) - (cS * (n + 1) + j)) =
              cS * flatIndex ds1 (List.zipWith repBin dms rs2) + j := by omega
          have hidx2 : cS + cS * flatIndex ds2 (List.zipWith repBin dms rs2) -
              (cS * (n + 1 + 1) - (cS * (n + 1) + j)) =
              cS * flatIndex ds2 (List.zipWith repBin dms rs2) + j := by omega
          rw [hidx1, hidx2, hbuf _ (by omega)]
      · intro x hx
        rw [H2 x (by omega)]
        simp only [writeBlockSum]
        rw [if_neg (by omega)]

/-! ### The sorted split union -/

/-- The sorted union of two sorted lists, duplicates merged — the reference shape of
`Add`'s per-dimension split result. -/
def mergeLists : List Nat → List Nat → List Nat
  | [], l2 => l2
  | l1, [] => l1
  | a :: l1, b :: l2 =>
    if a < b then a :: mergeLists l1 (b :: l2)
    else if b < a then b :: mergeLists (a :: l1) l2
    else a :: mergeLists l1 l2
termination_by l1 l2 => l1.length + l2.length

@[simp] theorem mergeLists_nil_left (l2 : List Nat) : mergeLists [] l2 = l2 := by
  rw [mergeLists]

@[simp] theorem mergeLists_nil_right (l1 : List Nat) : mergeLists l1 [] = l1 := by
  cases l1 with
  | nil => rw [mergeLists]
  | cons a l => rw [mergeLists]; simp

theorem mergeLists_cons_cons (a b : Nat) (l1 l2 : List Nat) :
    mergeLists (a :: l1) (b :: l2) =
      if a < b then a :: mergeLists l1 (b :: l2)
      else if b < a then b :: mergeLists (a :: l1) l2
      else a :: mergeLists l1 l2 := by
  rw [mergeLists]

theorem mem_mergeLists : ∀ (l1 l2 : List Nat) (x : Nat),
    x ∈ mergeLists l1 l2 ↔ x ∈ l1 ∨ x ∈ l2 := by
  intro l1 l2
  induction l1, l2 using mergeLists.induct with
  | case1 l2 => intro x; simp
  | case2 l1 => intro x; simp
  | case3 a l1 b l2 hab ih =>
      intro x
      rw [mergeLists_cons_cons, if_pos hab]
      simp only [List.mem_cons, ih]
      tauto
  | case4 a l1 b l2 hab hba ih =>
      intro x
      rw [mergeLists_cons_cons, if_neg hab, if_pos hba]
      simp only [List.mem_cons, ih]
      tauto
  | case5 a l1 b l2 hab hba ih =>
      intro x
      have heq : a = b := by omega
      rw [mergeLists_cons_cons, if_neg hab, if_neg hba]
      simp only [List.mem_cons, ih]
      subst heq
      tauto

theorem length_mergeLists_le : ∀ (l1 l2 : List Nat),
    (mergeLists l1 l2).length ≤ l1.length + l2.length := by
  intro l1 l2
  induction l1, l2 using mergeLists.induct with
  | case1 l2 => simp
  | case2 l1 => simp
  | case3 a l1 b l2 hab ih =>
      rw [mergeLists_cons_cons, if_pos hab]
      simp only [List.length_cons] at *
      omega
  | case4 a l1 b l2 hab hba ih =>
      rw [mergeLists_cons_cons, if_neg hab, if_pos hba]
      simp only [List.length_cons] at *
      omega
  | case5 a l1 b l2 hab hba ih =>
      rw [mergeLists_cons_cons, if_neg hab, if_neg hba]
      simp only [List.length_cons] at *
      omega

theorem sorted_mergeLists : ∀ (l1 l2 : List Nat),
    List.Sorted (· < ·) l1 → List.Sorted (· < ·) l2 →
    List.Sorted (· < ·) (mergeLists l1 l2) := by
  intro l1 l2
  induction l1, l2 using mergeLists.induct with
  | case1 l2 => intro _ h2; simpa using h2
  | case2 l1 => intro h1 _; simpa using h1
  | case3 a l1 b l2 hab ih =>
      intro h1 h2
      rw [mergeLists_cons_cons, if_pos hab]
      rw [List.sorted_cons] at h1 ⊢
      refine ⟨?_, ih h1.2 h2⟩
      intro x hx
      rcases (mem_mergeLists _ _ _).mp hx with hx | hx
      · exact h1.1 x hx
      · rcases List.mem_cons.mp hx with hx | hx
        · omega
        · rw [List.sorted_cons] at h2
          have := h2.1 x hx
          omega
  | case4 a l1 b l2 hab hba ih =>
      intro h1 h2
      rw [mergeLists_cons_cons, if_neg hab, if_pos hba]
      rw [List.sorted_cons] at h2 ⊢
      refine ⟨?_, ih h1 h2.2⟩
      intro x hx
      rcases (mem_mergeLists _ _ _).mp hx with hx | hx
      · rcases List.mem_cons.mp hx with hx | hx
        · omega
        · rw [List.sorted_cons] at h1
          have := h1.1 x hx
          omega
      · exact h2.1 x hx
  | case5 a l1 b l2 hab hba ih =>
      intro h1 h2
      have heq : a = b := by omega
      subst heq
      rw [mergeLists_cons_cons, if_neg hab, if_neg hba]
      rw [List.sorted_cons] at h1 h2 ⊢
      refine ⟨?_, ih h1.2 h2.2⟩
      intro x hx
      rcases (mem_mergeLists _ _ _).mp hx with hx | hx
      · exact h1.1 x hx
      · exact h2.1 x hx

theorem eq_of_sorted_mem : ∀ (l l' : List Nat),
    List.Sorted (· < ·) l → List.Sorted (· < ·) l' →
    (∀ x, x ∈ l ↔ x ∈ l') → l = l' := by
  intro l
  induction l with
  | nil =>
      intro l' _ _ hmem
      cases l' with
      | nil => rfl
      | cons b l't => exact absurd ((hmem b).mpr (List.mem_cons_self _ _)) (by simp)
  | cons a lt ih =>
      intro l' h1 h2 hmem
      cases l' with
      | nil => exact absurd ((hmem a).mp (List.mem_cons_self _ _)) (by simp)
      | cons b l't =>
          rw [List.sorted_cons] at h1 h2
          have hab : a = b := by
            have ha : a ∈ b :: l't := (hmem a).mp (List.mem_cons_self _ _)
            have hb : b ∈ a :: lt := (hmem b).mpr (List.mem_cons_self _ _)
            rcases List.mem_cons.mp ha with h | h
            · exact h
            · have h3 := h2.1 a h
              rcases List.mem_cons.mp hb with h' | h'
              · omega
              · have h4 := h1.1 b h'
                omega
          subst hab
          have htails : ∀ x, x ∈ lt ↔ x ∈ l't := by
            intro x
            constructor
            · intro hx
              have hax := h1.1 x hx
              rcases List.mem_cons.mp ((hmem x).mp (List.mem_cons_of_mem _ hx)) with h | h
              · omega
              · exact h
            · intro hx
              have hax := h2.1 x hx
              rcases List.mem_cons.mp ((hmem x).mpr (List.mem_cons_of_mem _ hx)) with h | h
              · omega
              · exact h
          rw [ih l't h1.2 h2.2 htails]

theorem sorted_getD_lt {l : List Nat} (h : List.Sorted (· < ·) l) {i j : Nat}
    (hij : i < j) (hj : j < l.length) : l.getD i 0 < l.getD j 0 := by
  rw [List.getD_eq_getElem _ _ (by omega), List.getD_eq_getElem _ _ hj]
  exact List.pairwise_iff_getElem.mp h i j (by omega) hj hij

theorem getD_mem_self {l : List Nat} {k : Nat} (hk : k < l.length) : l.getD k 0 ∈ l := by
  rw [List.getD_eq_getElem _ _ hk]
  exact List.getElem_mem _

theorem mem_iff_getD {l : List Nat} {v : Nat} :
    v ∈ l ↔ ∃ k, k < l.length ∧ l.getD k 0 = v := by
  constructor
  · intro hv
    obtain ⟨k, hk, hkv⟩ := List.mem_iff_getElem.mp hv
    exact ⟨k, hk, by rw [List.getD_eq_getElem _ _ hk]; exact hkv⟩
  · intro ⟨k, hk, hkv⟩
    rw [← hkv]
    exact getD_mem_self hk

theorem liveSplits_length (d : DimensionInfo) : d.liveSplits.length = d.cSlices - 1 := by
  simp [DimensionInfo.liveSplits]

theorem liveSplits_getD (d : DimensionInfo) (k : Nat) (hk : k < d.cSlices - 1) :
    d.liveSplits.getD k 0 = d.aSplits k := by
  rw [List.getD_eq_getElem _ _ (by simpa [liveSplits_length] using hk)]
  simp [DimensionInfo.liveSplits]

theorem mem_liveSplits (d : DimensionInfo) (v : Nat) :
    v ∈ d.liveSplits ↔ ∃ k, k < d.cSlices - 1 ∧ d.aSplits k = v := by
  simp [DimensionInfo.liveSplits, List.mem_map, List.mem_range]

theorem sorted_liveSplits {d : DimensionInfo} {B : Nat} (h : dimWF d B) :
    List.Sorted (· < ·) d.liveSplits := by
  rw [List.Sorted]
  rw [List.pairwise_iff_getElem]
  intro i j hi hj hij
  rw [liveSplits_length] at hi hj
  have h1 : d.liveSplits.getD i 0 < d.liveSplits.getD j 0 := by
    rw [liveSplits_getD d i hi, liveSplits_getD d j hj]
    exact dimWF_mono h i j hij hj
  rw [List.getD_eq_getElem _ _ (by rw [liveSplits_length]; omega),
    List.getD_eq_getElem _ _ (by rw [liveSplits_length]; omega)] at h1
  exact h1

/-- The merged dimension: slice count one more than the split union, splits the
sorted union of the two input split arrays. -/
def mergedOf (d1 d2 : DimensionInfo) : DimensionInfo :=
  ⟨(mergeLists d1.liveSplits d2.liveSplits).length + 1, 0,
   fun k => (mergeLists d1.liveSplits d2.liveSplits).getD k 0⟩

theorem sorted_getD_lb {l : List Nat} (hs : List.Sorted (· < ·) l)
    (h1 : ∀ x ∈ l, 1 ≤ x) : ∀ i, i < l.length → i + 1 ≤ l.getD i 0 := by
  intro i
  induction i with
  | zero =>
      intro hi
      exact h1 _ (getD_mem_self hi)
  | succ n ihn =>
      intro hi
      have := ihn (by omega)
      have h2 := sorted_getD_lt hs (show n < n + 1 by omega) hi
      omega

theorem mergedOf_addDimWF {d1 d2 : DimensionInfo} {B : Nat}
    (h1 : dimWF d1 B) (h2 : dimWF d2 B) : addDimWF d1 d2 (mergedOf d1 d2) B := by
  have hs : List.Sorted (· < ·) (mergeLists d1.liveSplits d2.liveSplits) :=
    sorted_mergeLists _ _ (sorted_liveSplits h1) (sorted_liveSplits h2)
  have hmemb : ∀ x ∈ mergeLists d1.liveSplits d2.liveSplits, 1 ≤ x ∧ x < B := by
    intro x hx
    rcases (mem_mergeLists _ _ _).mp hx with hx | hx
    · obtain ⟨k, hk, hkv⟩ := (mem_liveSplits _ _).mp hx
      rw [← hkv]
      exact (h1.2.2.1 k hk)
    · obtain ⟨k, hk, hkv⟩ := (mem_liveSplits _ _).mp hx
      rw [← hkv]
      exact (h2.2.2.1 k hk)
  have hB1 : 1 ≤ B := by
    have := h1.1
    have := h1.2.1
    omega
  have hLB : (mergeLists d1.liveSplits d2.liveSplits).length + 1 ≤ B := by
    set L := (mergeLists d1.liveSplits d2.liveSplits).length with hL
    by_cases hL0 : L = 0
    · omega
    · have hlb := sorted_getD_lb hs (fun x hx => (hmemb x hx).1) (L - 1) (by omega)
      have hub := (hmemb _ (getD_mem_self (l := mergeLists d1.liveSplits d2.liveSplits)
        (k := L - 1) (by omega))).2
      omega
  have hmWF : dimWF (mergedOf d1 d2) B := by
    refine ⟨by simp [mergedOf], ?_, ?_, ?_⟩
    · simpa [mergedOf] using hLB
    · intro k hk
      simp only [mergedOf] at hk ⊢
      exact hmemb _ (getD_mem_self (by omega))
    · intro k hk j hj
      simp only [mergedOf] at hk ⊢
      exact sorted_getD_lt hs hj (by omega)
  refine ⟨h1, h2, hmWF, ?_, ?_, ?_⟩
  · intro k hk
    have hx : d1.aSplits k ∈ mergeLists d1.liveSplits d2.liveSplits :=
      (mem_mergeLists _ _ _).mpr (Or.inl ((mem_liveSplits _ _).mpr ⟨k, hk, rfl⟩))
    obtain ⟨j, hj, hjv⟩ := mem_iff_getD.mp hx
    exact ⟨j, by simpa [mergedOf] using hj, by simpa [mergedOf] using hjv⟩
  · intro k hk
    have hx : d2.aSplits k ∈ mergeLists d1.liveSplits d2.liveSplits :=
      (mem_mergeLists _ _ _).mpr (Or.inr ((mem_liveSplits _ _).mpr ⟨k, hk, rfl⟩))
    obtain ⟨j, hj, hjv⟩ := mem_iff_getD.mp hx
    exact ⟨j, by simpa [mergedOf] using hj, by simpa [mergedOf] using hjv⟩
  · intro j hj
    simp only [mergedOf] at hj ⊢
    have hx := getD_mem_self (l := mergeLists d1.liveSplits d2.liveSplits) (k := j)
      (by omega)
    rcases (mem_mergeLists _ _ _).mp hx with hx | hx
    · obtain ⟨k, hk, hkv⟩ := (mem_liveSplits _ _).mp hx
      exact Or.inl ⟨k, hk, hkv⟩
    · obtain ⟨k, hk, hkv⟩ := (mem_liveSplits _ _).mp hx
      exact Or.inr ⟨k, hk, hkv⟩

theorem mergeCount_zero (s1 s2 : Nat → Nat) (p1End p2End p1 p2 acc : Nat) :
    mergeCount s1 s2 p1End p2End 0 p1 p2 acc = acc := rfl

theorem mergeCount_succ (s1 s2 : Nat → Nat) (p1End p2End fuel p1 p2 acc : Nat) :
    mergeCount s1 s2 p1End p2End (fuel + 1) p1 p2 acc =
      if p2End = p2 then acc + (p1End - p1)
      else if p1End = p1 then acc + (p2End - p2)
      else mergeCount s1 s2 p1End p2End fuel
        (if s1 p1 ≤ s2 p2 then p1 + 1 else p1) (if s2 p2 ≤ s1 p1 then p2 + 1 else p2)
        (acc + 1) := rfl

theorem liveSplits_drop (d : DimensionInfo) (p : Nat) (hp : p < d.cSlices - 1) :
    d.liveSplits.drop p = d.aSplits p :: d.liveSplits.drop (p + 1) := by
  rw [List.drop_eq_getElem_cons (by rw [liveSplits_length]; omega)]
  congr 1
  rw [← List.getD_eq_getElem _ 0 (by rw [liveSplits_length]; omega)]
  exact liveSplits_getD d p hp

theorem mergeCount_inv (d1 d2 : DimensionInfo) :
    ∀ (fuel p1 p2 acc : Nat),
    p1 ≤ d1.cSlices - 1 → p2 ≤ d2.cSlices - 1 →
    ((d1.cSlices - 1) - p1) + ((d2.cSlices - 1) - p2) ≤ fuel →
    mergeCount d1.aSplits d2.aSplits (d1.cSlices - 1) (d2.cSlices - 1) fuel p1 p2 acc =
      acc + (mergeLists (d1.liveSplits.drop p1) (d2.liveSplits.drop p2)).length := by
  intro fuel
  induction fuel with
  | zero =>
      intro p1 p2 acc hp1 hp2 hfuel
      have he1 : p1 = d1.cSlices - 1 := by omega
      have he2 : p2 = d2.cSlices - 1 := by omega
      rw [mergeCount_zero, he1, he2,
        List.drop_of_length_le (by rw [liveSplits_length]),
        List.drop_of_length_le (by rw [liveSplits_length])]
      simp
  | succ f ih =>
      intro p1 p2 acc hp1 hp2 hfuel
      rw [mergeCount_succ]
      by_cases h2e : d2.cSlices - 1 = p2
      · rw [if_pos h2e]
        have hd2 : d2.liveSplits.drop p2 = [] :=
          List.drop_of_length_le (by rw [liveSplits_length]; omega)
        rw [hd2, mergeLists_nil_right, List.length_drop, liveSplits_length]
      · rw [if_neg h2e]
        by_cases h1e : d1.cSlices - 1 = p1
        · rw [if_pos h1e]
          have hd1 : d1.liveSplits.drop p1 = [] :=
            List.drop_of_length_le (by rw [liveSplits_length]; omega)
          rw [hd1, mergeLists_nil_left, List.length_drop, liveSplits_length]
        · rw [if_neg h1e]
          rw [liveSplits_drop d1 p1 (by omega), liveSplits_drop d2 p2 (by omega),
            mergeLists_cons_cons]
          rcases lt_trichotomy (d1.aSplits p1) (d2.aSplits p2) with hlt | heq | hgt
          · rw [if_pos (show d1.aSplits p1 < d2.aSplits p2 from hlt),
              if_pos (show d1.aSplits p1 ≤ d2.aSplits p2 by omega),
              if_neg (show ¬ d2.aSplits p2 ≤ d1.aSplits p1 by omega)]
            rw [ih (p1 + 1) p2 (acc + 1) (by omega) (by omega) (by omega)]
            rw [← liveSplits_drop d2 p2 (by omega)]
            rw [List.length_cons]
            omega
          · rw [if_neg (show ¬ d1.aSplits p1 < d2.aSplits p2 by omega),
              if_neg (show ¬ d2.aSplits p2 < d1.aSplits p1 by omega),
              if_pos (show d1.aSplits p1 ≤ d2.aSplits p2 by omega),
              if_pos (show d2.aSplits p2 ≤ d1.aSplits p1 by omega)]
            rw [ih (p1 + 1) (p2 + 1) (acc + 1) (by omega) (by omega) (by omega)]
            rw [List.length_cons]
            omega
          · rw [if_neg (show ¬ d1.aSplits p1 < d2.aSplits p2 by omega),
              if_pos (show d2.aSplits p2 < d1.aSplits p1 from hgt),
              if_neg (show ¬ d1.aSplits p1 ≤ d2.aSplits p2 by omega),
              if_pos (show d2.aSplits p2 ≤ d1.aSplits p1 by omega)]
            rw [ih p1 (p2 + 1) (acc + 1) (by omega) (by omega) (by omega)]
            rw [← liveSplits_drop d1 p1 (by omega)]
            rw [List.length_cons]
            omega

theorem cMergedSlices_eq (d1 d2 : DimensionInfo) :
    cMergedSlices d1 d2 = (mergedOf d1 d2).cSlices := by
  unfold cMergedSlices
  rw [mergeCount_inv d1 d2 ((d1.cSlices - 1) + (d2.cSlices - 1)) 0 0 1 (by omega)
    (by omega) (by omega)]
  rw [List.drop_zero, List.drop_zero]
  simp [mergedOf]
  omega

theorem getD_take_eq {l : List Nat} {n i : Nat} (hi : i < n) :
    (l.take n).getD i 0 = l.getD i 0 := by
  by_cases hil : i < l.length
  · rw [List.getD_eq_getElem _ _ (by rw [List.length_take]; omega),
      List.getD_eq_getElem _ _ hil]
    simp [List.getElem_take]
  · rw [List.getD_eq_default _ _ (by rw [List.length_take]; omega),
      List.getD_eq_default _ _ (by omega)]

theorem mem_take_iff {l : List Nat} {n x : Nat} :
    x ∈ l.take n ↔ ∃ i, i < n ∧ i < l.length ∧ l.getD i 0 = x := by
  constructor
  · intro hx
    obtain ⟨i, hi, hiv⟩ := mem_iff_getD.mp hx
    rw [List.length_take] at hi
    refine ⟨i, by omega, by omega, ?_⟩
    rw [← getD_take_eq (l := l) (by omega : i < n)]
    exact hiv
  · intro ⟨i, hin, hil, hiv⟩
    rw [mem_iff_getD]
    refine ⟨i, by rw [List.length_take]; omega, ?_⟩
    rw [getD_take_eq hin]
    exact hiv

theorem le_last_of_mem_take {l : List Nat} (hs : List.Sorted (· < ·) l) {n x : Nat}
    (hn1 : 1 ≤ n) (hnl : n ≤ l.length) (hx : x ∈ l.take n) : x ≤ l.getD (n - 1) 0 := by
  obtain ⟨i, hin, hil, hiv⟩ := mem_take_iff.mp hx
  rcases Nat.lt_or_ge i (n - 1) with hi | hi
  · have := sorted_getD_lt hs hi (by omega)
    omega
  · have : i = n - 1 := by omega
    subst this
    omega

theorem last_mem_take {l : List Nat} {n : Nat} (hn1 : 1 ≤ n) (hnl : n ≤ l.length) :
    l.getD (n - 1) 0 ∈ l.take n :=
  mem_take_iff.mpr ⟨n - 1, by omega, by omega, rfl⟩

theorem mem_take_pred_iff {l : List Nat} (hs : List.Sorted (· < ·) l) {n x : Nat}
    (hn1 : 1 ≤ n) (hnl : n ≤ l.length) :
    x ∈ l.take (n - 1) ↔ x ∈ l.take n ∧ x < l.getD (n - 1) 0 := by
  constructor
  · intro hx
    obtain ⟨i, hin, hil, hiv⟩ := mem_take_iff.mp hx
    refine ⟨mem_take_iff.mpr ⟨i, by omega, hil, hiv⟩, ?_⟩
    have := sorted_getD_lt hs (show i < n - 1 by omega) (by omega)
    omega
  · intro ⟨hx, hlt⟩
    obtain ⟨i, hin, hil, hiv⟩ := mem_take_iff.mp hx
    refine mem_take_iff.mpr ⟨i, ?_, hil, hiv⟩
    by_contra hc
    have : i = n - 1 := by omega
    subst this
    omega

theorem sorted_nodup {l : List Nat} (hs : List.Sorted (· < ·) l) : l.Nodup :=
  hs.imp (fun h => Nat.ne_of_lt h)

theorem sorted_take {l : List Nat} (hs : List.Sorted (· < ·) l) (n : Nat) :
    List.Sorted (· < ·) (l.take n) :=
  List.Pairwise.sublist (List.take_sublist n l) hs

theorem length_le_of_sorted_subset {A U : List Nat} (hA : List.Sorted (· < ·) A)
    (hsub : ∀ x ∈ A, x ∈ U) : A.length ≤ U.length :=
  ((sorted_nodup hA).subperm (fun {x} hx => hsub x hx)).length_le

theorem eq_of_sorted_subset_len {A U : List Nat} (hA : List.Sorted (· < ·) A)
    (hU : List.Sorted (· < ·) U) (hsub : ∀ x ∈ A, x ∈ U)
    (hlen : U.length ≤ A.length) : A = U := by
  obtain ⟨w, hwp, hws⟩ := (sorted_nodup hA).subperm (fun {x} hx => hsub x hx)
  have hwl : w.length = U.length := by
    have h1 := hwp.length_eq
    have h2 := hws.length_le
    omega
  have hwU : w = U := hws.eq_of_length hwl
  rw [hwU] at hwp
  exact eq_of_sorted_mem A U hA hU (fun x => (hwp.mem_iff).symm)

theorem mergeSplitsLoop_zero (s2 : Nat → Nat) (buf : Nat → Nat) (p1 p2 pTop : Nat) :
    mergeSplitsLoop s2 0 buf p1 p2 pTop = buf := rfl

theorem mergeSplitsLoop_succ (s2 : Nat → Nat) (f : Nat) (buf : Nat → Nat)
    (p1 p2 pTop : Nat) :
    mergeSplitsLoop s2 (f + 1) buf p1 p2 pTop =
      if pTop = p1 then buf
      else if pTop = p2 then fun k => if k < pTop then s2 k else buf k
      else mergeSplitsLoop s2 f
        (fun k => if k = pTop - 1 then
            (if buf (p1 - 1) ≤ s2 (p2 - 1) then s2 (p2 - 1) else buf (p1 - 1))
          else buf k)
        (if s2 (p2 - 1) ≤ buf (p1 - 1) then p1 - 1 else p1)
        (if buf (p1 - 1) ≤ s2 (p2 - 1) then p2 - 1 else p2) (pTop - 1) := rfl

theorem mergeSplitsLoop_spec {d1 d2 : DimensionInfo} {B : Nat}
    (h1 : dimWF d1 B) (h2 : dimWF d2 B) :
    ∀ (fuel : Nat) (buf : Nat → Nat) (p1 p2 pTop : Nat),
    p1 ≤ d1.cSlices - 1 → p2 ≤ d2.cSlices - 1 →
    pTop ≤ (mergeLists d1.liveSplits d2.liveSplits).length →
    mergeLists (d1.liveSplits.take p1) (d2.liveSplits.take p2) =
      (mergeLists d1.liveSplits d2.liveSplits).take pTop →
    (∀ k, k < p1 → buf k = d1.aSplits k) →
    (∀ k, pTop ≤ k → k < (mergeLists d1.liveSplits d2.liveSplits).length →
      buf k = (mergeLists d1.liveSplits d2.liveSplits).getD k 0) →
    pTop ≤ fuel →
    ∀ k, k < (mergeLists d1.liveSplits d2.liveSplits).length →
      mergeSplitsLoop d2.aSplits fuel buf p1 p2 pTop k =
        (mergeLists d1.liveSplits d2.liveSplits).getD k 0 := by
  have hsl1 := sorted_liveSplits h1
  have hsl2 := sorted_liveSplits h2
  have hsu := sorted_mergeLists _ _ hsl1 hsl2
  have hlen1 := liveSplits_length d1
  have hlen2 := liveSplits_length d2
  intro fuel
  induction fuel with
  | zero =>
      intro buf p1 p2 pTop hp1 hp2 hptop hmrg hpre hwrit hfl k hk
      rw [mergeSplitsLoop_zero]
      exact hwrit k (by omega) hk
  | succ f ih =>
      intro buf p1 p2 pTop hp1 hp2 hptop hmrg hpre hwrit hfl k hk
      rw [mergeSplitsLoop_succ]
      by_cases he1 : pTop = p1
      · rw [if_pos he1]
        rcases Nat.lt_or_ge k pTop with hkp | hkp
        · have hA : d1.liveSplits.take p1 =
              (mergeLists d1.liveSplits d2.liveSplits).take pTop := by
            refine eq_of_sorted_subset_len (sorted_take hsl1 _) (sorted_take hsu _) ?_ ?_
            · intro x hx
              rw [← hmrg]
              exact (mem_mergeLists _ _ _).mpr (Or.inl hx)
            · rw [List.length_take, List.length_take]
              omega
          have hval : (mergeLists d1.liveSplits d2.liveSplits).getD k 0 =
              d1.aSplits k := by
            rw [← getD_take_eq (show k < pTop by omega), ← hA,
              getD_take_eq (show k < p1 by omega), liveSplits_getD d1 k (by omega)]
          rw [hval]
          exact hpre k (by omega)
        · exact hwrit k hkp hk
      · rw [if_neg he1]
        by_cases he2 : pTop = p2
        · rw [if_pos he2]
          rcases Nat.lt_or_ge k pTop with hkp | hkp
          · rw [if_pos hkp]
            have hB : d2.liveSplits.take p2 =
                (mergeLists d1.liveSplits d2.liveSplits).take pTop := by
              refine eq_of_sorted_subset_len (sorted_take hsl2 _) (sorted_take hsu _) ?_ ?_
              · intro x hx
                rw [← hmrg]
                exact (mem_mergeLists _ _ _).mpr (Or.inr hx)
              · rw [List.length_take, List.length_take]
                omega
            have hval : (mergeLists d1.liveSplits d2.liveSplits).getD k 0 =
                d2.aSplits k := by
              rw [← getD_take_eq (show k < pTop by omega), ← hB,
                getD_take_eq (show k < p2 by omega), liveSplits_getD d2 k (by omega)]
            rw [hval]
          · rw [if_neg (by omega)]
            exact hwrit k hkp hk
        · rw [if_neg he2]
          have hsubA : ∀ x ∈ d1.liveSplits.take p1,
              x ∈ (mergeLists d1.liveSplits d2.liveSplits).take pTop := by
            intro x hx
            rw [← hmrg]
            exact (mem_mergeLists _ _ _).mpr (Or.inl hx)
          have hsubB : ∀ x ∈ d2.liveSplits.take p2,
              x ∈ (mergeLists d1.liveSplits d2.liveSplits).take pTop := by
            intro x hx
            rw [← hmrg]
            exact (mem_mergeLists _ _ _).mpr (Or.inr hx)
          have hp1t : p1 < pTop := by
            have h := length_le_of_sorted_subset (sorted_take hsl1 p1) hsubA
            rw [List.length_take, List.length_take] at h
            omega
          have hp2t : p2 < pTop := by
            have h := length_le_of_sorted_subset (sorted_take hsl2 p2) hsubB
            rw [List.length_take, List.length_take] at h
            omega
          have hp11 : 1 ≤ p1 := by
            by_contra hc
            have hp10 : p1 = 0 := by omega
            rw [hp10, List.take_zero, mergeLists_nil_left] at hmrg
            have hlc := congrArg List.length hmrg
            rw [List.length_take, List.length_take] at hlc
            omega
          have hp21 : 1 ≤ p2 := by
            by_contra hc
            have hp20 : p2 = 0 := by omega
            rw [hp20, List.take_zero, mergeLists_nil_right] at hmrg
            have hlc := congrArg List.length hmrg
            rw [List.length_take, List.length_take] at hlc
            omega
          have hbufp1 : buf (p1 - 1) = d1.aSplits (p1 - 1) := hpre _ (by omega)
          have hm1M : d1.aSplits (p1 - 1) ∈
              (mergeLists d1.liveSplits d2.liveSplits).take pTop := by
            refine hsubA _ (mem_take_iff.mpr ⟨p1 - 1, by omega, by omega, ?_⟩)
            exact liveSplits_getD d1 (p1 - 1) (by omega)
          have hm2M : d2.aSplits (p2 - 1) ∈
              (mergeLists d1.liveSplits d2.liveSplits).take pTop := by
            refine hsubB _ (mem_take_iff.mpr ⟨p2 - 1, by omega, by omega, ?_⟩)
            exact liveSplits_getD d2 (p2 - 1) (by omega)
          have hub1 : ∀ x ∈ d1.liveSplits.take p1, x ≤ d1.aSplits (p1 - 1) := by
            intro x hx
            have := le_last_of_mem_take hsl1 (by omega) (by omega) hx
            rwa [liveSplits_getD d1 (p1 - 1) (by omega)] at this
          have hub2 : ∀ x ∈ d2.liveSplits.take p2, x ≤ d2.aSplits (p2 - 1) := by
            intro x hx
            have := le_last_of_mem_take hsl2 (by omega) (by omega) hx
            rwa [liveSplits_getD d2 (p2 - 1) (by omega)] at this
          have hlast_mem := last_mem_take (l := mergeLists d1.liveSplits d2.liveSplits)
            (show 1 ≤ pTop by omega) (by omega)
          have hle1 : d1.aSplits (p1 - 1) ≤
              (mergeLists d1.liveSplits d2.liveSplits).getD (pTop - 1) 0 :=
            le_last_of_mem_take hsu (by omega) (by omega) hm1M
          have hle2 : d2.aSplits (p2 - 1) ≤
              (mergeLists d1.liveSplits d2.liveSplits).getD (pTop - 1) 0 :=
            le_last_of_mem_take hsu (by omega) (by omega) hm2M
          have hlastAB : (mergeLists d1.liveSplits d2.liveSplits).getD (pTop - 1) 0 ≤
              d1.aSplits (p1 - 1) ∨
              (mergeLists d1.liveSplits d2.liveSplits).getD (pTop - 1) 0 ≤
              d2.aSplits (p2 - 1) := by
            rw [← hmrg] at hlast_mem
            rcases (mem_mergeLists _ _ _).mp hlast_mem with hx | hx
            · exact Or.inl (hub1 _ hx)
            · exact Or.inr (hub2 _ hx)
          have hmemA_iff : ∀ x, x ∈ d1.liveSplits.take (p1 - 1) ↔
              x ∈ d1.liveSplits.take p1 ∧ x < d1.aSplits (p1 - 1) := by
            intro x
            rw [mem_take_pred_iff hsl1 (by omega) (by omega),
              liveSplits_getD d1 (p1 - 1) (by omega)]
          have hmemB_iff : ∀ x, x ∈ d2.liveSplits.take (p2 - 1) ↔
              x ∈ d2.liveSplits.take p2 ∧ x < d2.aSplits (p2 - 1) := by
            intro x
            rw [mem_take_pred_iff hsl2 (by omega) (by omega),
              liveSplits_getD d2 (p2 - 1) (by omega)]
          have hmemU_iff : ∀ x,
              x ∈ (mergeLists d1.liveSplits d2.liveSplits).take (pTop - 1) ↔
              x ∈ (mergeLists d1.liveSplits d2.liveSplits).take pTop ∧
                x < (mergeLists d1.liveSplits d2.liveSplits).getD (pTop - 1) 0 := by
            intro x
            exact mem_take_pred_iff hsu (by omega) (by omega)
          rcases lt_trichotomy (d1.aSplits (p1 - 1)) (d2.aSplits (p2 - 1))
            with hlt | heq | hgt
          · have hlast : (mergeLists d1.liveSplits d2.liveSplits).getD (pTop - 1) 0 =
                d2.aSplits (p2 - 1) := by omega
            have hmrg2 : mergeLists (d1.liveSplits.take p1)
                (d2.liveSplits.take (p2 - 1)) =
                (mergeLists d1.liveSplits d2.liveSplits).take (pTop - 1) := by
              refine eq_of_sorted_mem _ _
                (sorted_mergeLists _ _ (sorted_take hsl1 _) (sorted_take hsl2 _))
                (sorted_take hsu _) ?_
              intro x
              rw [mem_mergeLists, hmemB_iff, hmemU_iff, hlast]
              constructor
              · intro hx
                rcases hx with hx | ⟨hx, hxlt⟩
                · exact ⟨hsubA _ hx, by have := hub1 _ hx; omega⟩
                · exact ⟨hsubB _ hx, hxlt⟩
              · intro ⟨hx, hxlt⟩
                rw [← hmrg] at hx
                rcases (mem_mergeLists _ _ _).mp hx with hx | hx
                · exact Or.inl hx
                · exact Or.inr ⟨hx, hxlt⟩
            have hc1 : (if d2.aSplits (p2 - 1) ≤ buf (p1 - 1) then p1 - 1 else p1) =
                p1 := by
              rw [hbufp1]
              exact if_neg (by omega)
            have hc2 : (if buf (p1 - 1) ≤ d2.aSplits (p2 - 1) then p2 - 1 else p2) =
                p2 - 1 := by
              rw [hbufp1]
              exact if_pos (by omega)
            have hcd : (if buf (p1 - 1) ≤ d2.aSplits (p2 - 1) then d2.aSplits (p2 - 1)
                else buf (p1 - 1)) = d2.aSplits (p2 - 1) := by
              rw [hbufp1]
              exact if_pos (by omega)
            rw [hc1, hc2]
            simp only [hcd]
            refine ih _ p1 (p2 - 1) (pTop - 1) (by omega) (by omega) (by omega) hmrg2
              ?_ ?_ (by omega) k hk
            · intro kk hkk
              rw [if_neg (by omega)]
              exact hpre kk hkk
            · intro kk hkk1 hkk2
              by_cases hke : kk = pTop - 1
              · rw [if_pos hke, hke, hlast]
              · rw [if_neg hke]
                exact hwrit kk (by omega) hkk2
          · have hlast : (mergeLists d1.liveSplits d2.liveSplits).getD (pTop - 1) 0 =
                d2.aSplits (p2 - 1) := by omega
            have hmrg2 : mergeLists (d1.liveSplits.take (p1 - 1))
                (d2.liveSplits.take (p2 - 1)) =
                (mergeLists d1.liveSplits d2.liveSplits).take (pTop - 1) := by
              refine eq_of_sorted_mem _ _
                (sorted_mergeLists _ _ (sorted_take hsl1 _) (sorted_take hsl2 _))
                (sorted_take hsu _) ?_
              intro x
              rw [mem_mergeLists, hmemA_iff, hmemB_iff, hmemU_iff, hlast]
              constructor
              · intro hx
                rcases hx with ⟨hx, hxlt⟩ | ⟨hx, hxlt⟩
                · exact ⟨hsubA _ hx, by omega⟩
                · exact ⟨hsubB _ hx, hxlt⟩
              · intro ⟨hx, hxlt⟩
                rw [← hmrg] at hx
                rcases (mem_mergeLists _ _ _).mp hx with hx | hx
                · exact Or.inl ⟨hx, by omega⟩
                · exact Or.inr ⟨hx, hxlt⟩
            have hc1 : (if d2.aSplits (p2 - 1) ≤ buf (p1 - 1) then p1 - 1 else p1) =
                p1 - 1 := by
              rw [hbufp1]
              exact if_pos (by omega)
            have hc2 : (if buf (p1 - 1) ≤ d2.aSplits (p2 - 1) then p2 - 1 else p2) =
                p2 - 1 := by
              rw [hbufp1]
              exact if_pos (by omega)
            have hcd : (if buf (p1 - 1) ≤ d2.aSplits (p2 - 1) then d2.aSplits (p2 - 1)
                else buf (p1 - 1)) = d2.aSplits (p2 - 1) := by
              rw [hbufp1]
              exact if_pos (by omega)
            rw [hc1, hc2]
            simp only [hcd]
            refine ih _ (p1 - 1) (p2 - 1) (pTop - 1) (by omega) (by omega) (by omega)
              hmrg2 ?_ ?_ (by omega) k hk
            · intro kk hkk
              rw [if_neg (by omega)]
              exact hpre kk (by omega)
            · intro kk hkk1 hkk2
              by_cases hke : kk = pTop - 1
              · rw [if_pos hke, hke, hlast]
              · rw [if_neg hke]
                exact hwrit kk (by omega) hkk2
          · have hlast : (mergeLists d1.liveSplits d2.liveSplits).getD (pTop - 1) 0 =
                d1.aSplits (p1 - 1) := by omega
            have hmrg2 : mergeLists (d1.liveSplits.take (p1 - 1))
                (d2.liveSplits.take p2) =
                (mergeLists d1.liveSplits d2.liveSplits).take (pTop - 1) := by
              refine eq_of_sorted_mem _ _
                (sorted_mergeLists _ _ (sorted_take hsl1 _) (sorted_take hsl2 _))
                (sorted_take hsu _) ?_
              intro x
              rw [mem_mergeLists, hmemA_iff, hmemU_iff, hlast]
              constructor
              · intro hx
                rcases hx with ⟨hx, hxlt⟩ | hx
                · exact ⟨hsubA _ hx, hxlt⟩
                · exact ⟨hsubB _ hx, by have := hub2 _ hx; omega⟩
              · intro ⟨hx, hxlt⟩
                rw [← hmrg] at hx
                rcases (mem_mergeLists _ _ _).mp hx with hx | hx
                · exact Or.inl ⟨hx, hxlt⟩
                · exact Or.inr hx
            have hc1 : (if d2.aSplits (p2 - 1) ≤ buf (p1 - 1) then p1 - 1 else p1) =
                p1 - 1 := by
              rw [hbufp1]
              exact if_pos (by omega)
            have hc2 : (if buf (p1 - 1) ≤ d2.aSplits (p2 - 1) then p2 - 1 else p2) =
                p2 := by
              rw [hbufp1]
              exact if_neg (by omega)
            have hcd : (if buf (p1 - 1) ≤ d2.aSplits (p2 - 1) then d2.aSplits (p2 - 1)
                else buf (p1 - 1)) = d1.aSplits (p1 - 1) := by
              rw [hbufp1]
              exact if_neg (by omega)
            rw [hc1, hc2]
            simp only [hcd]
            refine ih _ (p1 - 1) p2 (pTop - 1) (by omega) (by omega) (by omega)
              hmrg2 ?_ ?_ (by omega) k hk
            · intro kk hkk
              rw [if_neg (by omega)]
              exact hpre kk (by omega)
            · intro kk hkk1 hkk2
              by_cases hke : kk = pTop - 1
              · rw [if_pos hke, hke, hlast]
              · rw [if_neg hke]
                exact hwrit kk (by omega) hkk2

instance : Inhabited DimensionInfoStack := ⟨⟨0, 0, 0⟩⟩

/-- The merged split buffer of one dimension of `Add` at position `i`. -/
def mergedSplitsFun (rhs t : Tensor) (i cNew cOrig : Nat) : Nat → Nat :=
  mergeSplitsLoop (rhs.dims.getD i default).aSplits (cNew - 1)
    (t.dims.getD i default).aSplits (cOrig - 1)
    ((rhs.dims.getD i default).cSlices - 1) (cNew - 1)

/-- The dimension record after `Add`'s in-place split merge at position `i`. -/
def mergedDimAt (rhs t : Tensor) (i cNew cOrig : Nat) : DimensionInfo :=
  { t.dims.getD i default with aSplits := mergedSplitsFun rhs t i cNew cOrig }

/-- The tensor after `Add`'s in-place split merge of dimension `i`. -/
def mergeAt (rhs t : Tensor) (i cNew cOrig : Nat) : Tensor :=
  { t with dims := t.dims.set i (mergedDimAt rhs t i cNew cOrig) }

theorem addSplits_cons_set (rhs : Tensor) (alloc : Nat → Bool) (e : DimensionInfoStack)
    (rest : List DimensionInfoStack) (i : Nat) (t tr : Tensor)
    (hset : t.SetCountSlices i e.cNewSlices (alloc (i + 1)) = (.Error_None, tr)) :
    addSplits rhs alloc (e :: rest) i t =
      addSplits rhs alloc rest (i + 1)
        (mergeAt rhs tr i e.cNewSlices ((t.dims.getD i default).cSlices)) := by
  simp only [addSplits]
  rw [hset]
  rfl

theorem addSplits_nil (rhs : Tensor) (alloc : Nat → Bool) (i : Nat) (t : Tensor) :
    addSplits rhs alloc [] i t = (.Error_None, t) := rfl

theorem addSplits_spec (rhs : Tensor) (alloc : Nat → Bool) (halloc : ∀ k, alloc k = true) :
    ∀ (es : List DimensionInfoStack) (i : Nat) (t : Tensor),
    t.dims.length = i + es.length →
    (∀ k, k < es.length → ∃ B, B ≤ 2 ^ 59 ∧
      dimWF (t.dims.getD (i + k) default) B ∧
      dimWF (rhs.dims.getD (i + k) default) B) →
    (∀ k, k < es.length → es.getD k default =
      DimensionInfoStack.mk ((t.dims.getD (i + k) default).cSlices - 1)
        ((rhs.dims.getD (i + k) default).cSlices - 1)
        (mergedOf (t.dims.getD (i + k) default) (rhs.dims.getD (i + k) default)).cSlices) →
    ∃ t2, addSplits rhs alloc es i t = (.Error_None, t2) ∧
      t2.cScores = t.cScores ∧
      t2.aTensorScores = t.aTensorScores ∧
      t2.bExpanded = t.bExpanded ∧
      t2.dims.length = t.dims.length ∧
      (∀ k, k < i → t2.dims.getD k default = t.dims.getD k default) ∧
      (∀ k, k < es.length →
        (t2.dims.getD (i + k) default).cSlices =
          (mergedOf (t.dims.getD (i + k) default) (rhs.dims.getD (i + k) default)).cSlices ∧
        ∀ m, m < (mergedOf (t.dims.getD (i + k) default)
            (rhs.dims.getD (i + k) default)).cSlices - 1 →
          (t2.dims.getD (i + k) default).aSplits m =
            (mergedOf (t.dims.getD (i + k) default)
              (rhs.dims.getD (i + k) default)).aSplits m) := by
  intro es
  induction es with
  | nil =>
      intro i t hlen _ _
      rw [addSplits_nil]
      exact ⟨t, rfl, rfl, rfl, rfl, rfl, fun k _ => rfl, fun k hk => by simp at hk⟩
  | cons e rest ih =>
      intro i t hlen hwf hstack
      have hi : i < t.dims.length := by
        rw [hlen, List.length_cons]
        omega
      obtain ⟨B, hB, hd1, hd2⟩ := hwf 0 (by rw [List.length_cons]; omega)
      rw [Nat.add_zero] at hd1 hd2
      have he0 := hstack 0 (by rw [List.length_cons]; omega)
      rw [Nat.add_zero, List.getD_cons_zero] at he0
      have hLu : (mergedOf (t.dims.getD i default) (rhs.dims.getD i default)).cSlices =
          (mergeLists (t.dims.getD i default).liveSplits
            (rhs.dims.getD i default).liveSplits).length + 1 := by
        simp [mergedOf]
      have hMbound : (mergedOf (t.dims.getD i default) (rhs.dims.getD i default)).cSlices
          ≤ 2 ^ 60 := by
        have hL := length_mergeLists_le (t.dims.getD i default).liveSplits
          (rhs.dims.getD i default).liveSplits
        rw [liveSplits_length, liveSplits_length] at hL
        have hm1 := hd1.2.1
        have hm2 := hd2.2.1
        rw [hLu]
        omega
      obtain ⟨tr, pd2, hset, htrd, htrc, htra, htrb, hpd2s, hpd2a⟩ :=
        SetCountSlices_ok t i
          (mergedOf (t.dims.getD i default) (rhs.dims.getD i default)).cSlices hMbound
      rw [addSplits_cons_set rhs alloc e rest i t tr
        (by rw [halloc (i + 1), he0]; exact hset)]
      have hget2 : tr.dims.getD i default = pd2 := by
        rw [htrd]
        exact getD_set_self _ _ _ _ hi
      have hmerged : ∀ m, m < (mergeLists (t.dims.getD i default).liveSplits
          (rhs.dims.getD i default).liveSplits).length →
          mergedSplitsFun rhs tr i e.cNewSlices ((t.dims.getD i default).cSlices) m =
          (mergeLists (t.dims.getD i default).liveSplits
            (rhs.dims.getD i default).liveSplits).getD m 0 := by
        intro m hm
        unfold mergedSplitsFun
        rw [hget2, hpd2a, he0]
        dsimp only
        rw [hLu]
        simp only [Nat.add_sub_cancel]
        refine mergeSplitsLoop_spec hd1 hd2 _ _ _ _ _ (le_refl _) (le_refl _)
          (le_refl _) ?_ (fun k _ => rfl) (fun k hk1 hk2 => absurd hk2 (by omega))
          (le_refl _) m hm
        rw [List.take_of_length_le (by rw [liveSplits_length]),
          List.take_of_length_le (by rw [liveSplits_length]),
          List.take_of_length_le (le_refl _)]
      have hpd3s : (mergedDimAt rhs tr i e.cNewSlices
          ((t.dims.getD i default).cSlices)).cSlices =
          (mergedOf (t.dims.getD i default) (rhs.dims.getD i default)).cSlices := by
        unfold mergedDimAt
        dsimp only
        rw [hget2, hpd2s]
      have hT3d : (mergeAt rhs tr i e.cNewSlices
          ((t.dims.getD i default).cSlices)).dims =
          t.dims.set i (mergedDimAt rhs tr i e.cNewSlices
            ((t.dims.getD i default).cSlices)) := by
        unfold mergeAt
        dsimp only
        rw [htrd]
        simp only [List.set_set]
      have hlen3 : (mergeAt rhs tr i e.cNewSlices
          ((t.dims.getD i default).cSlices)).dims.length = (i + 1) + rest.length := by
        rw [hT3d, List.length_set, hlen, List.length_cons]
        omega
      have hT3get : ∀ k, k ≠ i → (mergeAt rhs tr i e.cNewSlices
          ((t.dims.getD i default).cSlices)).dims.getD k default =
          t.dims.getD k default := by
        intro k hk
        rw [hT3d, getD_set_ne _ _ _ _ _ (fun hc => hk hc.symm)]
      have hwf3 : ∀ k, k < rest.length → ∃ B2, B2 ≤ 2 ^ 59 ∧
          dimWF ((mergeAt rhs tr i e.cNewSlices
            ((t.dims.getD i default).cSlices)).dims.getD ((i + 1) + k) default) B2 ∧
          dimWF (rhs.dims.getD ((i + 1) + k) default) B2 := by
        intro k hk
        rw [hT3get _ (by omega)]
        obtain ⟨B2, hB2, hw1, hw2⟩ := hwf (k + 1) (by rw [List.length_cons]; omega)
        have h2 : i + (k + 1) = (i + 1) + k := by omega
        rw [h2] at hw1 hw2
        exact ⟨B2, hB2, hw1, hw2⟩
      have hstack3 : ∀ k, k < rest.length → rest.getD k default =
          DimensionInfoStack.mk
            (((mergeAt rhs tr i e.cNewSlices
              ((t.dims.getD i default).cSlices)).dims.getD ((i + 1) + k)
                default).cSlices - 1)
            ((rhs.dims.getD ((i + 1) + k) default).cSlices - 1)
            (mergedOf ((mergeAt rhs tr i e.cNewSlices
              ((t.dims.getD i default).cSlices)).dims.getD ((i + 1) + k) default)
              (rhs.dims.getD ((i + 1) + k) default)).cSlices := by
        intro k hk
        rw [hT3get _ (by omega)]
        have hs := hstack (k + 1) (by rw [List.length_cons]; omega)
        rw [List.getD_cons_succ] at hs
        have h2 : i + (k + 1) = (i + 1) + k := by omega
        rw [h2] at hs
        exact hs
      obtain ⟨t4, hrec, hc4, ha4, hb4, hl4, hpre4, hdense4⟩ :=
        ih (i + 1) (mergeAt rhs tr i e.cNewSlices ((t.dims.getD i default).cSlices))
          hlen3 hwf3 hstack3
      have hdc : (mergeAt rhs tr i e.cNewSlices
          ((t.dims.getD i default).cSlices)).cScores = t.cScores := by
        unfold mergeAt
        dsimp only
        rw [htrc]
      have hda : (mergeAt rhs tr i e.cNewSlices
          ((t.dims.getD i default).cSlices)).aTensorScores = t.aTensorScores := by
        unfold mergeAt
        dsimp only
        rw [htra]
      have hdb : (mergeAt rhs tr i e.cNewSlices
          ((t.dims.getD i default).cSlices)).bExpanded = t.bExpanded := by
        unfold mergeAt
        dsimp only
        rw [htrb]
      refine ⟨t4, hrec, ?_, ?_, ?_, ?_, ?_, ?_⟩
      · rw [hc4, hdc]
      · rw [ha4, hda]
      · rw [hb4, hdb]
      · rw [hl4, hT3d, List.length_set]
      · intro k hk
        rw [hpre4 k (by omega), hT3get _ (by omega)]
      · intro k hk
        cases k with
        | zero =>
            have hgetT3 : t4.dims.getD (i + 0) default =
                mergedDimAt rhs tr i e.cNewSlices ((t.dims.getD i default).cSlices) := by
              rw [Nat.add_zero, hpre4 i (by omega), hT3d, getD_set_self _ _ _ _ hi]
            rw [hgetT3, Nat.add_zero]
            refine ⟨hpd3s, ?_⟩
            intro m hm
            rw [hLu] at hm
            have hval := hmerged m (by omega)
            have haccess : (mergedDimAt rhs tr i e.cNewSlices
                ((t.dims.getD i default).cSlices)).aSplits m =
                mergedSplitsFun rhs tr i e.cNewSlices
                  ((t.dims.getD i default).cSlices) m := rfl
            rw [haccess, hval]
            simp [mergedOf]
        | succ kk =>
            rw [List.length_cons] at hk
            have h1 := hdense4 kk (by omega)
            have h2 : i + (kk + 1) = (i + 1) + kk := by omega
            rw [h2]
            rw [hT3get _ (by omega)] at h1
            exact h1

theorem addWF_of_dimWF : ∀ {ds1 : List DimensionInfo} {Bs : List Nat}
    {ds2 : List DimensionInfo},
    List.Forall₂ dimWF ds1 Bs → List.Forall₂ dimWF ds2 Bs →
    AddWF ds1 ds2 (List.zipWith mergedOf ds1 ds2) Bs := by
  intro ds1 Bs ds2 h1
  induction h1 generalizing ds2 with
  | nil =>
      intro h2
      cases h2
      exact AddWF.nil
  | cons hdb htail ih =>
      intro h2
      cases h2 with
      | cons hdb2 htail2 =>
          rw [List.zipWith_cons_cons]
          exact AddWF.cons (mergedOf_addDimWF hdb hdb2) (ih htail2)

theorem addStack_init : ∀ {ds1 ds2 : List DimensionInfo} {Bs : List Nat},
    AddWF ds1 ds2 (List.zipWith mergedOf ds1 ds2) Bs →
    List.zipWith (fun (d1 : DimensionInfo) (d2 : DimensionInfo) =>
        (DimensionInfoStack.mk (d1.cSlices - 1) (d2.cSlices - 1) (cMergedSlices d1 d2),
          d1, d2)) ds1 ds2 =
      addStack ds1 ds2 (List.zipWith mergedOf ds1 ds2)
        ((List.zipWith mergedOf ds1 ds2).map fun dm => dm.cSlices - 1) := by
  intro ds1
  induction ds1 with
  | nil => intro ds2 Bs _; rfl
  | cons d1 ds1t iht =>
      intro ds2 Bs hwf
      cases ds2 with
      | nil => rfl
      | cons d2 ds2t =>
          rw [List.zipWith_cons_cons] at hwf
          cases hwf with
          | cons hdw htail =>
              rw [List.zipWith_cons_cons, List.zipWith_cons_cons, List.map_cons,
                addStack_cons, iht htail]
              have h1 := hdw.1
              have h2 := hdw.2.1
              have hm := hdw.2.2.1
              have incl1 := hdw.2.2.2.1
              have incl2 := hdw.2.2.2.2.1
              rw [sigma_top h1 hm incl1, sigma_top h2 hm incl2, cMergedSlices_eq]

theorem stack_cNew_map : ∀ (ds1 ds2 : List DimensionInfo),
    (List.zipWith (fun (d1 : DimensionInfo) (d2 : DimensionInfo) =>
        (DimensionInfoStack.mk (d1.cSlices - 1) (d2.cSlices - 1) (cMergedSlices d1 d2),
          d1, d2)) ds1 ds2).map (fun s => s.1.cNewSlices) =
      (List.zipWith mergedOf ds1 ds2).map DimensionInfo.cSlices := by
  intro ds1
  induction ds1 with
  | nil => intro ds2; rfl
  | cons d1 ds1t iht =>
      intro ds2
      cases ds2 with
      | nil => rfl
      | cons d2 ds2t =>
          rw [List.zipWith_cons_cons, List.zipWith_cons_cons, List.map_cons,
            List.map_cons, iht ds2t]
          rw [cMergedSlices_eq]

theorem stack_es_getD : ∀ (ds1 ds2 : List DimensionInfo) (k : Nat),
    k < ds1.length → k < ds2.length →
    ((List.zipWith (fun (d1 : DimensionInfo) (d2 : DimensionInfo) =>
        (DimensionInfoStack.mk (d1.cSlices - 1) (d2.cSlices - 1) (cMergedSlices d1 d2),
          d1, d2)) ds1 ds2).map Prod.fst).getD k default =
      DimensionInfoStack.mk ((ds1.getD k default).cSlices - 1)
        ((ds2.getD k default).cSlices - 1)
        (mergedOf (ds1.getD k default) (ds2.getD k default)).cSlices := by
  intro ds1
  induction ds1 with
  | nil => intro ds2 k hk; simp at hk
  | cons d1 ds1t iht =>
      intro ds2 k hk1 hk2
      cases ds2 with
      | nil => simp at hk2
      | cons d2 ds2t =>
          rw [List.zipWith_cons_cons, List.map_cons]
          cases k with
          | zero =>
              rw [List.getD_cons_zero, List.getD_cons_zero, List.getD_cons_zero]
              dsimp only
              rw [cMergedSlices_eq]
          | succ kk =>
              rw [List.getD_cons_succ, List.getD_cons_succ, List.getD_cons_succ]
              exact iht ds2t kk (by simpa using hk1) (by simpa using hk2)

theorem Ms_pos : ∀ {ds1 ds2 dms : List DimensionInfo} {Bs : List Nat},
    AddWF ds1 ds2 dms Bs → ∀ M ∈ dms.map DimensionInfo.cSlices, 1 ≤ M := by
  intro ds1 ds2 dms Bs hwf
  induction hwf with
  | nil => intro M hM; simp at hM
  | cons hdw htail ih =>
      intro M hM
      rw [List.map_cons] at hM
      rcases List.mem_cons.mp hM with hM | hM
      · subst hM
        exact hdw.2.2.1.1
      · exact ih M hM

theorem map_pred_valid {Ms : List Nat} (h : ∀ M ∈ Ms, 1 ≤ M) :
    List.Forall₂ (fun c b => c < b) (Ms.map fun M => M - 1) Ms := by
  induction Ms with
  | nil => exact List.Forall₂.nil
  | cons M Mst ih =>
      rw [List.map_cons]
      refine List.Forall₂.cons ?_ (ih fun x hx => h x (List.mem_cons_of_mem _ hx))
      have := h M (List.mem_cons_self _ _)
      omega

theorem flatIndexN_rsMax : ∀ (Ms : List Nat), (∀ M ∈ Ms, 1 ≤ M) →
    flatIndexN Ms (Ms.map fun M => M - 1) = Ms.prod - 1 := by
  intro Ms
  induction Ms with
  | nil => intro _; simp
  | cons M Mst ih =>
      intro h
      rw [List.map_cons, flatIndexN_cons, List.prod_cons,
        ih fun x hx => h x (List.mem_cons_of_mem _ hx)]
      have hM : 1 ≤ M := h M (List.mem_cons_self _ _)
      have hP : 1 ≤ Mst.prod := prod_pos_of_pos fun x hx => h x (List.mem_cons_of_mem _ hx)
      obtain ⟨q, hq⟩ : ∃ q, Mst.prod = q + 1 := ⟨Mst.prod - 1, by omega⟩
      rw [hq]
      have e1 : M * (q + 1) = M * q + M := by ring
      have e2 : (q + 1 - 1) = q := by omega
      rw [e2]
      omega

theorem rsMax_dms (dms : List DimensionInfo) :
    (dms.map fun dm => dm.cSlices - 1) =
      (dms.map DimensionInfo.cSlices).map fun M => M - 1 := by
  rw [List.map_map]
  rfl

theorem rsMax_valid {ds1 ds2 dms : List DimensionInfo} {Bs : List Nat}
    (hwf : AddWF ds1 ds2 dms Bs) :
    List.Forall₂ (fun (r : Nat) (dm : DimensionInfo) => r < dm.cSlices)
      (dms.map fun dm => dm.cSlices - 1) dms := by
  refine forall₂_lt_unmap ?_
  rw [rsMax_dms]
  exact map_pred_valid (Ms_pos hwf)

theorem prod_le_of_forall₂ : ∀ {xs ys : List Nat},
    List.Forall₂ (fun a b => a ≤ b) xs ys → xs.prod ≤ ys.prod := by
  intro xs ys h
  induction h with
  | nil => simp
  | cons hab htail ih =>
      rw [List.prod_cons, List.prod_cons]
      exact Nat.mul_le_mul hab ih

theorem Ms_le_Bs : ∀ {ds1 ds2 dms : List DimensionInfo} {Bs : List Nat},
    AddWF ds1 ds2 dms Bs →
    List.Forall₂ (fun a b => a ≤ b) (dms.map DimensionInfo.cSlices) Bs := by
  intro ds1 ds2 dms Bs hwf
  induction hwf with
  | nil => exact List.Forall₂.nil
  | cons hdw htail ih =>
      rw [List.map_cons]
      exact List.Forall₂.cons hdw.2.2.1.2.1 ih

theorem countLE_congr_fn (s s' : Nat → Nat) (m b : Nat)
    (h : ∀ k, k < m → s k = s' k) : countLE s m b = countLE s' m b := by
  induction m with
  | zero => rfl
  | succ mm ih =>
      rw [countLE_succ, countLE_succ, ih (fun k hk => h k (by omega)),
        h mm (by omega)]

theorem sliceOf_congr {d d' : DimensionInfo} (hs : d.cSlices = d'.cSlices)
    (ha : ∀ m, m < d.cSlices - 1 → d.aSplits m = d'.aSplits m) (c : Nat) :
    d.sliceOf c = d'.sliceOf c := by
  simp only [DimensionInfo.sliceOf]
  rw [← hs]
  exact countLE_congr_fn _ _ _ _ ha

theorem flatIndex_congr : ∀ (ds ds' : List DimensionInfo) (cs : List Nat),
    ds.length = ds'.length →
    (∀ k, k < ds.length → (ds.getD k default).cSlices = (ds'.getD k default).cSlices ∧
      ∀ c, (ds.getD k default).sliceOf c = (ds'.getD k default).sliceOf c) →
    flatIndex ds cs = flatIndex ds' cs := by
  intro ds
  induction ds with
  | nil =>
      intro ds' cs hlen _
      rw [List.length_nil] at hlen
      have : ds' = [] := List.length_eq_zero.mp hlen.symm
      rw [this]
  | cons d dst ih =>
      intro ds' cs hlen hk
      cases ds' with
      | nil => simp at hlen
      | cons d' ds't =>
          cases cs with
          | nil => simp
          | cons c cst =>
              rw [flatIndex_cons, flatIndex_cons]
              have h0 := hk 0 (by simp)
              rw [List.getD_cons_zero, List.getD_cons_zero] at h0
              rw [h0.2 c, h0.1, ih ds't cst (by simpa using hlen) ?_]
              intro k hkk
              have := hk (k + 1) (by simpa using Nat.succ_lt_succ hkk)
              rw [List.getD_cons_succ, List.getD_cons_succ] at this
              exact this

theorem flatIndex_sliceOf_eq : ∀ (dms : List DimensionInfo) (cs : List Nat),
    flatIndex dms cs = flatIndexN (dms.map DimensionInfo.cSlices)
      (List.zipWith DimensionInfo.sliceOf dms cs) := by
  intro dms
  induction dms with
  | nil => intro cs; simp
  | cons dm dmst ih =>
      intro cs
      cases cs with
      | nil => simp
      | cons c cst =>
          rw [List.map_cons, List.zipWith_cons_cons, flatIndex_cons, flatIndexN_cons,
            ih cst]

theorem rs_sliceOf_valid : ∀ {ds1 ds2 dms : List DimensionInfo} {Bs : List Nat},
    AddWF ds1 ds2 dms Bs → ∀ {cs : List Nat},
    List.Forall₂ (fun c b => c < b) cs Bs →
    List.Forall₂ (fun (r : Nat) (dm : DimensionInfo) => r < dm.cSlices)
      (List.zipWith DimensionInfo.sliceOf dms cs) dms := by
  intro ds1 ds2 dms Bs hwf
  induction hwf with
  | nil =>
      intro cs hc
      cases hc
      exact List.Forall₂.nil
  | cons hdw htail ih =>
      intro cs hc
      cases hc with
      | cons hcb hct =>
          rename_i d1 d2 dm B ds1t ds2t dmst Bst c cst
          rw [List.zipWith_cons_cons]
          refine List.Forall₂.cons ?_ (ih hct)
          have hm := hdw.2.2.1
          have h1 : 1 ≤ dm.cSlices := hm.1
          have hle : dm.sliceOf c ≤ dm.cSlices - 1 := sliceOf_le c
          omega

theorem sliceOf_repBin_compat {d1 dm : DimensionInfo} {B : Nat}
    (h1 : dimWF d1 B) (hm : dimWF dm B)
    (incl : ∀ k, k < d1.cSlices - 1 → ∃ j, j < dm.cSlices - 1 ∧ dm.aSplits j = d1.aSplits k)
    (c : Nat) :
    d1.sliceOf (repBin dm (dm.sliceOf c)) = d1.sliceOf c := by
  have hβc : repBin dm (dm.sliceOf c) ≤ c := repBin_le_of_sliceOf hm c
  obtain ⟨hlowU, hhighU⟩ := countLE_inv dm.aSplits (dm.cSlices - 1) c (dimWF_mono hm)
  simp only [DimensionInfo.sliceOf] at hβc hlowU hhighU ⊢
  refine countLE_congr _ _ ?_
  intro k hk
  constructor
  · intro hle
    omega
  · intro hle
    obtain ⟨j, hj, hju⟩ := incl k hk
    have hjlt : j < countLE dm.aSplits (dm.cSlices - 1) c := by
      by_contra hc2
      have := hhighU j (by omega) hj
      omega
    have hr1 : 1 ≤ countLE dm.aSplits (dm.cSlices - 1) c := by omega
    have hrep : repBin dm (countLE dm.aSplits (dm.cSlices - 1) c) =
        dm.aSplits (countLE dm.aSplits (dm.cSlices - 1) c - 1) := by
      rw [repBin, if_neg (by omega)]
    rw [hrep]
    have hle2 : dm.aSplits j ≤
        dm.aSplits (countLE dm.aSplits (dm.cSlices - 1) c - 1) := by
      refine splits_mono_le hm (by omega) ?_
      have hcle := countLE_le dm.aSplits (dm.cSlices - 1) c
      omega
    omega

theorem flatIndex_reps_eq : ∀ {ds1 ds2 dms : List DimensionInfo} {Bs : List Nat},
    AddWF ds1 ds2 dms Bs → ∀ {cs : List Nat},
    List.Forall₂ (fun c b => c < b) cs Bs →
    flatIndex ds1 (List.zipWith repBin dms (List.zipWith DimensionInfo.sliceOf dms cs)) =
      flatIndex ds1 cs ∧
    flatIndex ds2 (List.zipWith repBin dms (List.zipWith DimensionInfo.sliceOf dms cs)) =
      flatIndex ds2 cs := by
  intro ds1 ds2 dms Bs hwf
  induction hwf with
  | nil =>
      intro cs hc
      cases hc
      simp
  | cons hdw htail ih =>
      intro cs hc
      cases hc with
      | cons hcb hct =>
          rename_i d1 d2 dm B ds1t ds2t dmst Bst c cst
          rw [List.zipWith_cons_cons, List.zipWith_cons_cons, flatIndex_cons,
            flatIndex_cons, flatIndex_cons, flatIndex_cons]
          obtain ⟨ih1, ih2⟩ := ih hct
          constructor
          · rw [ih1, sliceOf_repBin_compat hdw.1 hdw.2.2.1 hdw.2.2.2.1 c]
          · rw [ih2, sliceOf_repBin_compat hdw.2.1 hdw.2.2.1 hdw.2.2.2.2.1 c]

theorem zipWith_mergedOf_getD : ∀ (ds1 ds2 : List DimensionInfo) (k : Nat),
    k < ds1.length → k < ds2.length →
    (List.zipWith mergedOf ds1 ds2).getD k default =
      mergedOf (ds1.getD k default) (ds2.getD k default) := by
  intro ds1
  induction ds1 with
  | nil => intro ds2 k hk; simp at hk
  | cons d1 ds1t iht =>
      intro ds2 k hk1 hk2
      cases ds2 with
      | nil => simp at hk2
      | cons d2 ds2t =>
          rw [List.zipWith_cons_cons]
          cases k with
          | zero => rw [List.getD_cons_zero, List.getD_cons_zero, List.getD_cons_zero]
          | succ kk =>
              rw [List.getD_cons_succ, List.getD_cons_succ, List.getD_cons_succ]
              exact iht ds2t kk (by simpa using hk1) (by simpa using hk2)

theorem liveSplits_eq_of {d : DimensionInfo} {u : List Nat}
    (hs : d.cSlices = u.length + 1)
    (ha : ∀ m, m < u.length → d.aSplits m = u.getD m 0) :
    d.liveSplits = u := by
  refine List.ext_getElem ?_ ?_
  · rw [liveSplits_length, hs]
    omega
  · intro i h1 h2
    rw [← List.getD_eq_getElem _ 0 h1, ← List.getD_eq_getElem _ 0 h2]
    rw [liveSplits_length, hs] at h1
    rw [liveSplits_getD d i (by omega), ha i (by omega)]

theorem flatIndex_top : ∀ {ds1 ds2 dms : List DimensionInfo} {Bs : List Nat},
    AddWF ds1 ds2 dms Bs →
    flatIndex ds1 (List.zipWith repBin dms (dms.map fun dm => dm.cSlices - 1)) =
      (ds1.map DimensionInfo.cSlices).prod - 1 ∧
    flatIndex ds2 (List.zipWith repBin dms (dms.map fun dm => dm.cSlices - 1)) =
      (ds2.map DimensionInfo.cSlices).prod - 1 ∧
    1 ≤ (ds1.map DimensionInfo.cSlices).prod ∧
    1 ≤ (ds2.map DimensionInfo.cSlices).prod := by
  intro ds1 ds2 dms Bs hwf
  induction hwf with
  | nil => simp
  | cons hdw htail ih =>
      rename_i d1 d2 dm B ds1t ds2t dmst Bst
      obtain ⟨ih1, ih2, ihp1, ihp2⟩ := ih
      have h1 := hdw.1
      have h2 := hdw.2.1
      have hm := hdw.2.2.1
      have incl1 := hdw.2.2.2.1
      have incl2 := hdw.2.2.2.2.1
      have hn1 : 1 ≤ d1.cSlices := h1.1
      have hn2 : 1 ≤ d2.cSlices := h2.1
      rw [List.map_cons, List.zipWith_cons_cons, flatIndex_cons, flatIndex_cons,
        List.map_cons, List.map_cons, List.prod_cons, List.prod_cons, ih1, ih2,
        sigma_top h1 hm incl1, sigma_top h2 hm incl2]
      obtain ⟨q1, hq1⟩ : ∃ q, (ds1t.map DimensionInfo.cSlices).prod = q + 1 :=
        ⟨(ds1t.map DimensionInfo.cSlices).prod - 1, by omega⟩
      obtain ⟨q2, hq2⟩ : ∃ q, (ds2t.map DimensionInfo.cSlices).prod = q + 1 :=
        ⟨(ds2t.map DimensionInfo.cSlices).prod - 1, by omega⟩
      rw [hq1, hq2]
      refine ⟨?_, ?_, ?_, ?_⟩
      · have e1 : d1.cSlices * (q1 + 1) = d1.cSlices * q1 + d1.cSlices := by ring
        have e2 : (q1 + 1 - 1) = q1 := by omega
        rw [e2]
        omega
      · have e1 : d2.cSlices * (q2 + 1) = d2.cSlices * q2 + d2.cSlices := by ring
        have e2 : (q2 + 1 - 1) = q2 := by omega
        rw [e2]
        omega
      · have e1 : d1.cSlices * (q1 + 1) = d1.cSlices * q1 + d1.cSlices := by ring
        omega
      · have e1 : d2.cSlices * (q2 + 1) = d2.cSlices * q2 + d2.cSlices := by ring
        omega

theorem add_tail (rhs : Tensor) (alloc : Nat → Bool) (halloc : ∀ k, alloc k = true)
    (Bs : List Nat) (t t2 : Tensor) (Y : Nat → EFloat)
    (hd1 : List.Forall₂ dimWF t.dims Bs)
    (hd2 : List.Forall₂ dimWF rhs.dims Bs)
    (hBsmall : ∀ b ∈ Bs, b ≤ 2 ^ 59)
    (ht2d : t2.dims = t.dims) (ht2s : t2.cScores = t.cScores)
    (es : List DimensionInfoStack)
    (heslen : es.length = t.dims.length)
    (hes : ∀ k, k < t.dims.length → es.getD k default =
      DimensionInfoStack.mk ((t.dims.getD k default).cSlices - 1)
        ((rhs.dims.getD k default).cSlices - 1)
        (mergedOf (t.dims.getD k default) (rhs.dims.getD k default)).cSlices)
    (hY : ∀ coord : List Nat, List.Forall₂ (fun c b => c < b) coord Bs →
      ∀ j, j < t.cScores →
      Y (t.cScores * flatIndex (List.zipWith mergedOf t.dims rhs.dims) coord + j) =
        EFloat.add (t.aTensorScores (t.cScores * flatIndex t.dims coord + j))
          (rhs.aTensorScores (rhs.cScores * flatIndex rhs.dims coord + j))) :
    (addSplits rhs alloc es 0 { t2 with aTensorScores := Y }).1 = .Error_None ∧
    (∀ k, k < t.dims.length →
      ((addSplits rhs alloc es 0 { t2 with aTensorScores := Y }).2.dims.getD k
          default).liveSplits =
        mergeLists (t.dims.getD k default).liveSplits
          (rhs.dims.getD k default).liveSplits ∧
      ((addSplits rhs alloc es 0 { t2 with aTensorScores := Y }).2.dims.getD k
          default).cSlices ≤
        (t.dims.getD k default).cSlices + (rhs.dims.getD k default).cSlices - 1) ∧
    (∀ coord : List Nat, List.Forall₂ (fun c b => c < b) coord Bs →
      ∀ j, j < t.cScores →
        (addSplits rhs alloc es 0 { t2 with aTensorScores := Y }).2.sample coord j =
          EFloat.add (t.sample coord j) (rhs.sample coord j)) := by
  have hrec : ({ t2 with aTensorScores := Y } : Tensor).dims = t.dims := by
    dsimp only
    exact ht2d
  have hlenB : Bs.length = t.dims.length := hd1.length_eq.symm
  have hlen2 : rhs.dims.length = t.dims.length := by
    rw [hd2.length_eq, hlenB]
  have hlen0 : ({ t2 with aTensorScores := Y } : Tensor).dims.length = 0 + es.length := by
    rw [hrec, Nat.zero_add, heslen]
  have hwf0 : ∀ k, k < es.length → ∃ B, B ≤ 2 ^ 59 ∧
      dimWF (({ t2 with aTensorScores := Y } : Tensor).dims.getD (0 + k) default) B ∧
      dimWF (rhs.dims.getD (0 + k) default) B := by
    intro k hk
    rw [heslen] at hk
    rw [hrec, Nat.zero_add]
    refine ⟨Bs.getD k 0, hBsmall _ (getD_mem_self (by omega)), ?_, ?_⟩
    · exact forall₂_getD dimWF t.dims Bs default 0 hd1 k (by omega)
    · exact forall₂_getD dimWF rhs.dims Bs default 0 hd2 k (by omega)
  have hes0 : ∀ k, k < es.length → es.getD k default =
      DimensionInfoStack.mk
        ((({ t2 with aTensorScores := Y } : Tensor).dims.getD (0 + k) default).cSlices - 1)
        ((rhs.dims.getD (0 + k) default).cSlices - 1)
        (mergedOf (({ t2 with aTensorScores := Y } : Tensor).dims.getD (0 + k) default)
          (rhs.dims.getD (0 + k) default)).cSlices := by
    intro k hk
    rw [heslen] at hk
    rw [hrec, Nat.zero_add]
    exact hes k hk
  obtain ⟨t4, hsp, hsc, hsa, hsb, hslen, _, hmg⟩ :=
    addSplits_spec rhs alloc halloc es 0 { t2 with aTensorScores := Y } hlen0 hwf0 hes0
  rw [hsp]
  have hmg2 : ∀ k, k < t.dims.length →
      (t4.dims.getD k default).cSlices =
        (mergedOf (t.dims.getD k default) (rhs.dims.getD k default)).cSlices ∧
      ∀ m, m < (mergedOf (t.dims.getD k default) (rhs.dims.getD k default)).cSlices - 1 →
        (t4.dims.getD k default).aSplits m =
          (mergedOf (t.dims.getD k default) (rhs.dims.getD k default)).aSplits m := by
    intro k hk
    have := hmg k (by rw [heslen]; omega)
    rwa [Nat.zero_add, hrec] at this
  refine ⟨rfl, ?_, ?_⟩
  · intro k hk
    obtain ⟨hcs, hsplits⟩ := hmg2 k hk
    have hLk : (mergedOf (t.dims.getD k default) (rhs.dims.getD k default)).cSlices =
        (mergeLists (t.dims.getD k default).liveSplits
          (rhs.dims.getD k default).liveSplits).length + 1 := rfl
    constructor
    · refine liveSplits_eq_of ?_ ?_
      · rw [hcs, hLk]
      · intro m hm
        rw [hsplits m (by rw [hLk]; omega)]
        rfl
    · have hd1k := forall₂_getD dimWF t.dims Bs default 0 hd1 k (by rw [hlenB]; omega)
      have hd2k := forall₂_getD dimWF rhs.dims Bs default 0 hd2 k (by rw [hlenB]; omega)
      have hn1 : 1 ≤ (t.dims.getD k default).cSlices := hd1k.1
      have hn2 : 1 ≤ (rhs.dims.getD k default).cSlices := hd2k.1
      have hmerge := length_mergeLists_le (t.dims.getD k default).liveSplits
        (rhs.dims.getD k default).liveSplits
      rw [liveSplits_length, liveSplits_length] at hmerge
      rw [hcs, hLk]
      omega
  · intro coord hc j hj
    show t4.aTensorScores (t4.cScores * flatIndex t4.dims coord + j) =
      EFloat.add (t.aTensorScores (t.cScores * flatIndex t.dims coord + j))
        (rhs.aTensorScores (rhs.cScores * flatIndex rhs.dims coord + j))
    rw [hsa, hsc]
    show Y (t2.cScores * flatIndex t4.dims coord + j) =
      EFloat.add (t.aTensorScores (t.cScores * flatIndex t.dims coord + j))
        (rhs.aTensorScores (rhs.cScores * flatIndex rhs.dims coord + j))
    have hlen4 : t4.dims.length = t.dims.length := by
      rw [hslen, hrec]
    have hflat4 : flatIndex t4.dims coord =
        flatIndex (List.zipWith mergedOf t.dims rhs.dims) coord := by
      refine flatIndex_congr t4.dims (List.zipWith mergedOf t.dims rhs.dims) coord ?_ ?_
      · rw [hlen4, List.length_zipWith, hlen2]
        omega
      · intro k hk
        rw [hlen4] at hk
        obtain ⟨hcs, hsplits⟩ := hmg2 k hk
        rw [zipWith_mergedOf_getD t.dims rhs.dims k hk (by rw [hlen2]; omega)]
        refine ⟨hcs, fun c => sliceOf_congr hcs ?_ c⟩
        intro m hm
        rw [hcs] at hm
        exact hsplits m hm
    rw [ht2s, hflat4]
    exact hY coord hc j hj

/-- Claim C1: for two tensors with the same dimension count `D ≥ 1` and the same
score count, under the tensors' sortedness invariants, successful allocations and
sizes below the overflow checks, `Add` returns `Error_None`; along each dimension the
result's live split array is the sorted union of the two input split arrays with
duplicates merged (hence the merged slice count is at most
`cSlices_self + cSlices_rhs − 1`), and sampling the result at any bin coordinate
gives the floating-point sum of the two input samples. -/
theorem Add_correct (t rhs : Tensor) (alloc : Nat → Bool) (Bs : List Nat)
    (hd1 : List.Forall₂ dimWF t.dims Bs)
    (hd2 : List.Forall₂ dimWF rhs.dims Bs)
    (hD1 : 1 ≤ t.dims.length)
    (hS : 0 < t.cScores)
    (hSeq : rhs.cScores = t.cScores)
    (halloc : ∀ i, alloc i = true)
    (hBsmall : ∀ b ∈ Bs, b ≤ 2 ^ 59)
    (hsz : t.cScores * Bs.prod ≤ 2 ^ 60) :
    (t.Add rhs alloc).1 = .Error_None ∧
    (∀ k, k < t.dims.length →
      ((t.Add rhs alloc).2.dims.getD k default).liveSplits =
        mergeLists (t.dims.getD k default).liveSplits
          (rhs.dims.getD k default).liveSplits ∧
      ((t.Add rhs alloc).2.dims.getD k default).cSlices ≤
        (t.dims.getD k default).cSlices + (rhs.dims.getD k default).cSlices - 1) ∧
    (∀ coord : List Nat, List.Forall₂ (fun c b => c < b) coord Bs →
      ∀ j, j < t.cScores →
        (t.Add rhs alloc).2.sample coord j =
          EFloat.add (t.sample coord j) (rhs.sample coord j)) := by
  have hwfA : AddWF t.dims rhs.dims (List.zipWith mergedOf t.dims rhs.dims) Bs :=
    addWF_of_dimWF hd1 hd2
  have hlen2 : rhs.dims.length = t.dims.length := by
    rw [hd2.length_eq, ← hd1.length_eq]
  unfold Tensor.Add
  rw [if_neg (by omega)]
  dsimp only
  rw [stack_cNew_map t.dims rhs.dims]
  have hMsposmem : ∀ M ∈ (List.zipWith mergedOf t.dims rhs.dims).map
      DimensionInfo.cSlices, 1 ≤ M := Ms_pos hwfA
  have hprodle : ((List.zipWith mergedOf t.dims rhs.dims).map
      DimensionInfo.cSlices).prod ≤ Bs.prod :=
    prod_le_of_forall₂ (Ms_le_Bs hwfA)
  have hprodpos : 1 ≤ ((List.zipWith mergedOf t.dims rhs.dims).map
      DimensionInfo.cSlices).prod := prod_pos_of_pos hMsposmem
  have hmulerr : IsMultiplyError cBytesPerFloat
      (t.cScores * ((List.zipWith mergedOf t.dims rhs.dims).map
        DimensionInfo.cSlices).prod) = false := by
    unfold IsMultiplyError cBytesPerFloat cSizeMax
    simp only [decide_eq_false_iff_not, not_le]
    have := Nat.mul_le_mul_left t.cScores hprodle
    omega
  have hens : ∃ t2, t.EnsureTensorScoreCapacity
      (t.cScores * ((List.zipWith mergedOf t.dims rhs.dims).map
        DimensionInfo.cSlices).prod) (alloc 0) =
      (.Error_None, t2) ∧ t2.dims = t.dims ∧ t2.cScores = t.cScores ∧
      t2.aTensorScores = t.aTensorScores := by
    rw [halloc 0]
    unfold Tensor.EnsureTensorScoreCapacity
    rw [if_neg (by rw [hmulerr]; exact Bool.false_ne_true)]
    by_cases hcap : cBytesPerFloat *
        (t.cScores * ((List.zipWith mergedOf t.dims rhs.dims).map
          DimensionInfo.cSlices).prod) ≤ t.cTensorScoreCapacity
    · rw [if_pos hcap]
      exact ⟨t, rfl, rfl, rfl, rfl⟩
    · rw [if_neg hcap, if_pos rfl]
      exact ⟨_, rfl, rfl, rfl, rfl⟩
  obtain ⟨t2, hens, ht2d, ht2s, ht2a⟩ := hens
  rw [hens]
  dsimp only
  obtain ⟨n, hn1⟩ : ∃ n, ((List.zipWith mergedOf t.dims rhs.dims).map
      DimensionInfo.cSlices).prod = n + 1 :=
    ⟨((List.zipWith mergedOf t.dims rhs.dims).map DimensionInfo.cSlices).prod - 1,
      by omega⟩
  have hnM : flatIndexN ((List.zipWith mergedOf t.dims rhs.dims).map
      DimensionInfo.cSlices)
      ((List.zipWith mergedOf t.dims rhs.dims).map fun dm => dm.cSlices - 1) = n := by
    rw [rsMax_dms, flatIndexN_rsMax _ hMsposmem, hn1]
    omega
  obtain ⟨hflat1, hflat2, hP1, hP2⟩ := flatIndex_top hwfA
  have hlive1 : t.liveScoreCount = t.cScores *
      (flatIndex t.dims (List.zipWith repBin (List.zipWith mergedOf t.dims rhs.dims)
        ((List.zipWith mergedOf t.dims rhs.dims).map fun dm => dm.cSlices - 1)) + 1) := by
    unfold Tensor.liveScoreCount
    rw [hflat1]
    congr 1
    omega
  have hlive2 : rhs.liveScoreCount = t.cScores *
      (flatIndex rhs.dims (List.zipWith repBin (List.zipWith mergedOf t.dims rhs.dims)
        ((List.zipWith mergedOf t.dims rhs.dims).map fun dm => dm.cSlices - 1)) + 1) := by
    unfold Tensor.liveScoreCount
    rw [hSeq, hflat2]
    congr 1
    omega
  have htop : t.cScores * ((List.zipWith mergedOf t.dims rhs.dims).map
      DimensionInfo.cSlices).prod = t.cScores * (n + 1) := by rw [hn1]
  have hfuel : n + 1 ≤ t.cScores * (n + 1) := Nat.le_mul_of_pos_left (n + 1) hS
  rw [ht2a, hlive1, hlive2, addStack_init hwfA, htop]
  obtain ⟨H1, H2⟩ := addLoop_spec t.dims rhs.dims (List.zipWith mergedOf t.dims rhs.dims)
    Bs hwfA t.cScores hS t.aTensorScores rhs.aTensorScores n
    ((List.zipWith mergedOf t.dims rhs.dims).map fun dm => dm.cSlices - 1)
    (t.cScores * (n + 1)) t.aTensorScores (rsMax_valid hwfA) hnM hfuel (fun x _ => rfl)
  refine add_tail rhs alloc halloc Bs t t2 _ hd1 hd2 hBsmall ht2d ht2s _ ?_ ?_ ?_
  · rw [← addStack_init hwfA, List.length_map, List.length_zipWith, hlen2, Nat.min_self]
  · intro k hk
    rw [← addStack_init hwfA]
    exact stack_es_getD t.dims rhs.dims k hk (by rw [hlen2]; omega)
  · intro coord hc j hj
    have hrsv := rs_sliceOf_valid hwfA hc
    have hle : flatIndexN ((List.zipWith mergedOf t.dims rhs.dims).map
        DimensionInfo.cSlices)
        (List.zipWith DimensionInfo.sliceOf (List.zipWith mergedOf t.dims rhs.dims)
          coord) ≤ n := by
      have := flatIndexN_lt_prod (forall₂_lt_map hrsv)
      omega
    have h := H1 (List.zipWith DimensionInfo.sliceOf
      (List.zipWith mergedOf t.dims rhs.dims) coord) hrsv hle j hj
    rw [(flatIndex_reps_eq hwfA hc).1, (flatIndex_reps_eq hwfA hc).2] at h
    rw [flatIndex_sliceOf_eq (List.zipWith mergedOf t.dims rhs.dims) coord, hSeq]
    exact h

/-- A one-dimensional, two-slice tensor split at bin 2 of 3. -/
def tensorAddA : Tensor :=
  { cScores := 1
    dims := [⟨2, 2, fun k => if k = 0 then 2 else 0⟩]
    cTensorScoreCapacity := 64
    aTensorScores := fun i => EFloat.val i
    bExpanded := false }

/-- A one-dimensional, two-slice tensor split at bin 1 of 3. -/
def tensorAddB : Tensor :=
  { cScores := 1
    dims := [⟨2, 2, fun k => if k = 0 then 1 else 0⟩]
    cTensorScoreCapacity := 64
    aTensorScores := fun i => EFloat.val (10 * i)
    bExpanded := false }

/-- Witness for claim C1 at a concrete input: adding the two one-dimensional tensors
succeeds, merges the split sets, and sums the samples pointwise. -/
theorem Add_correct_witness :
    (tensorAddA.Add tensorAddB (fun _ => true)).1 = .Error_None ∧
    (∀ k, k < tensorAddA.dims.length →
      (((tensorAddA.Add tensorAddB (fun _ => true)).2.dims.getD k
          default).liveSplits =
        mergeLists (tensorAddA.dims.getD k default).liveSplits
          (tensorAddB.dims.getD k default).liveSplits ∧
      ((tensorAddA.Add tensorAddB (fun _ => true)).2.dims.getD k
          default).cSlices ≤
        (tensorAddA.dims.getD k default).cSlices +
          (tensorAddB.dims.getD k default).cSlices - 1)) ∧
    (∀ coord : List Nat, List.Forall₂ (fun c b => c < b) coord [3] →
      ∀ j, j < tensorAddA.cScores →
        (tensorAddA.Add tensorAddB (fun _ => true)).2.sample coord j =
          EFloat.add (tensorAddA.sample coord j) (tensorAddB.sample coord j)) :=
  Add_correct tensorAddA tensorAddB (fun _ => true) [3]
    (List.Forall₂.cons
      (by
        refine ⟨?_, ?_, ?_, ?_⟩ <;> dsimp only [dimWF]
        · omega
        · omega
        · intro k hk
          have hk0 : k = 0 := by omega
          subst hk0
          constructor <;> simp
        · intro k hk j hj
          omega)
      List.Forall₂.nil)
    (List.Forall₂.cons
      (by
        refine ⟨?_, ?_, ?_, ?_⟩ <;> dsimp only [dimWF]
        · omega
        · omega
        · intro k hk
          have hk0 : k = 0 := by omega
          subst hk0
          constructor <;> simp
        · intro k hk j hj
          omega)
      List.Forall₂.nil)
    (by norm_num [tensorAddA])
    (by norm_num [tensorAddA])
    rfl
    (fun _ => rfl)
    (by norm_num)
    (by norm_num [tensorAddA])
